import Mathlib

/-!
# Maze graph and breadth-first solver (`maze.cpp`)

A shallow embedding of `maze::Cell` and `maze::Maze`.

* A `Cell*` that points into `cellVector_` is the index of the cell it points
  to; the null pointer is `none`.
* `unsigned int` is 32 bits wide: sums, differences and products are taken
  modulo `2^32` (`uadd`, `usub`, `umul`).
* The input stream is the list of tokens that `operator>>` meets: `some v` is a
  token that reads as the number `v`, `none` a token that does not read as a
  number.  The end of the list is the end of the file.
* What the code prints on `std::cerr` is returned as a list of `Diag` values.
* The containers `fsu::Vector`, `fsu::List` and `fsu::Queue` are Lean lists:
  `PushBack` and `Push` append, `PushFront` conses, `Front` is the head and
  `Pop` drops the head.
* The three `while` loops of `Maze::Solve` take a step budget; `none` means the
  budget ran out.
-/

namespace maze

/-! ## Unsigned 32-bit arithmetic -/

/-- Sum of two `unsigned int` values. -/
def uadd (a b : Nat) : Nat := (a + b) % 4294967296

/-- Difference of two `unsigned int` values. -/
def usub (a b : Nat) : Nat := (a + 4294967296 - b % 4294967296) % 4294967296

/-- Product of two `unsigned int` values. -/
def umul (a b : Nat) : Nat := (a * b) % 4294967296

/-! ## Diagnostics written to `std::cerr` -/

/-- One line written to `std::cerr`. -/
inductive Diag where
  | unableToOpen
  | unableToReadSize
  | unableToReadWalls (number : Nat)
  | wallsOutOfRange (number : Nat)
  | repairedNorth (number : Nat)
  | repairedEast (number : Nat)
  | repairedSouth (number : Nat)
  | repairedWest (number : Nat)
  | unableToReadStartGoal
  | badStartGoal
  | neighborAsymetry (number other : Nat)
  | invalidStart
  deriving DecidableEq

/-! ## Cell -/

/-- The class `Cell`: `id_`, `neighborList_`, `visited_`, `searchParent_`. -/
structure Cell where
  id_ : Nat
  neighborList_ : List Nat
  visited_ : Bool
  searchParent_ : Option Nat
  deriving DecidableEq

namespace Cell

/-- The constructor `Cell::Cell()`. -/
def new : Cell := { id_ := 0, neighborList_ := [], visited_ := false, searchParent_ := none }

/-- The method `Cell::Clear`. -/
def Clear (_c : Cell) : Cell :=
  { id_ := 0, neighborList_ := [], visited_ := false, searchParent_ := none }

/-- The method `Cell::SetID`. -/
def SetID (c : Cell) (id : Nat) : Cell := { c with id_ := id }

/-- The method `Cell::GetID`. -/
def GetID (c : Cell) : Nat := c.id_

/-- The method `Cell::SetParent`. -/
def SetParent (c : Cell) (parent : Option Nat) : Cell := { c with searchParent_ := parent }

/-- The method `Cell::GetParent`. -/
def GetParent (c : Cell) : Option Nat := c.searchParent_

/-- The method `Cell::SetVisited`. -/
def SetVisited (c : Cell) : Cell := { c with visited_ := true }

/-- The method `Cell::UnSetVisited`. -/
def UnSetVisited (c : Cell) : Cell := { c with visited_ := false }

/-- The method `Cell::IsVisited`. -/
def IsVisited (c : Cell) : Bool := c.visited_

/-- The method `Cell::AddNeighbor`: `PushBack` on the neighbour list. -/
def AddNeighbor (c : Cell) (N : Nat) : Cell := { c with neighborList_ := c.neighborList_ ++ [N] }

end Cell

/-- The cell a pointer refers to.  Every theorem below is about pointers that
lie inside the storage; outside it the source has no defined behaviour and the
embedding reads a default cell. -/
def cellAt (cells : List Cell) (p : Nat) : Cell := (cells[p]?).getD Cell.new

/-- Apply a mutating method to the cell a pointer refers to. -/
def updateCell (cells : List Cell) (p : Nat) (f : Cell → Cell) : List Cell :=
  match cells[p]? with
  | some c => cells.set p (f c)
  | none => cells

namespace Cell

/-- The method `Cell::GetNextNeighbor`: the first neighbour, in list order, that is
not visited. -/
def GetNextNeighbor (cells : List Cell) (c : Cell) : Option Nat :=
  c.neighborList_.find? (fun I => !(cellAt cells I).IsVisited)

/-- The method `Cell::IsNeighbor`: some entry of the list has the id of `N`. -/
def IsNeighbor (cells : List Cell) (c : Cell) (N : Cell) : Bool :=
  c.neighborList_.any (fun I => (cellAt cells I).GetID == N.GetID)

end Cell

/-! ## Maze -/

/-- Modelled from the spec: the data members of the class `Maze`, whose
declaration in `maze.h` is not part of the repository.  `numrows_` and
`numcols_` are unsigned integers; they are taken to be `unsigned int`, the type
of the `size` and `number` that `maze.cpp` computes from them and compares them
with, so `number + numcols_` is a 32-bit sum. -/
structure Maze where
  numrows_ : Nat
  numcols_ : Nat
  start_ : Option Nat
  goal_ : Option Nat
  cellVector_ : List Cell
  conQueue_ : List Nat
  deriving DecidableEq

namespace Maze

/-- The constructor `Maze::Maze()`. -/
def new : Maze :=
  { numrows_ := 0, numcols_ := 0, start_ := none, goal_ := none,
    cellVector_ := [], conQueue_ := [] }

/-- Modelled from the spec: `fsu::Vector<Cell>::Clear`, whose source is not part
of the repository; after it the maze has no cells. -/
def vectorClear (_cells : List Cell) : List Cell := []

/-- Modelled from the spec: `fsu::Vector<Cell>::SetSize`, whose source is not part
of the repository; on the cleared vector it allocates exactly `size` cells, each
default constructed. -/
def vectorSetSize (_cells : List Cell) (size : Nat) : List Cell := List.replicate size Cell.new

/-- The method `Maze::Clear`. -/
def Clear (m : Maze) : Maze :=
  let cells := m.cellVector_.map Cell.Clear
  { numrows_ := 0, numcols_ := 0, start_ := none, goal_ := none,
    cellVector_ := vectorClear cells, conQueue_ := [] }

/-- The extraction `ifs >> x` for an `unsigned int x`: the value and the rest of the stream, or
`none` when the extraction fails (no token left, a token that is not a number,
or a number that does not fit 32 bits). -/
def readUInt : List (Option Nat) → Option (Nat × List (Option Nat))
  | some v :: rest => if v < 4294967296 then some (v, rest) else none
  | _ => none

/-- The four boundary checks of the loop body of `Maze::Initialize`
(lines 211-233): the notices written for cell `number` with code `walls`. -/
def repairs (numrows numcols number walls : Nat) : List Diag :=
  let row := number / numcols
  let col := number % numcols
  (if row = 0 ∧ walls &&& 1 = 0 then [Diag.repairedNorth number] else []) ++
  (if uadd col 1 = numcols ∧ walls &&& 2 = 0 then [Diag.repairedEast number] else []) ++
  (if uadd row 1 = numrows ∧ walls &&& 4 = 0 then [Diag.repairedSouth number] else []) ++
  (if col = 0 ∧ walls &&& 8 = 0 then [Diag.repairedWest number] else [])

/-- The neighbour set-up of the loop body of `Maze::Initialize` (lines 235-254)
followed by `SetID` (line 257), applied to the cell `number`. -/
def setUp (numrows numcols number walls : Nat) (c : Cell) : Cell :=
  let row := number / numcols
  let col := number % numcols
  let c := if row > 0 ∧ walls &&& 1 = 0 then c.AddNeighbor (usub number numcols) else c
  let c := if uadd col 1 < numcols ∧ walls &&& 2 = 0 then c.AddNeighbor (uadd number 1) else c
  let c := if uadd row 1 < numrows ∧ walls &&& 4 = 0 then c.AddNeighbor (uadd number numcols) else c
  let c := if col > 0 ∧ walls &&& 8 = 0 then c.AddNeighbor (usub number 1) else c
  c.SetID number

/-- The `for` loop of `Maze::Initialize` (lines 188-258) with `todo` iterations
left.  `Except.error` is an early `return false`: it carries the cells built so
far and everything written to `std::cerr`. -/
def initLoop (numrows numcols : Nat) :
    Nat → Nat → List (Option Nat) → List Cell → List Diag →
      Except (List Cell × List Diag) (List Cell × List Diag × List (Option Nat))
  | 0, _, ifs, cells, log => Except.ok (cells, log, ifs)
  | todo + 1, number, ifs, cells, log =>
    match readUInt ifs with
    | none => Except.error (cells, log ++ [Diag.unableToReadWalls number])
    | some (walls, ifs) =>
      if walls > 15 then Except.error (cells, log ++ [Diag.wallsOutOfRange number])
      else
        initLoop numrows numcols todo (number + 1) ifs
          (updateCell cells number (setUp numrows numcols number walls))
          (log ++ repairs numrows numcols number walls)

/-- The method `Maze::Initialize`.  The file is `none` when it cannot be opened,
else its tokens.  The result is the returned `bool`, the maze afterwards and
what was written to `std::cerr`. -/
def Initialize (file : Option (List (Option Nat))) (m : Maze) : Bool × Maze × List Diag :=
  let m := m.Clear
  match file with
  | none => (false, m.Clear, [Diag.unableToOpen])
  | some ifs =>
    match readUInt ifs with
    | none => (false, m.Clear, [Diag.unableToReadSize])
    | some (numrows, ifs) =>
      let m := { m with numrows_ := numrows }
      match readUInt ifs with
      | none => (false, m.Clear, [Diag.unableToReadSize])
      | some (numcols, ifs) =>
        let m := { m with numcols_ := numcols }
        let size := umul m.numrows_ m.numcols_
        let m := { m with cellVector_ := vectorSetSize m.cellVector_ size }
        match initLoop m.numrows_ m.numcols_ size 0 ifs m.cellVector_ [] with
        | Except.error (cells, log) => (false, Maze.Clear { m with cellVector_ := cells }, log)
        | Except.ok (cells, log, ifs) =>
          let m := { m with cellVector_ := cells }
          match readUInt ifs with
          | none => (false, m.Clear, log ++ [Diag.unableToReadStartGoal])
          | some (start, ifs) =>
            match readUInt ifs with
            | none => (false, m.Clear, log ++ [Diag.unableToReadStartGoal])
            | some (goal, _) =>
              if start ≥ size ∨ goal ≥ size then (false, m.Clear, log ++ [Diag.badStartGoal])
              else (true, { m with start_ := some start, goal_ := some goal }, log)

/-- The inner loop of `Maze::Consistent` (lines 296-303) over the neighbour list
of cell `number`. -/
def consistentInner (cells : List Cell) (number : Nat) :
    List Nat → Bool × List Diag → Bool × List Diag
  | [], acc => acc
  | I :: rest, (result, log) =>
    if !(cellAt cells I).IsNeighbor cells (cellAt cells number) then
      consistentInner cells number rest
        (false, log ++ [Diag.neighborAsymetry number (cellAt cells I).GetID])
    else consistentInner cells number rest (result, log)

/-- The outer loop of `Maze::Consistent` (lines 294-304) with `todo` iterations
left. -/
def consistentOuter (cells : List Cell) : Nat → Nat → Bool × List Diag → Bool × List Diag
  | 0, _, acc => acc
  | todo + 1, number, acc =>
    consistentOuter cells todo (number + 1)
      (consistentInner cells number (cellAt cells number).neighborList_ acc)

/-- The method `Maze::Consistent`: the returned `bool` and what was written to
`std::cerr`. -/
def Consistent (m : Maze) : Bool × List Diag :=
  let size := umul m.numrows_ m.numcols_
  consistentOuter m.cellVector_ size 0 (true, [])

/-- Modelled from the spec: `fsu::List<unsigned int>::Clear`, whose source is not
part of the repository; the output list is empty afterwards. -/
def listClear (_l : List Nat) : List Nat := []

/-- The reset loop of `Maze::Solve` (lines 326-330) with `todo` iterations left. -/
def resetLoop : Nat → Nat → List Cell → List Cell
  | 0, _, cells => cells
  | todo + 1, number, cells =>
    resetLoop todo (number + 1)
      (updateCell cells number (fun c => (c.UnSetVisited).SetParent none))

/-- The path reconstruction loop of `Maze::Solve` (lines 349-353): walk the
parent pointers from `N`, pushing each id on the front of `solution`. -/
def backtrack (cells : List Cell) : Nat → Option Nat → List Nat → Option (List Nat)
  | _, none, solution => some solution
  | 0, some _, _ => none
  | fuel + 1, some N, solution =>
    backtrack cells fuel (cellAt cells N).GetParent ((cellAt cells N).GetID :: solution)

/-- The neighbour loop of `Maze::Solve` (lines 359-367) for the cell `front`. -/
def drain (front : Nat) : Nat → Maze → Option Maze
  | fuel, m =>
    match (cellAt m.cellVector_ front).GetNextNeighbor m.cellVector_ with
    | none => some m
    | some N =>
      match fuel with
      | 0 => none
      | fuel + 1 =>
        let cells := updateCell m.cellVector_ N Cell.SetVisited
        let cells := updateCell cells N (fun c => c.SetParent (some front))
        drain front fuel { m with cellVector_ := cells, conQueue_ := m.conQueue_ ++ [N] }

/-- The main loop of `Maze::Solve` (lines 338-371).  `k` is the budget handed to
each inner loop. -/
def expand (k : Nat) : Nat → Maze → List Nat → Option (Maze × List Nat)
  | fuel, m, solution =>
    match m.conQueue_ with
    | [] => some (m, solution)
    | front :: _ =>
      if m.goal_ = some front then
        match backtrack m.cellVector_ k m.goal_ solution with
        | none => none
        | some solution => some (m, solution)
      else
        match fuel with
        | 0 => none
        | fuel + 1 =>
          match drain front k m with
          | none => none
          | some m => expand k fuel { m with conQueue_ := m.conQueue_.tail } solution

/-- The method `Maze::Solve`: the maze afterwards, the list `solution` afterwards
and what was written to `std::cerr`; `none` when a loop exceeds `fuel` steps. -/
def Solve (fuel : Nat) (m : Maze) (solution : List Nat) : Option (Maze × List Nat × List Diag) :=
  let m := { m with conQueue_ := [] }
  let solution := listClear solution
  match m.start_ with
  | none => some (m, solution, [Diag.invalidStart])
  | some start =>
    let cells := resetLoop (umul m.numrows_ m.numcols_) 0 m.cellVector_
    let cells := updateCell cells start Cell.SetVisited
    let m := { m with cellVector_ := cells, conQueue_ := [start] }
    match expand fuel fuel m solution with
    | none => none
    | some (m, solution) => some (m, solution, [])

/-! ## Reading the input stream by position -/

/-- The value `operator>>` extracts from the token at position `i` of the stream. -/
def tokenAt (ifs : List (Option Nat)) (i : Nat) : Option Nat :=
  (readUInt (ifs.drop i)).map Prod.fst

/-- The wall code read for cell `n`: the token after the two dimensions and the
`n` codes before it. -/
def wallsAt (ifs : List (Option Nat)) (n : Nat) : Nat := (tokenAt ifs (2 + n)).getD 0

/-- Token `i` of the stream reads as a wall code in range. -/
def goodWalls (ifs : List (Option Nat)) (i : Nat) : Prop := ∃ w, tokenAt ifs i = some w ∧ w ≤ 15

/-- The stream holds a loadable maze: both dimensions read, every one of the
`size` wall codes reads and is at most 15, start and goal read and are below
`size`, where `size` is the `unsigned int` product of the dimensions. -/
def Loads (ifs : List (Option Nat)) (rows cols start goal : Nat) : Prop :=
  tokenAt ifs 0 = some rows ∧ tokenAt ifs 1 = some cols ∧
  (∀ i, i < umul rows cols → goodWalls ifs (2 + i)) ∧
  tokenAt ifs (2 + umul rows cols) = some start ∧
  tokenAt ifs (3 + umul rows cols) = some goal ∧
  start < umul rows cols ∧ goal < umul rows cols

/-- The maze a loadable stream produces. -/
def loaded (ifs : List (Option Nat)) (rows cols start goal : Nat) : Maze :=
  { numrows_ := rows, numcols_ := cols, start_ := some start, goal_ := some goal,
    cellVector_ :=
      (List.range (umul rows cols)).map (fun n => setUp rows cols n (wallsAt ifs n) Cell.new),
    conQueue_ := [] }

/-! ## The decoding rule and the failure conditions of the loader -/

/-- The neighbour list of the decoding rule for cell `n` with wall code `w` in a
grid of `rows` by `cols`: in the order North, East, South, West, the candidates
`n - cols`, `n + 1`, `n + cols`, `n - 1`, each kept when the cell is not on that
boundary and the bit of that direction is clear.  `plus` is the addition that
forms the South candidate. -/
def decode (plus : Nat → Nat → Nat) (rows cols n w : Nat) : List Nat :=
  (if 0 < n / cols ∧ w.testBit 0 = false then [n - cols] else []) ++
  (if n % cols + 1 < cols ∧ w.testBit 1 = false then [n + 1] else []) ++
  (if n / cols + 1 < rows ∧ w.testBit 2 = false then [plus n cols] else []) ++
  (if 0 < n % cols ∧ w.testBit 3 = false then [n - 1] else [])

/-- Every cell of `m` has its index as id and the neighbour list that `decode`
gives for the wall code read for it. -/
def DecodedBy (plus : Nat → Nat → Nat) (ifs : List (Option Nat)) (m : Maze) : Prop :=
  ∃ rows cols, tokenAt ifs 0 = some rows ∧ tokenAt ifs 1 = some cols ∧
    ∀ n, n < m.cellVector_.length → ∃ w, tokenAt ifs (2 + n) = some w ∧
      (cellAt m.cellVector_ n).GetID = n ∧
      (cellAt m.cellVector_ n).neighborList_ = decode plus rows cols n w

/-- The load failure conditions: a dimension token is unreadable, or one of the
first `count rows cols` wall-code tokens is unreadable or greater than 15, or
the start or goal token is unreadable, or start or goal is not below
`count rows cols`. -/
def FailureConditions (count : Nat → Nat → Nat) (ifs : List (Option Nat)) : Prop :=
  tokenAt ifs 0 = none ∨ tokenAt ifs 1 = none ∨
  ∃ rows cols, tokenAt ifs 0 = some rows ∧ tokenAt ifs 1 = some cols ∧
    ((∃ i, i < count rows cols ∧
        (tokenAt ifs (2 + i) = none ∨ ∃ w, tokenAt ifs (2 + i) = some w ∧ w > 15)) ∨
     tokenAt ifs (2 + count rows cols) = none ∨
     tokenAt ifs (3 + count rows cols) = none ∨
     (∃ s, tokenAt ifs (2 + count rows cols) = some s ∧ s ≥ count rows cols) ∨
     (∃ g, tokenAt ifs (3 + count rows cols) = some g ∧ g ≥ count rows cols))

/-- The 2 x 2 scenario of the specification: codes 9, 3, 12, 6, start 0, goal 3. -/
def scenario : List (Option Nat) :=
  [some 2, some 2, some 9, some 3, some 12, some 6, some 0, some 3]

/-- A stream whose dimensions 4294967294 and 4294967295 have the 32-bit product 2. -/
def wrapInput : List (Option Nat) :=
  [some 4294967294, some 4294967295, some 15, some 11, some 0, some 0]

/-- A stream whose dimensions 641 and 6700417 have the product `2^32 + 1`. -/
def overflowInput : List (Option Nat) :=
  [some 641, some 6700417, some 15, some 0, some 0]

/-- A 2 x 2 stream whose third wall code is out of range. -/
def badCodeInput : List (Option Nat) :=
  [some 2, some 2, some 9, some 3, some 99, some 6, some 0, some 3]

/-! ## Symmetry of the stored graph -/

/-- Cell `b` lists cell `a` in its neighbour list. -/
def listsBack (cells : List Cell) (a b : Nat) : Bool :=
  decide (a ∈ (cellAt cells b).neighborList_)

/-- The (cell, neighbour-list entry) pairs of cell `a` whose entry does not list
`a` back, in list order. -/
def asymmetricEntries (cells : List Cell) (a : Nat) : List (Nat × Nat) :=
  ((cellAt cells a).neighborList_.filter (fun b => !listsBack cells a b)).map (fun b => (a, b))

/-- All such pairs of the cells `0, ..., count - 1`, in cell order. -/
def asymmetricPairs (cells : List Cell) (count : Nat) : List (Nat × Nat) :=
  (List.range count).foldr (fun a acc => asymmetricEntries cells a ++ acc) []

/-- The stored graph is well formed: the cell count is the `unsigned int` product
of the dimensions, every neighbour pointer and the start and goal pointers refer
to a cell of the storage. -/
structure WellFormed (m : Maze) : Prop where
  size : m.cellVector_.length = umul m.numrows_ m.numcols_
  links : ∀ p q, q ∈ (cellAt m.cellVector_ p).neighborList_ → q < m.cellVector_.length
  start : ∀ s, m.start_ = some s → s < m.cellVector_.length
  goal : ∀ g, m.goal_ = some g → g < m.cellVector_.length

/-- Every cell has its index as id. -/
def IdsAreIndices (m : Maze) : Prop :=
  ∀ p, p < m.cellVector_.length → (cellAt m.cellVector_ p).GetID = p

/-- The wall codes agree across every interior boundary between two of the first
`count` cells: for `n`, `n + 1` in the same row bit 1 (East) of the code of `n`
equals bit 3 (West) of the code of `n + 1`, and for `n`, `n + cols` bit 2 (South)
of the code of `n` equals bit 0 (North) of the code of `n + cols`. -/
def InteriorAgrees (ifs : List (Option Nat)) (cols count : Nat) : Prop :=
  (∀ n, n + 1 < count → n / cols = (n + 1) / cols →
    (wallsAt ifs n).testBit 1 = (wallsAt ifs (n + 1)).testBit 3) ∧
  (∀ n, n + cols < count →
    (wallsAt ifs n).testBit 2 = (wallsAt ifs (n + cols)).testBit 0)

/-- A one-row maze of two cells in which cell 0 lists cell 1 but not the reverse. -/
def lopsided : Maze :=
  { numrows_ := 1, numcols_ := 2, start_ := some 0, goal_ := some 1,
    cellVector_ :=
      [{ id_ := 0, neighborList_ := [1], visited_ := false, searchParent_ := none },
       { id_ := 1, neighborList_ := [], visited_ := false, searchParent_ := none }],
    conQueue_ := [] }

/-! ## Reachability and the invariant of the search -/

/-- The relation `StepsTo cells a n b`: cell `b` is reached from cell `a` by following exactly
`n` neighbour links. -/
inductive StepsTo (cells : List Cell) (a : Nat) : Nat → Nat → Prop
  | here : StepsTo cells a 0 a
  | next {n b c : Nat} : StepsTo cells a n b → c ∈ (cellAt cells b).neighborList_ →
      StepsTo cells a (n + 1) c

/-- Cell `b` is reachable from cell `a` by following neighbour links. -/
def Reachable (cells : List Cell) (a b : Nat) : Prop := ∃ n, StepsTo cells a n b

/-- In the list of cells `chain` each cell lists the next one as a neighbour. -/
def IsTrail (cells : List Cell) (chain : List Nat) : Prop :=
  List.Chain' (fun a b => b ∈ (cellAt cells a).neighborList_) chain

/-- The cells `cells` carry the same graph as `G`: same count, same neighbour
lists, same ids. -/
structure SameGraph (G cells : List Cell) : Prop where
  length : cells.length = G.length
  nbrs : ∀ p, (cellAt cells p).neighborList_ = (cellAt G p).neighborList_
  ids : ∀ p, (cellAt cells p).id_ = (cellAt G p).id_

/-- The loop invariant of the search of `Maze::Solve` on the graph `G` from the
start cell `s`: `Q` is the frontier queue, `done` the cells popped so far in
order, `lev` the number of links on the parent chain of each visited cell. -/
structure Inv (G : List Cell) (s : Nat) (goal : Option Nat) (cells : List Cell)
    (Q done : List Nat) (lev : Nat → Nat) : Prop where
  same : SameGraph G cells
  links : ∀ p q, q ∈ (cellAt G p).neighborList_ → q < G.length
  vis : ∀ p, (cellAt cells p).visited_ = true ↔ p ∈ done ++ Q
  nodup : (done ++ Q).Nodup
  sorted : (done ++ Q).Pairwise (fun a b => lev a ≤ lev b)
  near : ∀ hd, Q.head? = some hd → ∀ p, p ∈ done ++ Q → lev p ≤ lev hd + 1
  closed : ∀ p, p ∈ done → ∀ q, q ∈ (cellAt G p).neighborList_ →
    q ∈ done ++ Q ∧ lev q ≤ lev p + 1
  start : s ∈ done ++ Q ∧ lev s = 0 ∧ (cellAt cells s).searchParent_ = none
  parent : ∀ p, p ∈ done ++ Q → p ≠ s →
    ∃ pp, (cellAt cells p).searchParent_ = some pp ∧ pp ∈ done ++ Q ∧
      p ∈ (cellAt G pp).neighborList_ ∧ lev p = lev pp + 1
  fresh : ∀ p, (cellAt cells p).visited_ = false → (cellAt cells p).searchParent_ = none
  goal : ∀ g, goal = some g → g ∉ done
  levlt : ∀ p, p ∈ done ++ Q → lev p < (done ++ Q).length
  steps : ∀ p, p ∈ done ++ Q → StepsTo G s (lev p) p

/-- What `Maze::Solve` leaves in `solution` for a search on the graph `G` from the
cell `s`: when the goal is reachable, the ids of a trail of cells from `s` to the
goal with the least possible number of links, put in front of the previous
contents `sol`; when it is not, `sol` unchanged. -/
def SolveSpec (G : List Cell) (s : Nat) (goal : Option Nat) (sol path : List Nat) : Prop :=
  (∀ g, goal = some g → Reachable G s g →
    ∃ chain, path = chain.map (fun c => (cellAt G c).GetID) ++ sol ∧
      chain.head? = some s ∧ chain.getLast? = some g ∧ IsTrail G chain ∧
      StepsTo G s (chain.length - 1) g ∧ ∀ n, StepsTo G s n g → chain.length ≤ n + 1) ∧
  ((∀ g, goal = some g → ¬ Reachable G s g) → path = sol)

/-- The maze that the 2 x 2 scenario loads. -/
def scenarioMaze : Maze :=
  { numrows_ := 2, numcols_ := 2, start_ := some 0, goal_ := some 3,
    cellVector_ :=
      [{ id_ := 0, neighborList_ := [1, 2], visited_ := false, searchParent_ := none },
       { id_ := 1, neighborList_ := [3, 0], visited_ := false, searchParent_ := none },
       { id_ := 2, neighborList_ := [0, 3], visited_ := false, searchParent_ := none },
       { id_ := 3, neighborList_ := [1, 2], visited_ := false, searchParent_ := none }],
    conQueue_ := [] }

/-- A maze of three cells in a row in which cell 2 is walled off from cells 0 and 1. -/
def walledOff : Maze :=
  { numrows_ := 1, numcols_ := 3, start_ := some 0, goal_ := some 2,
    cellVector_ :=
      [{ id_ := 0, neighborList_ := [1], visited_ := false, searchParent_ := none },
       { id_ := 1, neighborList_ := [0], visited_ := false, searchParent_ := none },
       { id_ := 2, neighborList_ := [], visited_ := false, searchParent_ := none }],
    conQueue_ := [] }

/-- The maze `scenarioMaze` after `Solve`. -/
def scenarioSolved : Maze :=
  { numrows_ := 2, numcols_ := 2, start_ := some 0, goal_ := some 3,
    cellVector_ :=
      [{ id_ := 0, neighborList_ := [1, 2], visited_ := true, searchParent_ := none },
       { id_ := 1, neighborList_ := [3, 0], visited_ := true, searchParent_ := some 0 },
       { id_ := 2, neighborList_ := [0, 3], visited_ := true, searchParent_ := some 0 },
       { id_ := 3, neighborList_ := [1, 2], visited_ := true, searchParent_ := some 1 }],
    conQueue_ := [3] }

/-- The maze `walledOff` after `Solve`. -/
def walledOffSolved : Maze :=
  { numrows_ := 1, numcols_ := 3, start_ := some 0, goal_ := some 2,
    cellVector_ :=
      [{ id_ := 0, neighborList_ := [1], visited_ := true, searchParent_ := none },
       { id_ := 1, neighborList_ := [0], visited_ := true, searchParent_ := some 0 },
       { id_ := 2, neighborList_ := [], visited_ := false, searchParent_ := none }],
    conQueue_ := [] }

/-- A maze whose start was never set but that holds one cell marked visited. -/
def unsetStart : Maze :=
  { numrows_ := 1, numcols_ := 1, start_ := none, goal_ := none,
    cellVector_ := [{ id_ := 0, neighborList_ := [], visited_ := true, searchParent_ := none }],
    conQueue_ := [0] }

/-- The maze `m` with other values in `numrows_`, `numcols_` and `start_`. -/
def withDims (m : Maze) (r c : Nat) (st : Option Nat) : Maze :=
  { m with numrows_ := r, numcols_ := c, start_ := st }

/-- What a run of `Maze::Solve` does to the frontier queue: every `Push`, as the
cell pushed and the visited flag it had right before the `SetVisited` that
precedes the push, and every cell read by `Front`, both in order. -/
structure Trace where
  pushes : List (Nat × Bool)
  fronts : List Nat
  deriving DecidableEq

/-- The neighbour loop of `Maze::Solve` (lines 359-367), as `drain`, recording the
pushes. -/
def drainLog (front : Nat) : Nat → Maze → Trace → Option (Maze × Trace)
  | fuel, m, t =>
    match (cellAt m.cellVector_ front).GetNextNeighbor m.cellVector_ with
    | none => some (m, t)
    | some N =>
      match fuel with
      | 0 => none
      | fuel + 1 =>
        let was := (cellAt m.cellVector_ N).IsVisited
        let cells := updateCell m.cellVector_ N Cell.SetVisited
        let cells := updateCell cells N (fun c => c.SetParent (some front))
        drainLog front fuel { m with cellVector_ := cells, conQueue_ := m.conQueue_ ++ [N] }
          { t with pushes := t.pushes ++ [(N, was)] }

/-- The main loop of `Maze::Solve` (lines 338-371), as `expand`, recording the
pushes and the cells read by `Front`. -/
def expandLog (k : Nat) : Nat → Maze → List Nat → Trace → Option (Maze × List Nat × Trace)
  | fuel, m, solution, t =>
    match m.conQueue_ with
    | [] => some (m, solution, t)
    | front :: _ =>
      let t := { t with fronts := t.fronts ++ [front] }
      if m.goal_ = some front then
        match backtrack m.cellVector_ k m.goal_ solution with
        | none => none
        | some solution => some (m, solution, t)
      else
        match fuel with
        | 0 => none
        | fuel + 1 =>
          match drainLog front k m t with
          | none => none
          | some (m, t) => expandLog k fuel { m with conQueue_ := m.conQueue_.tail } solution t

/-- The method `Maze::Solve`, as `Solve`, with the trace of its run. -/
def SolveLog (fuel : Nat) (m : Maze) (solution : List Nat) :
    Option (Maze × List Nat × List Diag × Trace) :=
  let m := { m with conQueue_ := [] }
  let solution := listClear solution
  match m.start_ with
  | none => some (m, solution, [Diag.invalidStart], { pushes := [], fronts := [] })
  | some start =>
    let cells := resetLoop (umul m.numrows_ m.numcols_) 0 m.cellVector_
    let was := (cellAt cells start).IsVisited
    let cells := updateCell cells start Cell.SetVisited
    let m := { m with cellVector_ := cells, conQueue_ := [start] }
    match expandLog fuel fuel m solution { pushes := [(start, was)], fronts := [] } with
    | none => none
    | some (m, solution, t) => some (m, solution, [], t)

/-- A maze of three cells with a self-neighbour, a duplicate neighbour entry and
asymmetric adjacency. -/
def tangled : Maze :=
  { numrows_ := 1, numcols_ := 3, start_ := some 0, goal_ := some 2,
    cellVector_ :=
      [{ id_ := 0, neighborList_ := [0, 1, 1, 2], visited_ := false, searchParent_ := none },
       { id_ := 1, neighborList_ := [1, 0], visited_ := true, searchParent_ := some 2 },
       { id_ := 2, neighborList_ := [], visited_ := false, searchParent_ := none }],
    conQueue_ := [1] }

/-- The maze `tangled` after `Solve`. -/
def tangledSolved : Maze :=
  { numrows_ := 1, numcols_ := 3, start_ := some 0, goal_ := some 2,
    cellVector_ :=
      [{ id_ := 0, neighborList_ := [0, 1, 1, 2], visited_ := true, searchParent_ := none },
       { id_ := 1, neighborList_ := [1, 0], visited_ := true, searchParent_ := some 0 },
       { id_ := 2, neighborList_ := [], visited_ := true, searchParent_ := some 0 }],
    conQueue_ := [2] }

/-- A stream whose dimensions 641 and 6700417 have the product `2^32 + 1` and whose
single wall code 13 leaves the East side open. -/
def eastOpenInput : List (Option Nat) :=
  [some 641, some 6700417, some 13, some 0, some 0]

/-- A stream whose dimensions 4294967294 and 4294967295 have the 32-bit product 2
and whose second wall code 3 leaves South and West open. -/
def twiceInput : List (Option Nat) :=
  [some 4294967294, some 4294967295, some 15, some 3, some 0, some 0]

/-- A stream with the dimensions 641 and 6700417 (product `2^32 + 1`), then
`2^32 + 1` wall codes 0 (every side open), then start 0 and goal 0. -/
def allOpenInput : List (Option Nat) :=
  some 641 :: some 6700417 :: List.replicate 4294967299 (some 0)

/-- The distance between two coordinates. -/
def gap (a b : Nat) : Nat := (a - b) + (b - a)

/-- The Manhattan distance between the cells `p` and `q` of a grid with `cols`
columns, in (row, col) coordinates. -/
def manhattan (cols p q : Nat) : Nat := gap (p / cols) (q / cols) + gap (p % cols) (q % cols)

/-- The grid shape of the neighbour list of cell `n`: at most four entries, no
duplicate entry, not the cell itself, every entry a cell at Manhattan distance
1. -/
def GridShaped (cells : List Cell) (cols n : Nat) : Prop :=
  (cellAt cells n).neighborList_.length ≤ 4 ∧
  (cellAt cells n).neighborList_.Nodup ∧
  n ∉ (cellAt cells n).neighborList_ ∧
  ∀ q, q ∈ (cellAt cells n).neighborList_ → q < cells.length ∧ manhattan cols n q = 1

/-- The states a maze can take through its constructor, `Clear`, `Initialize` and
`Solve`. -/
inductive Attainable : Maze → Prop
  | new : Attainable Maze.new
  | clear {m : Maze} : Attainable m → Attainable m.Clear
  | load {m : Maze} (file : Option (List (Option Nat))) :
      Attainable m → Attainable (Initialize file m).2.1
  | solve {m m1 : Maze} {fuel : Nat} {sol path : List Nat} {diag : List Diag} :
      Attainable m → Solve fuel m sol = some (m1, path, diag) → Attainable m1

/-- The solver in the order of the specification: reset the visited flag and the
parent of every cell first, check start afterwards; the rest as `Solve`. -/
def SolveResetFirst (fuel : Nat) (m : Maze) (solution : List Nat) :
    Option (Maze × List Nat × List Diag) :=
  let m := { m with conQueue_ := [] }
  let solution := listClear solution
  let cells := resetLoop (umul m.numrows_ m.numcols_) 0 m.cellVector_
  let m := { m with cellVector_ := cells }
  match m.start_ with
  | none => some (m, solution, [Diag.invalidStart])
  | some start =>
    let cells := updateCell m.cellVector_ start Cell.SetVisited
    let m := { m with cellVector_ := cells, conQueue_ := [start] }
    match expand fuel fuel m solution with
    | none => none
    | some (m, solution) => some (m, solution, [])

/-! ## Lemmas on `Maze::Initialize` -/

theorem readUInt_some {ifs : List (Option Nat)} {v : Nat} {rest : List (Option Nat)}
    (h : readUInt ifs = some (v, rest)) : tokenAt ifs 0 = some v ∧ rest = ifs.drop 1 := by
  unfold tokenAt
  cases ifs with
  | nil => simp [readUInt] at h
  | cons t ts =>
    cases t with
    | none => simp [readUInt] at h
    | some x =>
      simp only [readUInt] at h
      split at h
      · simp only [Option.some.injEq, Prod.mk.injEq] at h
        obtain ⟨h1, h2⟩ := h
        subst h1; subst h2
        simp [readUInt, *]
      · simp at h

theorem readUInt_none {ifs : List (Option Nat)} (h : readUInt ifs = none) : tokenAt ifs 0 = none := by
  simp [tokenAt, h]

theorem tokenAt_drop (ifs : List (Option Nat)) (k i : Nat) :
    tokenAt (ifs.drop k) i = tokenAt ifs (k + i) := by
  simp [tokenAt, List.drop_drop, Nat.add_comm]

theorem tokenAt_lt {ifs : List (Option Nat)} {i v : Nat} (h : tokenAt ifs i = some v) :
    v < 4294967296 ∧ ifs[i]? = some (some v) := by
  unfold tokenAt at h
  cases hd : ifs.drop i with
  | nil => simp [hd, readUInt] at h
  | cons t ts =>
    have hi : ifs[i]? = some t := by
      have := List.getElem?_drop (L := ifs) (i := i) (j := 0)
      rw [hd] at this
      simpa using this.symm
    cases t with
    | none => simp [hd, readUInt] at h
    | some x =>
      simp only [hd, readUInt] at h
      split at h
      · simp at h; subst h; exact ⟨by assumption, hi⟩
      · simp at h

theorem updateCell_length (cells : List Cell) (p : Nat) (f : Cell → Cell) :
    (updateCell cells p f).length = cells.length := by
  unfold updateCell; split <;> simp

theorem updateCell_get (cells : List Cell) (p : Nat) (f : Cell → Cell) (j : Nat) :
    (updateCell cells p f)[j]? = if j = p then (cells[j]?).map f else cells[j]? := by
  unfold updateCell
  split
  · rename_i c hc
    rw [List.getElem?_set]
    by_cases hj : p = j
    · subst hj
      have : p < cells.length := by
        rcases Nat.lt_or_ge p cells.length with h | h
        · exact h
        · rw [List.getElem?_eq_none h] at hc; cases hc
      simp [hc, this]
    · have : ¬ j = p := fun h => hj h.symm
      simp [hj, this]
  · rename_i hc
    by_cases hj : j = p
    · subst hj; simp [hc]
    · simp [hj]

theorem initLoop_ok_of_good (nr nc : Nat) :
    ∀ (todo number : Nat) (ifs : List (Option Nat)) (cells : List Cell) (log : List Diag),
      (∀ i, i < todo → goodWalls ifs i) →
      ∃ cells1 log1, initLoop nr nc todo number ifs cells log = Except.ok (cells1, log1, ifs.drop todo) := by
  intro todo
  induction todo with
  | zero => intro number ifs cells log _; exact ⟨cells, log, by simp [initLoop]⟩
  | succ todo ih =>
    intro number ifs cells log hgood
    obtain ⟨w, hw, hw15⟩ := hgood 0 (Nat.succ_pos _)
    cases hr : readUInt ifs with
    | none => rw [readUInt_none hr] at hw; cases hw
    | some p =>
      obtain ⟨v, rest⟩ := p
      obtain ⟨h1, h2⟩ := readUInt_some hr
      have hvw : v = w := by rw [h1] at hw; exact Option.some.inj hw
      subst hvw
      have hgood1 : ∀ i, i < todo → goodWalls rest i := by
        intro i hi
        obtain ⟨x, hx, hx15⟩ := hgood (i + 1) (Nat.succ_lt_succ hi)
        refine ⟨x, ?_, hx15⟩
        rw [h2, tokenAt_drop, Nat.add_comm]; exact hx
      obtain ⟨c1, l1, h⟩ := ih (number + 1) rest
        (updateCell cells number (setUp nr nc number v)) (log ++ repairs nr nc number v) hgood1
      refine ⟨c1, l1, ?_⟩
      simp only [initLoop, hr]
      rw [if_neg (by omega), h, h2, List.drop_drop]
      simp [Nat.add_comm]

theorem initLoop_error_of_bad (nr nc : Nat) :
    ∀ (todo number : Nat) (ifs : List (Option Nat)) (cells : List Cell) (log : List Diag),
      (∃ i, i < todo ∧ ¬ goodWalls ifs i) →
      ∃ e, initLoop nr nc todo number ifs cells log = Except.error e := by
  intro todo
  induction todo with
  | zero => intro number ifs cells log h; obtain ⟨i, hi, _⟩ := h; omega
  | succ todo ih =>
    intro number ifs cells log hbad
    cases hr : readUInt ifs with
    | none => exact ⟨(cells, log ++ [Diag.unableToReadWalls number]), by simp only [initLoop, hr]⟩
    | some p =>
      obtain ⟨v, rest⟩ := p
      obtain ⟨h1, h2⟩ := readUInt_some hr
      by_cases hv : v > 15
      · exact ⟨(cells, log ++ [Diag.wallsOutOfRange number]), by
          simp only [initLoop, hr]; rw [if_pos hv]⟩
      · obtain ⟨i, hi, hbadi⟩ := hbad
        have hi0 : i ≠ 0 := by
          rintro rfl
          exact hbadi ⟨v, h1, by omega⟩
        obtain ⟨j, rfl⟩ := Nat.exists_eq_succ_of_ne_zero hi0
        have : ∃ i, i < todo ∧ ¬ goodWalls rest i := by
          refine ⟨j, by omega, ?_⟩
          rintro ⟨x, hx, hx15⟩
          apply hbadi
          refine ⟨x, ?_, hx15⟩
          rw [h2, tokenAt_drop, Nat.add_comm] at hx; exact hx
        obtain ⟨e, he⟩ := ih (number + 1) rest
          (updateCell cells number (setUp nr nc number v)) (log ++ repairs nr nc number v) this
        refine ⟨e, ?_⟩
        simp only [initLoop, hr]
        rw [if_neg hv, he]

theorem initLoop_cells (nr nc : Nat) :
    ∀ (todo number : Nat) (ifs : List (Option Nat)) (cells : List Cell) (log : List Diag)
      (cells1 : List Cell) (log1 : List Diag) (ifs1 : List (Option Nat)),
      initLoop nr nc todo number ifs cells log = Except.ok (cells1, log1, ifs1) →
      ∀ j, cells1[j]? =
        if number ≤ j ∧ j < number + todo then
          (cells[j]?).map (setUp nr nc j ((tokenAt ifs (j - number)).getD 0))
        else cells[j]? := by
  intro todo
  induction todo with
  | zero =>
    intro number ifs cells log cells1 log1 ifs1 h j
    simp only [initLoop, Except.ok.injEq, Prod.mk.injEq] at h
    rw [← h.1, if_neg (by omega)]
  | succ todo ih =>
    intro number ifs cells log cells1 log1 ifs1 h j
    cases hr : readUInt ifs with
    | none => simp [initLoop, hr] at h
    | some p =>
      obtain ⟨v, rest⟩ := p
      obtain ⟨h1, h2⟩ := readUInt_some hr
      simp only [initLoop, hr] at h
      split at h
      · cases h
      · rw [ih _ _ _ _ _ _ _ h j, updateCell_get]
        by_cases hj : j = number
        · subst hj
          rw [if_neg (by omega), if_pos rfl, if_pos (by omega)]
          simp [h1]
        · by_cases hlt : number + 1 ≤ j ∧ j < number + 1 + todo
          · rw [if_pos hlt, if_neg hj, if_pos (by omega)]
            have : tokenAt rest (j - (number + 1)) = tokenAt ifs (j - number) := by
              rw [h2, tokenAt_drop]; congr 1; omega
            rw [this]
          · rw [if_neg hlt, if_neg hj, if_neg (by omega)]

theorem Clear_eq_new (m : Maze) : m.Clear = Maze.new := rfl

theorem Initialize_cases (ifs : List (Option Nat)) (m : Maze) :
    (∃ rows cols start goal log, Loads ifs rows cols start goal ∧
        Initialize (some ifs) m = (true, loaded ifs rows cols start goal, log)) ∨
    ((¬ ∃ rows cols start goal, Loads ifs rows cols start goal) ∧
        ∃ log, Initialize (some ifs) m = (false, Maze.new, log)) := by
  cases hr0 : readUInt ifs with
  | none =>
    right
    refine ⟨?_, [Diag.unableToReadSize], by simp [Initialize, hr0, Clear_eq_new]⟩
    rintro ⟨rows, cols, s, g, h0, -⟩
    rw [readUInt_none hr0] at h0; cases h0
  | some p0 =>
    obtain ⟨rows, ifs1⟩ := p0
    obtain ⟨hrows, hifs1⟩ := readUInt_some hr0
    cases hr1 : readUInt ifs1 with
    | none =>
      right
      refine ⟨?_, [Diag.unableToReadSize], by simp [Initialize, hr0, hr1, Clear_eq_new]⟩
      rintro ⟨rows1, cols, s, g, -, h1, -⟩
      have := readUInt_none hr1
      rw [hifs1, tokenAt_drop] at this
      rw [this] at h1; cases h1
    | some p1 =>
      obtain ⟨cols, ifs2⟩ := p1
      obtain ⟨hcols, hifs2⟩ := readUInt_some hr1
      rw [hifs1, tokenAt_drop] at hcols
      have hifs2 : ifs2 = ifs.drop 2 := by rw [hifs2, hifs1, List.drop_drop]
      have htok : ∀ i, tokenAt ifs2 i = tokenAt ifs (2 + i) := by
        intro i; rw [hifs2, tokenAt_drop]
      have hdims : ∀ r c s g, Loads ifs r c s g → r = rows ∧ c = cols := by
        intro r c s g h
        have h0 := h.1; have h1 := h.2.1
        rw [hrows] at h0; rw [hcols] at h1
        exact ⟨(Option.some.inj h0).symm, (Option.some.inj h1).symm⟩
      by_cases hgood : ∀ i, i < umul rows cols → goodWalls ifs2 i
      · obtain ⟨cells1, log1, hloop⟩ := initLoop_ok_of_good rows cols (umul rows cols) 0 ifs2
          (vectorSetSize (vectorClear (m.cellVector_.map Cell.Clear)) (umul rows cols)) [] hgood
        simp only [vectorSetSize, vectorClear] at hloop
        have hcells : cells1 =
            (List.range (umul rows cols)).map
              (fun n => setUp rows cols n (wallsAt ifs n) Cell.new) := by
          apply List.ext_getElem?
          intro j
          rw [initLoop_cells _ _ _ _ _ _ _ _ _ _ hloop j]
          simp only [Nat.zero_le, true_and, Nat.zero_add, Nat.sub_zero]
          by_cases hj : j < umul rows cols
          · rw [if_pos hj]
            simp [List.getElem?_replicate, hj, List.getElem?_range, wallsAt, htok]
          · rw [if_neg hj]
            have h1 : (List.range (umul rows cols))[j]? = none :=
              List.getElem?_eq_none (by simp; omega)
            have h2 : (List.replicate (umul rows cols) Cell.new)[j]? = none :=
              List.getElem?_eq_none (by simp; omega)
            simp [h1, h2]
        have htok3 : ∀ i, tokenAt (ifs2.drop (umul rows cols)) i
            = tokenAt ifs (2 + umul rows cols + i) := by
          intro i; rw [tokenAt_drop, htok, Nat.add_assoc]
        cases hr2 : readUInt (ifs2.drop (umul rows cols)) with
        | none =>
          right
          refine ⟨?_, log1 ++ [Diag.unableToReadStartGoal], by
            simp [Initialize, hr0, hr1, Clear, vectorSetSize, hloop, hr2, Maze.new, vectorClear]⟩
          rintro ⟨r, c, s, g, h⟩
          obtain ⟨rfl, rfl⟩ := hdims _ _ _ _ h
          have := readUInt_none hr2
          rw [htok3] at this
          rw [Nat.add_zero, h.2.2.2.1] at this; cases this
        | some p2 =>
          obtain ⟨start, ifs4⟩ := p2
          obtain ⟨hstart, hifs4⟩ := readUInt_some hr2
          rw [htok3, Nat.add_zero] at hstart
          cases hr3 : readUInt ifs4 with
          | none =>
            right
            refine ⟨?_, log1 ++ [Diag.unableToReadStartGoal], by
              simp [Initialize, hr0, hr1, Clear, vectorSetSize, hloop, hr2, hr3, Maze.new, vectorClear]⟩
            rintro ⟨r, c, s, g, h⟩
            obtain ⟨rfl, rfl⟩ := hdims _ _ _ _ h
            have := readUInt_none hr3
            rw [hifs4, tokenAt_drop, htok3] at this
            have h4 := h.2.2.2.2.1
            rw [show 3 + umul r c = 2 + umul r c + (1 + 0) by omega, this] at h4; cases h4
          | some p3 =>
            obtain ⟨goal, ifs5⟩ := p3
            obtain ⟨hgoal, -⟩ := readUInt_some hr3
            rw [hifs4, tokenAt_drop, htok3] at hgoal
            rw [show 2 + umul rows cols + (1 + 0) = 3 + umul rows cols by omega] at hgoal
            by_cases hrange : start ≥ umul rows cols ∨ goal ≥ umul rows cols
            · right
              refine ⟨?_, log1 ++ [Diag.badStartGoal], by
                simp only [Initialize, hr0, hr1, Clear, vectorSetSize, vectorClear, hloop, hr2, hr3, Maze.new]
                rw [if_pos hrange]⟩
              rintro ⟨r, c, s, g, h⟩
              obtain ⟨rfl, rfl⟩ := hdims _ _ _ _ h
              have h3 := h.2.2.2.1; have h4 := h.2.2.2.2.1
              rw [hstart] at h3; rw [hgoal] at h4
              have := Option.some.inj h3; have := Option.some.inj h4
              have := h.2.2.2.2.2
              omega
            · left
              refine ⟨rows, cols, start, goal, log1,
                ⟨hrows, hcols, fun i hi => ?_, hstart, hgoal, by omega, by omega⟩, ?_⟩
              · obtain ⟨w, hw, hw15⟩ := hgood i hi
                exact ⟨w, by rw [← htok]; exact hw, hw15⟩
              · simp only [Initialize, hr0, hr1, Clear, vectorSetSize, vectorClear, hloop, hr2, hr3]
                rw [if_neg hrange, hcells]
                rfl
      · have hbad : ∃ i, i < umul rows cols ∧ ¬ goodWalls ifs2 i := by
          by_contra hcon
          apply hgood
          intro i hi
          by_contra hg
          exact hcon ⟨i, hi, hg⟩
        obtain ⟨e, he⟩ := initLoop_error_of_bad rows cols (umul rows cols) 0 ifs2
          (vectorSetSize (vectorClear (m.cellVector_.map Cell.Clear)) (umul rows cols)) [] hbad
        simp only [vectorSetSize, vectorClear] at he
        right
        refine ⟨?_, e.2, by
          simp [Initialize, hr0, hr1, Clear, vectorSetSize, he, Maze.new, vectorClear]⟩
        rintro ⟨r, c, s, g, h⟩
        obtain ⟨rfl, rfl⟩ := hdims _ _ _ _ h
        apply hgood
        intro i hi
        obtain ⟨w, hw, hw15⟩ := h.2.2.1 i hi
        exact ⟨w, by rw [htok]; exact hw, hw15⟩

theorem walls_bits {w : Nat} (hw : w ≤ 15) :
    (w &&& 1 = 0 ↔ w.testBit 0 = false) ∧ (w &&& 2 = 0 ↔ w.testBit 1 = false) ∧
    (w &&& 4 = 0 ↔ w.testBit 2 = false) ∧ (w &&& 8 = 0 ↔ w.testBit 3 = false) := by
  interval_cases w <;> decide

theorem umul_pos_cols {rows cols n : Nat} (h : n < umul rows cols) : 0 < cols := by
  rcases Nat.eq_zero_or_pos cols with h0 | h0
  · subst h0; simp [umul] at h
  · exact h0

theorem umul_lt (rows cols : Nat) : umul rows cols < 4294967296 :=
  Nat.mod_lt _ (by decide)

theorem uadd_small {a b : Nat} (h : a + b < 4294967296) : uadd a b = a + b :=
  Nat.mod_eq_of_lt h

theorem usub_small {a b : Nat} (ha : a < 4294967296) (hb : b ≤ a) : usub a b = a - b := by
  unfold usub
  rw [Nat.mod_eq_of_lt (by omega : b < 4294967296)]
  omega

theorem addNeighbor_if (p : Prop) [Decidable p] (c : Cell) (x : Nat) :
    (if p then c.AddNeighbor x else c) =
      { c with neighborList_ := c.neighborList_ ++ (if p then [x] else []) } := by
  split <;> simp [Cell.AddNeighbor]

theorem setUp_eq {rows cols n w : Nat} (hn : n < umul rows cols) (hc : cols < 4294967296)
    (hw : w ≤ 15) (c : Cell) :
    setUp rows cols n w c =
      { id_ := n, neighborList_ := c.neighborList_ ++ decode uadd rows cols n w,
        visited_ := c.visited_, searchParent_ := c.searchParent_ } := by
  have hpos := umul_pos_cols hn
  have hlt := umul_lt rows cols
  obtain ⟨b0, b1, b2, b3⟩ := walls_bits hw
  have hmod : n % cols < cols := Nat.mod_lt _ hpos
  have hdiv : n / cols ≤ n := Nat.div_le_self _ _
  have e1 : uadd (n % cols) 1 = n % cols + 1 := uadd_small (by omega)
  have e2 : uadd (n / cols) 1 = n / cols + 1 := uadd_small (by omega)
  have e3 : uadd n 1 = n + 1 := uadd_small (by omega)
  have h0 : (if n / cols > 0 ∧ w &&& 1 = 0 then [usub n cols] else []) =
      (if 0 < n / cols ∧ w.testBit 0 = false then [n - cols] else []) := by
    by_cases h : 0 < n / cols ∧ w.testBit 0 = false
    · have h' : n / cols > 0 ∧ w &&& 1 = 0 := ⟨h.1, b0.2 h.2⟩
      have : cols ≤ n := by
        by_contra hlt
        have := Nat.div_eq_of_lt (Nat.lt_of_not_le hlt)
        omega
      rw [if_pos h, if_pos h', usub_small (by omega) this]
    · have h' : ¬ (n / cols > 0 ∧ w &&& 1 = 0) := fun x => h ⟨x.1, b0.1 x.2⟩
      rw [if_neg h, if_neg h']
  have h3 : (if n % cols > 0 ∧ w &&& 8 = 0 then [usub n 1] else []) =
      (if 0 < n % cols ∧ w.testBit 3 = false then [n - 1] else []) := by
    by_cases h : 0 < n % cols ∧ w.testBit 3 = false
    · have h' : n % cols > 0 ∧ w &&& 8 = 0 := ⟨h.1, b3.2 h.2⟩
      have : 1 ≤ n := by
        rcases Nat.eq_zero_or_pos n with h0 | h0
        · subst h0; simp at h
        · exact h0
      rw [if_pos h, if_pos h', usub_small (by omega) this]
    · have h' : ¬ (n % cols > 0 ∧ w &&& 8 = 0) := fun x => h ⟨x.1, b3.1 x.2⟩
      rw [if_neg h, if_neg h']
  unfold setUp decode
  simp only [addNeighbor_if, h0, h3, e1, e2, e3, b1, b2, Cell.SetID, List.append_assoc]

theorem setUp_new {rows cols n w : Nat} (hn : n < umul rows cols) (hc : cols < 4294967296)
    (hw : w ≤ 15) :
    setUp rows cols n w Cell.new =
      { id_ := n, neighborList_ := decode uadd rows cols n w, visited_ := false,
        searchParent_ := none } := by
  rw [setUp_eq hn hc hw]; simp [Cell.new]

theorem loaded_cell {ifs : List (Option Nat)} {rows cols start goal : Nat}
    (h : Loads ifs rows cols start goal) {n : Nat} (hn : n < umul rows cols) :
    ∃ w, tokenAt ifs (2 + n) = some w ∧ w ≤ 15 ∧
      cellAt (loaded ifs rows cols start goal).cellVector_ n =
        { id_ := n, neighborList_ := decode uadd rows cols n w, visited_ := false,
          searchParent_ := none } := by
  obtain ⟨w, hw, hw15⟩ := h.2.2.1 n hn
  refine ⟨w, hw, hw15, ?_⟩
  have hc : cols < 4294967296 := (tokenAt_lt h.2.1).1
  simp only [cellAt, loaded, List.getElem?_map, List.getElem?_range hn, Option.map_some',
    Option.getD_some, wallsAt, hw]
  exact setUp_new hn hc hw15

theorem loaded_length (ifs : List (Option Nat)) (rows cols start goal : Nat) :
    (loaded ifs rows cols start goal).cellVector_.length = umul rows cols := by
  simp [loaded]

theorem decode_plus {rows cols n : Nat} (w : Nat) (h : rows * cols < 4294967296)
    (hn : n < rows * cols) :
    decode (· + ·) rows cols n w = decode uadd rows cols n w := by
  unfold decode
  by_cases hs : n / cols + 1 < rows ∧ w.testBit 2 = false
  · have h1 : cols * (n / cols) + n % cols = n := Nat.div_add_mod n cols
    have h2 : cols * (n / cols + 2) ≤ cols * rows := Nat.mul_le_mul_left cols (by omega)
    have h3 : cols * (n / cols + 2) = cols * (n / cols) + 2 * cols := by ring
    have h4 : rows * cols = cols * rows := Nat.mul_comm _ _
    have h5 : n % cols < cols := by
      apply Nat.mod_lt
      rcases Nat.eq_zero_or_pos cols with h0 | h0
      · subst h0; simp at hn
      · exact h0
    have : uadd n cols = n + cols := uadd_small (by omega)
    simp only [this]
  · simp only [if_neg hs]

theorem failureConditions_iff (ifs : List (Option Nat)) :
    FailureConditions umul ifs ↔ ¬ ∃ rows cols start goal, Loads ifs rows cols start goal := by
  constructor
  · rintro h ⟨rows, cols, s, g, h0, h1, hw, hs, hg, hslt, hglt⟩
    rcases h with h | h | ⟨r, c, hr, hc, h⟩
    · rw [h0] at h; cases h
    · rw [h1] at h; cases h
    · rw [h0] at hr; rw [h1] at hc
      obtain rfl := Option.some.inj hr
      obtain rfl := Option.some.inj hc
      rcases h with ⟨i, hi, h⟩ | h | h | ⟨x, hx, hge⟩ | ⟨x, hx, hge⟩
      · obtain ⟨w, hw, hw15⟩ := hw i hi
        rcases h with h | ⟨w1, h, hgt⟩
        · rw [hw] at h; cases h
        · rw [hw] at h; obtain rfl := Option.some.inj h; omega
      · rw [hs] at h; cases h
      · rw [hg] at h; cases h
      · rw [hs] at hx; obtain rfl := Option.some.inj hx; omega
      · rw [hg] at hx; obtain rfl := Option.some.inj hx; omega
  · intro h
    unfold FailureConditions
    cases h0 : tokenAt ifs 0 with
    | none => exact Or.inl rfl
    | some rows =>
      cases h1 : tokenAt ifs 1 with
      | none => exact Or.inr (Or.inl rfl)
      | some cols =>
        refine Or.inr (Or.inr ⟨rows, cols, rfl, rfl, ?_⟩)
        by_contra hcon
        simp only [not_or, not_exists, not_and] at hcon
        obtain ⟨hw, hs, hg, hslt, hglt⟩ := hcon
        cases hs1 : tokenAt ifs (2 + umul rows cols) with
        | none => exact hs hs1
        | some s =>
          cases hg1 : tokenAt ifs (3 + umul rows cols) with
          | none => exact hg hg1
          | some g =>
            apply h
            refine ⟨rows, cols, s, g, h0, h1, ?_, hs1, hg1, ?_, ?_⟩
            · intro i hi
              have := hw i hi
              cases hwi : tokenAt ifs (2 + i) with
              | none => exact absurd hwi this.1
              | some w => exact ⟨w, hwi, Nat.le_of_not_lt (this.2 w hwi)⟩
            · exact Nat.lt_of_not_le (hslt s hs1)
            · exact Nat.lt_of_not_le (hglt g hg1)

theorem mem_decode {plus : Nat → Nat → Nat} {rows cols n w p : Nat}
    (h : p ∈ decode plus rows cols n w) :
    (p = n - cols ∧ 0 < n / cols) ∨ (p = n + 1 ∧ n % cols + 1 < cols) ∨
    (p = plus n cols ∧ n / cols + 1 < rows) ∨ (p = n - 1 ∧ 0 < n % cols) := by
  unfold decode at h
  simp only [List.mem_append] at h
  rcases h with ((h | h) | h) | h
  · split at h
    · rename_i hc; simp only [List.mem_singleton] at h; exact Or.inl ⟨h, hc.1⟩
    · cases h
  · split at h
    · rename_i hc; simp only [List.mem_singleton] at h; exact Or.inr (Or.inl ⟨h, hc.1⟩)
    · cases h
  · split at h
    · rename_i hc; simp only [List.mem_singleton] at h
      exact Or.inr (Or.inr (Or.inl ⟨h, hc.1⟩))
    · cases h
  · split at h
    · rename_i hc; simp only [List.mem_singleton] at h
      exact Or.inr (Or.inr (Or.inr ⟨h, hc.1⟩))
    · cases h

/-! ## Lemmas on `Maze::Consistent` -/

theorem consistentInner_eq (cells : List Cell) (number : Nat) :
    ∀ (l : List Nat) (result : Bool) (log : List Diag),
      consistentInner cells number l (result, log) =
        (result && l.all (fun I => (cellAt cells I).IsNeighbor cells (cellAt cells number)),
         log ++ (l.filter
            (fun I => !(cellAt cells I).IsNeighbor cells (cellAt cells number))).map
            (fun I => Diag.neighborAsymetry number (cellAt cells I).GetID)) := by
  intro l
  induction l with
  | nil => intro result log; simp [consistentInner]
  | cons I rest ih =>
    intro result log
    unfold consistentInner
    by_cases h : (cellAt cells I).IsNeighbor cells (cellAt cells number) = true
    · simp [h, ih]
    · simp only [Bool.not_eq_true] at h
      simp [h, ih]

theorem isNeighbor_eq {m : Maze} (hwf : WellFormed m) (hid : IdsAreIndices m) {a b : Nat}
    (ha : a < m.cellVector_.length) :
    (cellAt m.cellVector_ b).IsNeighbor m.cellVector_ (cellAt m.cellVector_ a)
      = listsBack m.cellVector_ a b := by
  unfold Cell.IsNeighbor listsBack
  rw [hid a ha]
  rw [Bool.eq_iff_iff]
  simp only [List.any_eq_true, beq_iff_eq, decide_eq_true_eq]
  constructor
  · rintro ⟨I, hI, hIa⟩
    rw [hid I (hwf.links b I hI)] at hIa
    subst hIa; exact hI
  · intro h
    exact ⟨a, h, hid a ha⟩

theorem consistentInner_wf {m : Maze} (hwf : WellFormed m) (hid : IdsAreIndices m) {a : Nat}
    (ha : a < m.cellVector_.length) (result : Bool) (log : List Diag) :
    consistentInner m.cellVector_ a (cellAt m.cellVector_ a).neighborList_ (result, log) =
      (result && (cellAt m.cellVector_ a).neighborList_.all (fun b => listsBack m.cellVector_ a b),
       log ++ (asymmetricEntries m.cellVector_ a).map
          (fun p => Diag.neighborAsymetry p.1 p.2)) := by
  rw [consistentInner_eq]
  have h1 : ∀ I, (cellAt m.cellVector_ I).IsNeighbor m.cellVector_ (cellAt m.cellVector_ a)
      = listsBack m.cellVector_ a I := fun I => isNeighbor_eq hwf hid ha
  simp only [h1, asymmetricEntries, List.map_map]
  congr 2
  apply List.map_congr_left
  intro I hI
  have := (List.mem_filter.1 hI).1
  simp only [Function.comp]
  rw [hid I (hwf.links a I this)]

theorem consistentOuter_wf {m : Maze} (hwf : WellFormed m) (hid : IdsAreIndices m) :
    ∀ (todo number : Nat) (result : Bool) (log : List Diag),
      number + todo ≤ m.cellVector_.length →
      consistentOuter m.cellVector_ todo number (result, log) =
        (result && (List.range' number todo).all (fun a =>
            (cellAt m.cellVector_ a).neighborList_.all (fun b => listsBack m.cellVector_ a b)),
         log ++ ((List.range' number todo).foldr
            (fun a acc => asymmetricEntries m.cellVector_ a ++ acc) []).map
            (fun p => Diag.neighborAsymetry p.1 p.2)) := by
  intro todo
  induction todo with
  | zero => intro number result log _; simp [consistentOuter]
  | succ todo ih =>
    intro number result log hle
    unfold consistentOuter
    rw [consistentInner_wf hwf hid (by omega), ih _ _ _ (by omega)]
    simp [List.range'_succ, Bool.and_assoc]

theorem Consistent_wf {m : Maze} (hwf : WellFormed m) (hid : IdsAreIndices m) :
    Consistent m =
      ((List.range m.cellVector_.length).all (fun a =>
          (cellAt m.cellVector_ a).neighborList_.all (fun b => listsBack m.cellVector_ a b)),
       (asymmetricPairs m.cellVector_ m.cellVector_.length).map
          (fun p => Diag.neighborAsymetry p.1 p.2)) := by
  unfold Consistent
  simp only []
  rw [← hwf.size, consistentOuter_wf hwf hid _ _ _ _ (by omega)]
  simp [asymmetricPairs, List.range_eq_range']

theorem mem_decode_north {plus : Nat → Nat → Nat} {rows cols n w : Nat}
    (h1 : 0 < n / cols) (h2 : w.testBit 0 = false) : n - cols ∈ decode plus rows cols n w := by
  unfold decode; simp [h1, h2]

theorem mem_decode_east {plus : Nat → Nat → Nat} {rows cols n w : Nat}
    (h1 : n % cols + 1 < cols) (h2 : w.testBit 1 = false) :
    n + 1 ∈ decode plus rows cols n w := by
  unfold decode; simp [h1, h2]

theorem mem_decode_south {plus : Nat → Nat → Nat} {rows cols n w : Nat}
    (h1 : n / cols + 1 < rows) (h2 : w.testBit 2 = false) :
    plus n cols ∈ decode plus rows cols n w := by
  unfold decode; simp [h1, h2]

theorem mem_decode_west {plus : Nat → Nat → Nat} {rows cols n w : Nat}
    (h1 : 0 < n % cols) (h2 : w.testBit 3 = false) : n - 1 ∈ decode plus rows cols n w := by
  unfold decode; simp [h1, h2]

theorem succ_div_mod {a cols : Nat} (h : a % cols + 1 < cols) :
    (a + 1) / cols = a / cols ∧ (a + 1) % cols = a % cols + 1 := by
  have h1 : a + 1 = cols * (a / cols) + (a % cols + 1) := by
    have := Nat.div_add_mod a cols; omega
  constructor
  · have h2 : (cols * (a / cols) + (a % cols + 1)) / cols = a / cols := by
      rw [Nat.mul_add_div (by omega), Nat.div_eq_of_lt h, Nat.add_zero]
    rw [← h1] at h2
    rw [h2]
  · have h2 : (cols * (a / cols) + (a % cols + 1)) % cols = a % cols + 1 := by
      rw [Nat.mul_add_mod, Nat.mod_eq_of_lt h]
    rw [← h1] at h2
    exact h2

theorem lt_of_east {rows cols a : Nat} (ha : a < rows * cols) (h : a % cols + 1 < cols) :
    a + 1 < rows * cols := by
  have hpos : 0 < cols := by omega
  have h1 := Nat.div_add_mod a cols
  have h2 : a / cols < rows := (Nat.div_lt_iff_lt_mul hpos).2 ha
  have h3 : cols * (a / cols + 1) ≤ cols * rows := Nat.mul_le_mul_left cols h2
  have h4 : cols * (a / cols + 1) = cols * (a / cols) + cols := by ring
  have h5 : rows * cols = cols * rows := Nat.mul_comm _ _
  omega

theorem lt_of_south {rows cols a : Nat} (hpos : 0 < cols) (h : a / cols + 1 < rows) :
    a + cols < rows * cols := by
  have h1 := Nat.div_add_mod a cols
  have h2 : a % cols < cols := Nat.mod_lt _ hpos
  have h3 : cols * (a / cols + 2) ≤ cols * rows := Nat.mul_le_mul_left cols h
  have h4 : cols * (a / cols + 2) = cols * (a / cols) + 2 * cols := by ring
  have h5 : rows * cols = cols * rows := Nat.mul_comm _ _
  omega

theorem loaded_links {ifs : List (Option Nat)} {rows cols s g : Nat}
    (hl : Loads ifs rows cols s g) (hlt : rows * cols < 4294967296) {p q : Nat}
    (h : q ∈ (cellAt (loaded ifs rows cols s g).cellVector_ p).neighborList_) :
    q < rows * cols := by
  have hu : umul rows cols = rows * cols := Nat.mod_eq_of_lt hlt
  by_cases hp : p < umul rows cols
  · obtain ⟨w, -, -, hc⟩ := loaded_cell hl hp
    rw [hc] at h
    have hpos := umul_pos_cols hp
    rw [hu] at hp
    rcases mem_decode h with ⟨rfl, -⟩ | ⟨rfl, h1⟩ | ⟨rfl, h1⟩ | ⟨rfl, -⟩
    · omega
    · exact lt_of_east hp h1
    · rw [uadd_small (by have := @lt_of_south rows cols p hpos h1; omega)]
      exact lt_of_south hpos h1
    · omega
  · have : (loaded ifs rows cols s g).cellVector_[p]? = none :=
      List.getElem?_eq_none (by rw [loaded_length]; omega)
    simp [cellAt, this, Cell.new] at h

theorem loaded_wellFormed {ifs : List (Option Nat)} {rows cols s g : Nat}
    (hl : Loads ifs rows cols s g) (hlt : rows * cols < 4294967296) :
    WellFormed (loaded ifs rows cols s g) ∧ IdsAreIndices (loaded ifs rows cols s g) := by
  have hu : umul rows cols = rows * cols := Nat.mod_eq_of_lt hlt
  refine ⟨⟨loaded_length _ _ _ _ _, ?_, ?_, ?_⟩, ?_⟩
  · intro p q h
    rw [loaded_length, hu]
    exact loaded_links hl hlt h
  · intro x hx
    simp only [loaded, Option.some.injEq] at hx
    subst hx
    rw [loaded_length]; exact hl.2.2.2.2.2.1
  · intro x hx
    simp only [loaded, Option.some.injEq] at hx
    subst hx
    rw [loaded_length]; exact hl.2.2.2.2.2.2
  · intro p hp
    rw [loaded_length] at hp
    obtain ⟨w, -, -, hc⟩ := loaded_cell hl hp
    rw [hc]; rfl

theorem loaded_symmetric {ifs : List (Option Nat)} {rows cols s g : Nat}
    (hl : Loads ifs rows cols s g) (hlt : rows * cols < 4294967296)
    (hag : InteriorAgrees ifs cols (rows * cols)) {a b : Nat} (ha : a < rows * cols)
    (hb : b ∈ (cellAt (loaded ifs rows cols s g).cellVector_ a).neighborList_) :
    a ∈ (cellAt (loaded ifs rows cols s g).cellVector_ b).neighborList_ := by
  have hu : umul rows cols = rows * cols := Nat.mod_eq_of_lt hlt
  have hblt : b < rows * cols := loaded_links hl hlt hb
  obtain ⟨wa, hwa, -, hca⟩ := loaded_cell hl (by rw [hu]; exact ha)
  obtain ⟨wb, hwb, -, hcb⟩ := loaded_cell hl (by rw [hu]; exact hblt)
  have ea : wallsAt ifs a = wa := by simp [wallsAt, hwa]
  have eb : wallsAt ifs b = wb := by simp [wallsAt, hwb]
  have hpos : 0 < cols := @umul_pos_cols rows cols a (by rw [hu]; exact ha)
  have hrow : ∀ x, x < rows * cols → x / cols < rows :=
    fun x hx => (Nat.div_lt_iff_lt_mul hpos).2 hx
  rw [hca] at hb
  rw [hcb]
  simp only
  unfold decode at hb
  simp only [List.mem_append] at hb
  rcases hb with ((hb | hb) | hb) | hb
  · -- North: b = a - cols
    split at hb
    · rename_i hc
      simp only [List.mem_singleton] at hb
      have hle : cols ≤ a := by
        by_contra hcon
        have := Nat.div_eq_of_lt (Nat.lt_of_not_le hcon)
        omega
      have hab : b + cols = a := by omega
      have hdiv : a / cols = b / cols + 1 := by rw [← hab, Nat.add_div_right _ hpos]
      have hbit := hag.2 b (by omega)
      rw [hab, ea, eb, hc.2] at hbit
      have hmem : uadd b cols ∈ decode uadd rows cols b wb :=
        mem_decode_south (by have := hrow a ha; omega) hbit
      rwa [uadd_small (by omega), hab] at hmem
    · cases hb
  · -- East: b = a + 1
    split at hb
    · rename_i hc
      simp only [List.mem_singleton] at hb
      subst hb
      obtain ⟨hd, hm⟩ := succ_div_mod hc.1
      have hbit := hag.1 a hblt hd.symm
      rw [ea, eb, hc.2] at hbit
      have hmem : a + 1 - 1 ∈ decode uadd rows cols (a + 1) wb :=
        mem_decode_west (by omega) hbit.symm
      simpa using hmem
    · cases hb
  · -- South: b = a + cols
    split at hb
    · rename_i hc
      simp only [List.mem_singleton] at hb
      have hsum := @lt_of_south rows cols a hpos hc.1
      rw [uadd_small (by omega)] at hb
      subst hb
      have hdiv : (a + cols) / cols = a / cols + 1 := Nat.add_div_right _ hpos
      have hbit := hag.2 a hsum
      rw [ea, eb, hc.2] at hbit
      have hmem : a + cols - cols ∈ decode uadd rows cols (a + cols) wb :=
        mem_decode_north (by rw [hdiv]; exact Nat.succ_pos _) hbit.symm
      simpa using hmem
    · cases hb
  · -- West: b = a - 1
    split at hb
    · rename_i hc
      simp only [List.mem_singleton] at hb
      have hmodlt : a % cols < cols := Nat.mod_lt _ hpos
      have ha1 : 1 ≤ a := by
        rcases Nat.eq_zero_or_pos a with h0 | h0
        · subst h0; simp at hc
        · exact h0
      have hab : b + 1 = a := by omega
      have hbm : b % cols + 1 < cols ∨ b % cols + 1 = cols := by
        have := Nat.mod_lt b hpos; omega
      have hbm' : b % cols + 1 < cols := by
        rcases hbm with h | h
        · exact h
        · exfalso
          have h1 := Nat.div_add_mod b cols
          have h2 : a = cols * (b / cols + 1) := by
            have : cols * (b / cols + 1) = cols * (b / cols) + cols := by ring
            omega
          have h3 : a % cols = 0 := by rw [h2]; exact Nat.mul_mod_right _ _
          omega
      obtain ⟨hd, hm⟩ := succ_div_mod hbm'
      have hbit := hag.1 b (by omega) hd.symm
      rw [hab, ea, eb, hc.2] at hbit
      have hmem : b + 1 ∈ decode uadd rows cols b wb := mem_decode_east hbm' hbit
      rwa [hab] at hmem
    · cases hb

theorem lopsided_wellFormed : WellFormed lopsided ∧ IdsAreIndices lopsided := by
  refine ⟨⟨by decide, ?_, ?_, ?_⟩, ?_⟩
  · intro p q h
    match p with
    | 0 => simp [lopsided, cellAt] at h; subst h; decide
    | 1 => simp [lopsided, cellAt] at h
    | p + 2 => simp [lopsided, cellAt, Cell.new] at h
  · intro x hx; simp [lopsided] at hx; subst hx; decide
  · intro x hx; simp [lopsided] at hx; subst hx; decide
  · intro p hp
    have : p < 2 := hp
    interval_cases p <;> rfl

/-! ## Lemmas on `Maze::Solve` -/

theorem cellAt_updateCell (cells : List Cell) (p : Nat) (f : Cell → Cell) (q : Nat) :
    cellAt (updateCell cells p f) q =
      if q = p ∧ p < cells.length then f (cellAt cells p) else cellAt cells q := by
  unfold cellAt
  rw [updateCell_get]
  by_cases hq : q = p
  · subst hq
    by_cases hlt : q < cells.length
    · simp [hlt, List.getElem?_eq_getElem hlt]
    · simp [hlt, List.getElem?_eq_none (Nat.le_of_not_lt hlt)]
  · simp [hq]

theorem cellAt_of_ge {cells : List Cell} {p : Nat} (h : cells.length ≤ p) :
    cellAt cells p = Cell.new := by
  simp [cellAt, List.getElem?_eq_none h]

theorem lt_of_visited {cells : List Cell} {p : Nat} (h : (cellAt cells p).visited_ = true) :
    p < cells.length := by
  by_contra hcon
  rw [cellAt_of_ge (Nat.le_of_not_lt hcon)] at h
  cases h

theorem nodup_length_le {l : List Nat} {n : Nat} (hd : l.Nodup) (hlt : ∀ x, x ∈ l → x < n) :
    l.length ≤ n := by
  have hsub : l ⊆ List.range n := fun x hx => List.mem_range.2 (hlt x hx)
  have := (List.subperm_of_subset hd hsub).length_le
  simpa using this

theorem Inv.mem_lt {G : List Cell} {s : Nat} {goal : Option Nat} {cells : List Cell}
    {Q done : List Nat} {lev : Nat → Nat} (h : Inv G s goal cells Q done lev) {p : Nat}
    (hp : p ∈ done ++ Q) : p < G.length := by
  rw [← h.same.length]
  exact lt_of_visited ((h.vis p).2 hp)

theorem Inv.length_le {G : List Cell} {s : Nat} {goal : Option Nat} {cells : List Cell}
    {Q done : List Nat} {lev : Nat → Nat} (h : Inv G s goal cells Q done lev) :
    (done ++ Q).length ≤ G.length :=
  nodup_length_le h.nodup (fun _ hx => h.mem_lt hx)

theorem Inv.head_le {G : List Cell} {s : Nat} {goal : Option Nat} {cells : List Cell}
    {Q done : List Nat} {lev : Nat → Nat} (h : Inv G s goal cells Q done lev) {F b : Nat}
    (hF : Q.head? = some F) (hb : b ∈ Q) : lev F ≤ lev b := by
  cases Q with
  | nil => cases hF
  | cons x rest =>
    simp only [List.head?_cons, Option.some.injEq] at hF
    subst hF
    have hs := (List.pairwise_append.1 h.sorted).2.1
    rcases List.mem_cons.1 hb with rfl | hb'
    · exact Nat.le_refl _
    · exact (List.pairwise_cons.1 hs).1 b hb'

theorem cellAt_push (cells : List Cell) {N : Nat} (F : Nat) (hN : N < cells.length) (q : Nat) :
    cellAt (updateCell (updateCell cells N Cell.SetVisited) N
        (fun c => c.SetParent (some F))) q =
      if q = N then ((cellAt cells N).SetVisited).SetParent (some F) else cellAt cells q := by
  simp only [cellAt_updateCell, updateCell_length]
  by_cases hq : q = N
  · subst hq; simp [hN]
  · simp [hq]

theorem Inv.push {G : List Cell} {s : Nat} {goal : Option Nat} {cells : List Cell}
    {Q done : List Nat} {lev : Nat → Nat} (h : Inv G s goal cells Q done lev) {F N : Nat}
    (hF : Q.head? = some F) (hN : N ∈ (cellAt cells F).neighborList_)
    (hv : (cellAt cells N).visited_ = false) :
    Inv G s goal
      (updateCell (updateCell cells N Cell.SetVisited) N (fun c => c.SetParent (some F)))
      (Q ++ [N]) done (fun p => if p = N then lev F + 1 else lev p) := by
  have hFQ : F ∈ Q := by
    cases Q with
    | nil => cases hF
    | cons x rest =>
      simp only [List.head?_cons, Option.some.injEq] at hF
      subst hF; exact List.mem_cons_self _ _
  have hFall : F ∈ done ++ Q := List.mem_append.2 (Or.inr hFQ)
  have hNG : N ∈ (cellAt G F).neighborList_ := by rw [← h.same.nbrs]; exact hN
  have hNlt : N < cells.length := by rw [h.same.length]; exact h.links F N hNG
  have hNnot : N ∉ done ++ Q := by
    intro hmem
    have := (h.vis N).2 hmem
    rw [hv] at this; cases this
  have hcell := cellAt_push cells F hNlt
  have hne : ∀ p, p ∈ done ++ Q → p ≠ N := fun p hp hpn => hNnot (hpn ▸ hp)
  have hall : done ++ (Q ++ [N]) = (done ++ Q) ++ [N] := (List.append_assoc _ _ _).symm
  have hmem : ∀ p, p ∈ done ++ (Q ++ [N]) ↔ p ∈ done ++ Q ∨ p = N := by
    intro p; rw [hall, List.mem_append, List.mem_singleton]
  have hhead : (Q ++ [N]).head? = some F := by
    cases Q with
    | nil => cases hF
    | cons x rest => simpa using hF
  refine ⟨⟨?_, ?_, ?_⟩, h.links, ?_, ?_, ?_, ?_, ?_, ?_, ?_, ?_, h.goal, ?_, ?_⟩
  · rw [updateCell_length, updateCell_length]; exact h.same.length
  · intro p
    rw [hcell]
    split
    · rename_i hp; subst hp; exact h.same.nbrs p
    · exact h.same.nbrs p
  · intro p
    rw [hcell]
    split
    · rename_i hp; subst hp; exact h.same.ids p
    · exact h.same.ids p
  · intro p
    rw [hcell, hmem]
    by_cases hp : p = N
    · simp [hp, Cell.SetVisited, Cell.SetParent]
    · simp only [if_neg hp, hp, or_false]
      exact h.vis p
  · rw [hall]
    refine List.nodup_append.2 ⟨h.nodup, List.nodup_singleton _, ?_⟩
    intro x hx hx'
    rw [List.mem_singleton] at hx'
    exact hne x hx hx'
  · rw [hall]
    refine List.pairwise_append.2 ⟨?_, List.pairwise_singleton _ _, ?_⟩
    · refine h.sorted.imp_of_mem ?_
      intro a b ha hb hab
      simp only [if_neg (hne a ha), if_neg (hne b hb)]
      exact hab
    · intro a ha b hb
      rw [List.mem_singleton] at hb
      subst hb
      simp only [if_neg (hne a ha), if_true]
      exact h.near F hF a ha
  · intro hd hhd p hp
    rw [hhead] at hhd
    obtain rfl := Option.some.inj hhd
    simp only [if_neg (hne _ hFall)]
    rcases (hmem p).1 hp with hp | hp
    · simp only [if_neg (hne p hp)]
      exact h.near _ hF p hp
    · simp [hp]
  · intro p hp q hq
    obtain ⟨h1, h2⟩ := h.closed p hp q hq
    refine ⟨(hmem q).2 (Or.inl h1), ?_⟩
    simp only [if_neg (hne q h1), if_neg (hne p (List.mem_append.2 (Or.inl hp)))]
    exact h2
  · refine ⟨(hmem s).2 (Or.inl h.start.1), ?_, ?_⟩
    · simp only [if_neg (hne s h.start.1)]; exact h.start.2.1
    · rw [hcell, if_neg (hne s h.start.1)]; exact h.start.2.2
  · intro p hp hps
    rcases (hmem p).1 hp with hp | hp
    · obtain ⟨pp, h1, h2, h3, h4⟩ := h.parent p hp hps
      refine ⟨pp, ?_, (hmem pp).2 (Or.inl h2), h3, ?_⟩
      · rw [hcell, if_neg (hne p hp)]; exact h1
      · simp only [if_neg (hne p hp), if_neg (hne pp h2)]; exact h4
    · subst hp
      refine ⟨F, ?_, (hmem F).2 (Or.inl hFall), hNG, ?_⟩
      · rw [hcell, if_pos rfl]; rfl
      · simp only [if_true, if_neg (hne F hFall)]
  · intro p hp
    rw [hcell] at hp ⊢
    by_cases hpn : p = N
    · rw [if_pos hpn] at hp
      simp [Cell.SetVisited, Cell.SetParent] at hp
    · rw [if_neg hpn] at hp ⊢
      exact h.fresh p hp
  · intro p hp
    rw [hall, List.length_append, List.length_singleton]
    rcases (hmem p).1 hp with hp | hp
    · simp only [if_neg (hne p hp)]
      have := h.levlt p hp; omega
    · subst hp
      simp only [if_true]
      have := h.levlt F hFall; omega
  · intro p hp
    rcases (hmem p).1 hp with hp | hp
    · simp only [if_neg (hne p hp)]
      exact h.steps p hp
    · subst hp
      simp only [if_true]
      exact StepsTo.next (h.steps F hFall) hNG

theorem Inv.pop {G : List Cell} {s : Nat} {goal : Option Nat} {cells : List Cell}
    {rest done : List Nat} {lev : Nat → Nat} {F : Nat}
    (h : Inv G s goal cells (F :: rest) done lev)
    (hall : ∀ q, q ∈ (cellAt cells F).neighborList_ → (cellAt cells q).visited_ = true)
    (hg : goal ≠ some F) :
    Inv G s goal cells rest (done ++ [F]) lev := by
  have hl : (done ++ [F]) ++ rest = done ++ (F :: rest) := by simp
  refine ⟨h.same, h.links, ?_, ?_, ?_, ?_, ?_, ?_, ?_, h.fresh, ?_, ?_, ?_⟩
  · rw [hl]; exact h.vis
  · rw [hl]; exact h.nodup
  · rw [hl]; exact h.sorted
  · intro hd hhd p hp
    rw [hl] at hp
    have h1 := h.near F rfl p hp
    have hmem : hd ∈ F :: rest := by
      cases rest with
      | nil => cases hhd
      | cons x r =>
        simp only [List.head?_cons, Option.some.injEq] at hhd
        subst hhd; simp
    have h2 := h.head_le (F := F) rfl hmem
    omega
  · intro p hp q hq
    rw [hl]
    rcases List.mem_append.1 hp with hp | hp
    · exact h.closed p hp q hq
    · rw [List.mem_singleton] at hp
      subst hp
      have hq' : q ∈ (cellAt cells p).neighborList_ := by rw [h.same.nbrs]; exact hq
      have hqa := (h.vis q).1 (hall q hq')
      exact ⟨hqa, h.near p rfl q hqa⟩
  · rw [hl]; exact h.start
  · rw [hl]; exact h.parent
  · intro g hgo hmem
    rcases List.mem_append.1 hmem with hm | hm
    · exact h.goal g hgo hm
    · rw [List.mem_singleton] at hm
      subst hm; exact hg hgo
  · rw [hl]; exact h.levlt
  · rw [hl]; exact h.steps

theorem drain_spec {G : List Cell} {s : Nat} {goal : Option Nat} (F : Nat) :
    ∀ (fuel : Nat) (m : Maze) (done : List Nat) (lev : Nat → Nat),
      Inv G s goal m.cellVector_ m.conQueue_ done lev →
      m.conQueue_.head? = some F →
      G.length ≤ (done ++ m.conQueue_).length + fuel →
      ∃ m1 lev1, drain F fuel m = some m1 ∧
        Inv G s goal m1.cellVector_ m1.conQueue_ done lev1 ∧
        m1.conQueue_.head? = some F ∧
        (∀ q, q ∈ (cellAt m1.cellVector_ F).neighborList_ →
          (cellAt m1.cellVector_ q).visited_ = true) ∧
        m1.start_ = m.start_ ∧ m1.goal_ = m.goal_ ∧
        m1.numrows_ = m.numrows_ ∧ m1.numcols_ = m.numcols_ := by
  intro fuel
  induction fuel with
  | zero =>
    intro m done lev h hF hlen
    cases hnext : (cellAt m.cellVector_ F).GetNextNeighbor m.cellVector_ with
    | none =>
      refine ⟨m, lev, by unfold drain; simp only [hnext], h, hF, ?_, rfl, rfl, rfl, rfl⟩
      intro q hq
      have := List.find?_eq_none.1 hnext q hq
      simpa [Cell.IsVisited] using this
    | some N =>
      exfalso
      have hmem : N ∈ (cellAt m.cellVector_ F).neighborList_ := List.mem_of_find?_eq_some hnext
      have hv : (cellAt m.cellVector_ N).visited_ = false := by
        have := List.find?_some hnext
        simpa [Cell.IsVisited] using this
      have := (h.push hF hmem hv).length_le
      simp only [List.length_append, List.length_singleton] at this hlen
      omega
  | succ fuel ih =>
    intro m done lev h hF hlen
    cases hnext : (cellAt m.cellVector_ F).GetNextNeighbor m.cellVector_ with
    | none =>
      refine ⟨m, lev, by unfold drain; simp only [hnext], h, hF, ?_, rfl, rfl, rfl, rfl⟩
      intro q hq
      have := List.find?_eq_none.1 hnext q hq
      simpa [Cell.IsVisited] using this
    | some N =>
      have hmem : N ∈ (cellAt m.cellVector_ F).neighborList_ := List.mem_of_find?_eq_some hnext
      have hv : (cellAt m.cellVector_ N).visited_ = false := by
        have := List.find?_some hnext
        simpa [Cell.IsVisited] using this
      have hhead : (m.conQueue_ ++ [N]).head? = some F := by
        cases hq : m.conQueue_ with
        | nil => rw [hq] at hF; cases hF
        | cons x rest => rw [hq] at hF; simpa using hF
      obtain ⟨m1, lev1, h1, h2, h3, h4, h5, h6, h7, h8⟩ :=
        ih { m with
              cellVector_ := updateCell (updateCell m.cellVector_ N Cell.SetVisited) N
                (fun c => c.SetParent (some F)),
              conQueue_ := m.conQueue_ ++ [N] }
          done _ (h.push hF hmem hv) hhead
          (by simp only [List.length_append, List.length_singleton] at hlen ⊢; omega)
      refine ⟨m1, lev1, ?_, h2, h3, h4, h5, h6, h7, h8⟩
      unfold drain
      simp only [hnext]
      exact h1

theorem backtrack_none (cells : List Cell) (fuel : Nat) (solution : List Nat) :
    backtrack cells fuel none solution = some solution := by
  cases fuel <;> rfl

theorem backtrack_spec {G : List Cell} {s : Nat} {goal : Option Nat} {cells : List Cell}
    {Q done : List Nat} {lev : Nat → Nat} (h : Inv G s goal cells Q done lev) :
    ∀ (fuel p : Nat) (solution : List Nat), p ∈ done ++ Q → lev p < fuel →
      ∃ chain, backtrack cells fuel (some p) solution
          = some (chain.map (fun c => (cellAt G c).GetID) ++ solution) ∧
        chain.head? = some s ∧ chain.getLast? = some p ∧ IsTrail G chain ∧
        chain.length = lev p + 1 := by
  intro fuel
  induction fuel with
  | zero => intro p solution _ hlt; omega
  | succ fuel ih =>
    intro p solution hp hlt
    by_cases hps : p = s
    · subst hps
      refine ⟨[p], ?_, rfl, rfl, List.chain'_singleton _, by rw [h.start.2.1]; rfl⟩
      simp only [backtrack, Cell.GetParent, h.start.2.2, backtrack_none, Cell.GetID,
        h.same.ids, List.map_cons, List.map_nil, List.singleton_append]
    · obtain ⟨pp, h1, h2, h3, h4⟩ := h.parent p hp hps
      obtain ⟨chain, c1, c2, c3, c4, c5⟩ :=
        ih pp ((cellAt cells p).GetID :: solution) h2 (by omega)
      refine ⟨chain ++ [p], ?_, ?_, by simp, ?_, by simp [c5, h4]⟩
      · simp only [backtrack, Cell.GetParent, h1]
        rw [c1]
        simp [Cell.GetID, h.same.ids]
      · cases chain with
        | nil => cases c2
        | cons x xs => simpa using c2
      · refine List.Chain'.append c4 (List.chain'_singleton _) ?_
        intro x hx y hy
        rw [c3] at hx
        simp only [Option.mem_def, Option.some.injEq, List.head?_cons] at hx hy
        subst hx; subst hy
        exact h3

theorem Inv.lev_le {G : List Cell} {s : Nat} {goal : Option Nat} {cells : List Cell}
    {Q done : List Nat} {lev : Nat → Nat} (h : Inv G s goal cells Q done lev) {F : Nat}
    (hF : Q.head? = some F) {n w : Nat} (hw : StepsTo G s n w) :
    n ≤ lev F → w ∈ done ++ Q ∧ lev w ≤ n := by
  induction hw with
  | here => intro _; exact ⟨h.start.1, by rw [h.start.2.1]⟩
  | next hb hc ih =>
    rename_i n b c
    intro hn
    obtain ⟨hb1, hb2⟩ := ih (by omega)
    have hbd : b ∈ done := by
      rcases List.mem_append.1 hb1 with hd | hq
      · exact hd
      · have := h.head_le hF hq; omega
    obtain ⟨h1, h2⟩ := h.closed b hbd c hc
    exact ⟨h1, by omega⟩

theorem Inv.exhausted {G : List Cell} {s : Nat} {goal : Option Nat} {cells : List Cell}
    {done : List Nat} {lev : Nat → Nat} (h : Inv G s goal cells [] done lev) {n w : Nat}
    (hw : StepsTo G s n w) : w ∈ done := by
  induction hw with
  | here => simpa using h.start.1
  | next hb hc ih => simpa using (h.closed _ ih _ hc).1

theorem expand_spec {G : List Cell} {s : Nat} {goal : Option Nat} (k : Nat) (sol : List Nat)
    (hk : G.length ≤ k) :
    ∀ (fuel : Nat) (m : Maze) (done : List Nat) (lev : Nat → Nat),
      Inv G s goal m.cellVector_ m.conQueue_ done lev → m.goal_ = goal →
      G.length ≤ done.length + fuel →
      ∃ m1 path done1 lev1, expand k fuel m sol = some (m1, path) ∧
        SolveSpec G s goal sol path ∧
        Inv G s goal m1.cellVector_ m1.conQueue_ done1 lev1 ∧
        m1.start_ = m.start_ ∧ m1.goal_ = m.goal_ ∧
        m1.numrows_ = m.numrows_ ∧ m1.numcols_ = m.numcols_ := by
  intro fuel
  induction fuel with
  | zero =>
    intro m done lev h hgoal hlen
    cases hq : m.conQueue_ with
    | nil =>
      rw [hq] at h
      refine ⟨m, sol, done, lev, by unfold expand; simp only [hq], ⟨?_, fun _ => rfl⟩,
        by rw [hq]; exact h, rfl, rfl, rfl, rfl⟩
      rintro g hg ⟨n, hn⟩
      exact absurd (h.exhausted hn) (h.goal g hg)
    | cons F rest =>
      rw [hq] at h
      by_cases hgF : m.goal_ = some F
      · have hFall : F ∈ done ++ F :: rest := by simp
        have hlt : lev F < k := by
          have := h.levlt F hFall; have := h.length_le; omega
        obtain ⟨chain, c1, c2, c3, c4, c5⟩ := backtrack_spec h k F sol hFall hlt
        refine ⟨m, chain.map (fun c => (cellAt G c).GetID) ++ sol, done, lev,
          by unfold expand; simp only [hq, hgF, if_true, c1],
          ⟨?_, ?_⟩, by rw [hq]; exact h, rfl, rfl, rfl, rfl⟩
        · intro g hg _
          rw [← hgoal, hgF] at hg
          obtain rfl := Option.some.inj hg
          refine ⟨chain, rfl, c2, c3, c4, ?_, ?_⟩
          · rw [c5]; exact h.steps _ hFall
          · intro n hn
            rw [c5]
            by_cases hle : n ≤ lev F
            · have := (h.lev_le (F := F) rfl hn hle).2; omega
            · omega
        · intro hnot
          exact absurd ⟨lev F, h.steps F hFall⟩ (hnot F (by rw [← hgoal, hgF]))
      · exfalso
        have := h.length_le
        simp only [List.length_append, List.length_cons] at this
        omega
  | succ fuel ih =>
    intro m done lev h hgoal hlen
    cases hq : m.conQueue_ with
    | nil =>
      rw [hq] at h
      refine ⟨m, sol, done, lev, by unfold expand; simp only [hq], ⟨?_, fun _ => rfl⟩,
        by rw [hq]; exact h, rfl, rfl, rfl, rfl⟩
      rintro g hg ⟨n, hn⟩
      exact absurd (h.exhausted hn) (h.goal g hg)
    | cons F rest =>
      by_cases hgF : m.goal_ = some F
      · rw [hq] at h
        have hFall : F ∈ done ++ F :: rest := by simp
        have hlt : lev F < k := by
          have := h.levlt F hFall; have := h.length_le; omega
        obtain ⟨chain, c1, c2, c3, c4, c5⟩ := backtrack_spec h k F sol hFall hlt
        refine ⟨m, chain.map (fun c => (cellAt G c).GetID) ++ sol, done, lev,
          by unfold expand; simp only [hq, hgF, if_true, c1],
          ⟨?_, ?_⟩, by rw [hq]; exact h, rfl, rfl, rfl, rfl⟩
        · intro g hg _
          rw [← hgoal, hgF] at hg
          obtain rfl := Option.some.inj hg
          refine ⟨chain, rfl, c2, c3, c4, ?_, ?_⟩
          · rw [c5]; exact h.steps _ hFall
          · intro n hn
            rw [c5]
            by_cases hle : n ≤ lev F
            · have := (h.lev_le (F := F) rfl hn hle).2; omega
            · omega
        · intro hnot
          exact absurd ⟨lev F, h.steps F hFall⟩ (hnot F (by rw [← hgoal, hgF]))
      · have hF : m.conQueue_.head? = some F := by rw [hq]; rfl
        obtain ⟨m1, lev1, d1, d2, d3, d4, d5, d6, d7, d8⟩ :=
          drain_spec F k m done lev h hF (by have := h.length_le; omega)
        obtain ⟨rest1, hq1⟩ : ∃ rest1, m1.conQueue_ = F :: rest1 := by
          cases hq1 : m1.conQueue_ with
          | nil => rw [hq1] at d3; cases d3
          | cons x r =>
            rw [hq1] at d3
            simp only [List.head?_cons, Option.some.injEq] at d3
            subst d3; exact ⟨r, rfl⟩
        rw [hq1] at d2
        have hpop := d2.pop d4 (by rw [← hgoal]; exact hgF)
        obtain ⟨m2, path, done2, lev2, e1, e2, e3, e4, e5, e6, e7⟩ :=
          ih { m1 with conQueue_ := m1.conQueue_.tail } (done ++ [F]) lev1
            (by simpa [hq1] using hpop) (by simp only; rw [d6]; exact hgoal)
            (by simp only [List.length_append, List.length_singleton]; omega)
        refine ⟨m2, path, done2, lev2, ?_, e2, e3, by rw [e4]; exact d5, by rw [e5]; exact d6,
          by rw [e6]; exact d7, by rw [e7]; exact d8⟩
        unfold expand
        simp only [hq, hgF, if_false, d1]
        exact e1

theorem resetLoop_get :
    ∀ (todo number : Nat) (cells : List Cell) (j : Nat),
      (resetLoop todo number cells)[j]? =
        if number ≤ j ∧ j < number + todo then
          (cells[j]?).map (fun c => (c.UnSetVisited).SetParent none)
        else cells[j]? := by
  intro todo
  induction todo with
  | zero => intro number cells j; rw [resetLoop, if_neg (by omega)]
  | succ todo ih =>
    intro number cells j
    rw [resetLoop, ih, updateCell_get]
    by_cases hj : j = number
    · subst hj
      rw [if_neg (by omega), if_pos rfl, if_pos (by omega)]
    · by_cases hlt : number + 1 ≤ j ∧ j < number + 1 + todo
      · rw [if_pos hlt, if_neg hj, if_pos (by omega)]
      · rw [if_neg hlt, if_neg hj, if_neg (by omega)]

theorem cellAt_resetLoop (cells : List Cell) (p : Nat) :
    cellAt (resetLoop cells.length 0 cells) p = ((cellAt cells p).UnSetVisited).SetParent none := by
  unfold cellAt
  rw [resetLoop_get]
  by_cases hp : p < cells.length
  · rw [if_pos (by omega)]
    simp [List.getElem?_eq_getElem hp]
  · rw [if_neg (by omega), List.getElem?_eq_none (Nat.le_of_not_lt hp)]
    rfl

theorem resetLoop_length :
    ∀ (todo number : Nat) (cells : List Cell), (resetLoop todo number cells).length = cells.length := by
  intro todo
  induction todo with
  | zero => intro number cells; rfl
  | succ todo ih => intro number cells; rw [resetLoop, ih, updateCell_length]

theorem Inv.init {m : Maze} (hwf : WellFormed m) {s : Nat} (hs : m.start_ = some s) :
    Inv m.cellVector_ s m.goal_
      (updateCell (resetLoop (umul m.numrows_ m.numcols_) 0 m.cellVector_) s Cell.SetVisited)
      [s] [] (fun _ => 0) := by
  rw [← hwf.size]
  have hslt : s < m.cellVector_.length := hwf.start s hs
  have hcell : ∀ p, cellAt (updateCell (resetLoop m.cellVector_.length 0 m.cellVector_) s
      Cell.SetVisited) p =
      if p = s then (((cellAt m.cellVector_ p).UnSetVisited).SetParent none).SetVisited
      else ((cellAt m.cellVector_ p).UnSetVisited).SetParent none := by
    intro p
    rw [cellAt_updateCell, resetLoop_length]
    by_cases hp : p = s
    · subst hp; simp [hslt, cellAt_resetLoop]
    · simp [hp, cellAt_resetLoop]
  refine ⟨⟨?_, ?_, ?_⟩, hwf.links, ?_, ?_, ?_, ?_, ?_, ?_, ?_, ?_, ?_, ?_, ?_⟩
  · rw [updateCell_length, resetLoop_length]
  · intro p; rw [hcell]; split <;> rfl
  · intro p; rw [hcell]; split <;> rfl
  · intro p
    rw [hcell]
    by_cases hp : p = s
    · simp [hp, Cell.SetVisited]
    · simp [hp, Cell.SetParent, Cell.UnSetVisited]
  · simp
  · simp
  · intro hd _ p _; omega
  · intro p hp; cases hp
  · refine ⟨by simp, rfl, ?_⟩
    rw [hcell, if_pos rfl]; rfl
  · intro p hp hps
    simp only [List.nil_append, List.mem_singleton] at hp
    exact absurd hp hps
  · intro p _
    rw [hcell]; split <;> rfl
  · intro g _ hg; cases hg
  · intro p _; simp
  · intro p hp
    simp only [List.nil_append, List.mem_singleton] at hp
    subst hp
    exact StepsTo.here

theorem Solve_spec (m : Maze) (hwf : WellFormed m) {s : Nat} (hs : m.start_ = some s)
    (fuel : Nat) (hfuel : m.cellVector_.length ≤ fuel) (sol : List Nat) :
    ∃ m1 path done lev, Solve fuel m sol = some (m1, path, []) ∧
      SolveSpec m.cellVector_ s m.goal_ [] path ∧
      Inv m.cellVector_ s m.goal_ m1.cellVector_ m1.conQueue_ done lev ∧
      m1.start_ = m.start_ ∧ m1.goal_ = m.goal_ ∧
      m1.numrows_ = m.numrows_ ∧ m1.numcols_ = m.numcols_ := by
  obtain ⟨m1, path, done, lev, e1, e2, e3, e4, e5, e6, e7⟩ :=
    @expand_spec m.cellVector_ s m.goal_ fuel [] hfuel fuel
      { m with
        cellVector_ := updateCell (resetLoop (umul m.numrows_ m.numcols_) 0 m.cellVector_) s
          Cell.SetVisited,
        conQueue_ := [s] }
      [] (fun _ => 0) (Inv.init hwf hs) rfl (by simpa using hfuel)
  refine ⟨m1, path, done, lev, ?_, e2, e3, e4, e5, e6, e7⟩
  rw [hs] at e1
  simp only [Solve, hs, listClear]
  rw [e1]

theorem backtrack_mono (cells : List Cell) :
    ∀ (fuel fuel1 : Nat) (p : Option Nat) (sol r : List Nat), fuel ≤ fuel1 →
      backtrack cells fuel p sol = some r → backtrack cells fuel1 p sol = some r := by
  intro fuel
  induction fuel with
  | zero =>
    intro fuel1 p sol r _ h
    cases p with
    | none => rw [backtrack_none] at h ⊢; exact h
    | some N => simp [backtrack] at h
  | succ fuel ih =>
    intro fuel1 p sol r hle h
    cases p with
    | none => rw [backtrack_none] at h ⊢; exact h
    | some N =>
      obtain ⟨f, rfl⟩ : ∃ f, fuel1 = f + 1 := ⟨fuel1 - 1, by omega⟩
      simp only [backtrack] at h ⊢
      exact ih f _ _ _ (by omega) h

theorem drain_mono (F : Nat) :
    ∀ (fuel fuel1 : Nat) (m r : Maze), fuel ≤ fuel1 →
      drain F fuel m = some r → drain F fuel1 m = some r := by
  intro fuel
  induction fuel with
  | zero =>
    intro fuel1 m r _ h
    unfold drain at h ⊢
    cases hnext : (cellAt m.cellVector_ F).GetNextNeighbor m.cellVector_ with
    | none => simp only [hnext] at h ⊢; exact h
    | some N => simp only [hnext] at h; cases h
  | succ fuel ih =>
    intro fuel1 m r hle h
    obtain ⟨f, rfl⟩ : ∃ f, fuel1 = f + 1 := ⟨fuel1 - 1, by omega⟩
    unfold drain at h ⊢
    cases hnext : (cellAt m.cellVector_ F).GetNextNeighbor m.cellVector_ with
    | none => simp only [hnext] at h ⊢; exact h
    | some N =>
      simp only [hnext] at h ⊢
      exact ih f _ _ (by omega) h

theorem expand_mono {k k1 : Nat} (hk : k ≤ k1) (sol : List Nat) :
    ∀ (fuel fuel1 : Nat) (m : Maze) (r : Maze × List Nat), fuel ≤ fuel1 →
      expand k fuel m sol = some r → expand k1 fuel1 m sol = some r := by
  intro fuel
  induction fuel with
  | zero =>
    intro fuel1 m r _ h
    unfold expand at h ⊢
    cases hq : m.conQueue_ with
    | nil => simp only [hq] at h ⊢; exact h
    | cons F rest =>
      simp only [hq] at h ⊢
      by_cases hg : m.goal_ = some F
      · simp only [hg, if_true] at h ⊢
        cases hb : backtrack m.cellVector_ k (some F) sol with
        | none => simp only [hb] at h; cases h
        | some x =>
          simp only [hb] at h
          rw [backtrack_mono _ _ _ _ _ _ hk hb]
          exact h
      · simp only [hg, if_false] at h; cases h
  | succ fuel ih =>
    intro fuel1 m r hle h
    obtain ⟨f, rfl⟩ : ∃ f, fuel1 = f + 1 := ⟨fuel1 - 1, by omega⟩
    unfold expand at h ⊢
    cases hq : m.conQueue_ with
    | nil => simp only [hq] at h ⊢; exact h
    | cons F rest =>
      simp only [hq] at h ⊢
      by_cases hg : m.goal_ = some F
      · simp only [hg, if_true] at h ⊢
        cases hb : backtrack m.cellVector_ k (some F) sol with
        | none => simp only [hb] at h; cases h
        | some x =>
          simp only [hb] at h
          rw [backtrack_mono _ _ _ _ _ _ hk hb]
          exact h
      · simp only [hg, if_false] at h ⊢
        cases hd : drain F k m with
        | none => simp only [hd] at h; cases h
        | some m1 =>
          simp only [hd] at h
          rw [drain_mono _ _ _ _ _ hk hd]
          exact ih f _ _ (by omega) h

theorem Solve_mono {fuel fuel1 : Nat} (hle : fuel ≤ fuel1) (m : Maze) (sol : List Nat)
    {r : Maze × List Nat × List Diag} (h : Solve fuel m sol = some r) :
    Solve fuel1 m sol = some r := by
  unfold Solve at h ⊢
  cases hs : m.start_ with
  | none => simp only [hs] at h ⊢; exact h
  | some s =>
    simp only [hs] at h ⊢
    generalize hm :
      ({ numrows_ := m.numrows_, numcols_ := m.numcols_, start_ := some s, goal_ := m.goal_,
          cellVector_ := updateCell (resetLoop (umul m.numrows_ m.numcols_) 0 m.cellVector_) s
            Cell.SetVisited,
          conQueue_ := [s] } : Maze) = m0 at h ⊢
    cases he : expand fuel fuel m0 (listClear sol) with
    | none => simp only [he] at h; cases h
    | some x =>
      simp only [he] at h
      rw [expand_mono hle _ _ _ _ _ hle he]
      exact h

theorem scenarioMaze_wellFormed : WellFormed scenarioMaze := by
  refine ⟨by decide, ?_, ?_, ?_⟩
  · intro p q h
    match p with
    | 0 => simp [scenarioMaze, cellAt] at h; rcases h with rfl | rfl <;> decide
    | 1 => simp [scenarioMaze, cellAt] at h; rcases h with rfl | rfl <;> decide
    | 2 => simp [scenarioMaze, cellAt] at h; rcases h with rfl | rfl <;> decide
    | 3 => simp [scenarioMaze, cellAt] at h; rcases h with rfl | rfl <;> decide
    | p + 4 => simp [scenarioMaze, cellAt, Cell.new] at h
  · intro x hx; simp [scenarioMaze] at hx; subst hx; decide
  · intro x hx; simp [scenarioMaze] at hx; subst hx; decide

theorem walledOff_wellFormed : WellFormed walledOff := by
  refine ⟨by decide, ?_, ?_, ?_⟩
  · intro p q h
    match p with
    | 0 => simp [walledOff, cellAt] at h; subst h; decide
    | 1 => simp [walledOff, cellAt] at h; subst h; decide
    | 2 => simp [walledOff, cellAt] at h
    | p + 3 => simp [walledOff, cellAt, Cell.new] at h
  · intro x hx; simp [walledOff] at hx; subst hx; decide
  · intro x hx; simp [walledOff] at hx; subst hx; decide

theorem scenarioMaze_reachable : Reachable scenarioMaze.cellVector_ 0 3 :=
  ⟨2, StepsTo.next (StepsTo.next StepsTo.here (by decide : 1 ∈ _)) (by decide : 3 ∈ _)⟩

theorem trail_lt {G : List Cell} (hlinks : ∀ p q, q ∈ (cellAt G p).neighborList_ → q < G.length) :
    ∀ (chain : List Nat) (s : Nat), chain.head? = some s → s < G.length → IsTrail G chain →
      ∀ c, c ∈ chain → c < G.length := by
  intro chain
  induction chain with
  | nil => intro s h; cases h
  | cons x xs ih =>
    intro s hhead hs htrail c hc
    simp only [List.head?_cons, Option.some.injEq] at hhead
    subst hhead
    rcases List.mem_cons.1 hc with rfl | hc
    · exact hs
    · cases xs with
      | nil => cases hc
      | cons y ys =>
        have h1 := List.chain'_cons.1 htrail
        exact ih y rfl (hlinks _ _ h1.1) h1.2 c hc

theorem Solve_clears (fuel : Nat) (m : Maze) (sol : List Nat) :
    Solve fuel m sol = Solve fuel m [] := by
  simp only [Solve, listClear]

theorem scenarioMaze_solve : Solve 4 scenarioMaze [] = some (scenarioSolved, [0, 1, 3], []) :=
  rfl

theorem walledOff_solve : Solve 3 walledOff [] = some (walledOffSolved, [], []) := rfl

theorem SameGraph.rfl' (cells : List Cell) : SameGraph cells cells :=
  ⟨rfl, fun _ => rfl, fun _ => rfl⟩

theorem SameGraph.trans' {a b c : List Cell} (h1 : SameGraph a b) (h2 : SameGraph b c) :
    SameGraph a c :=
  ⟨h2.length.trans h1.length, fun p => (h2.nbrs p).trans (h1.nbrs p),
    fun p => (h2.ids p).trans (h1.ids p)⟩

theorem SameGraph.symm' {a b : List Cell} (h : SameGraph a b) : SameGraph b a :=
  ⟨h.length.symm, fun p => (h.nbrs p).symm, fun p => (h.ids p).symm⟩

theorem SameGraph.update (cells : List Cell) (p : Nat) {f : Cell → Cell}
    (hf : ∀ c : Cell, (f c).neighborList_ = c.neighborList_ ∧ (f c).id_ = c.id_) :
    SameGraph cells (updateCell cells p f) := by
  refine ⟨updateCell_length _ _ _, fun q => ?_, fun q => ?_⟩
  · rw [cellAt_updateCell]
    split
    · rename_i h; rw [(hf _).1, h.1]
    · rfl
  · rw [cellAt_updateCell]
    split
    · rename_i h; rw [(hf _).2, h.1]
    · rfl

theorem resetLoop_sameGraph :
    ∀ (todo number : Nat) (cells : List Cell), SameGraph cells (resetLoop todo number cells) := by
  intro todo
  induction todo with
  | zero => intro number cells; exact SameGraph.rfl' _
  | succ todo ih =>
    intro number cells
    rw [resetLoop]
    exact (SameGraph.update cells number (f := fun c => (c.UnSetVisited).SetParent none)
      (fun _ => ⟨rfl, rfl⟩)).trans' (ih _ _)

theorem drain_frame (F : Nat) :
    ∀ (fuel : Nat) (m m1 : Maze), drain F fuel m = some m1 →
      SameGraph m.cellVector_ m1.cellVector_ ∧ m1.start_ = m.start_ ∧ m1.goal_ = m.goal_ ∧
      m1.numrows_ = m.numrows_ ∧ m1.numcols_ = m.numcols_ := by
  intro fuel
  induction fuel with
  | zero =>
    intro m m1 h
    unfold drain at h
    cases hnext : (cellAt m.cellVector_ F).GetNextNeighbor m.cellVector_ with
    | none =>
      simp only [hnext, Option.some.injEq] at h
      subst h
      exact ⟨SameGraph.rfl' _, rfl, rfl, rfl, rfl⟩
    | some N => simp only [hnext] at h; cases h
  | succ fuel ih =>
    intro m m1 h
    unfold drain at h
    cases hnext : (cellAt m.cellVector_ F).GetNextNeighbor m.cellVector_ with
    | none =>
      simp only [hnext, Option.some.injEq] at h
      subst h
      exact ⟨SameGraph.rfl' _, rfl, rfl, rfl, rfl⟩
    | some N =>
      simp only [hnext] at h
      obtain ⟨h1, h2, h3, h4, h5⟩ := ih _ _ h
      refine ⟨?_, h2, h3, h4, h5⟩
      exact ((SameGraph.update m.cellVector_ N (f := Cell.SetVisited)
        (fun _ => ⟨rfl, rfl⟩)).trans'
        (SameGraph.update _ N (f := fun c => c.SetParent (some F)) (fun _ => ⟨rfl, rfl⟩))).trans' h1

theorem expand_frame (k : Nat) (sol : List Nat) :
    ∀ (fuel : Nat) (m m1 : Maze) (path : List Nat), expand k fuel m sol = some (m1, path) →
      SameGraph m.cellVector_ m1.cellVector_ ∧ m1.start_ = m.start_ ∧ m1.goal_ = m.goal_ ∧
      m1.numrows_ = m.numrows_ ∧ m1.numcols_ = m.numcols_ := by
  intro fuel
  induction fuel with
  | zero =>
    intro m m1 path h
    unfold expand at h
    cases hq : m.conQueue_ with
    | nil =>
      simp only [hq, Option.some.injEq, Prod.mk.injEq] at h
      obtain ⟨rfl, -⟩ := h
      exact ⟨SameGraph.rfl' _, rfl, rfl, rfl, rfl⟩
    | cons F rest =>
      simp only [hq] at h
      by_cases hg : m.goal_ = some F
      · simp only [hg, if_true] at h
        cases hb : backtrack m.cellVector_ k (some F) sol with
        | none => simp only [hb] at h; cases h
        | some x =>
          simp only [hb, Option.some.injEq, Prod.mk.injEq] at h
          obtain ⟨rfl, -⟩ := h
          exact ⟨SameGraph.rfl' _, rfl, rfl, rfl, rfl⟩
      · simp only [hg, if_false] at h; cases h
  | succ fuel ih =>
    intro m m1 path h
    unfold expand at h
    cases hq : m.conQueue_ with
    | nil =>
      simp only [hq, Option.some.injEq, Prod.mk.injEq] at h
      obtain ⟨rfl, -⟩ := h
      exact ⟨SameGraph.rfl' _, rfl, rfl, rfl, rfl⟩
    | cons F rest =>
      simp only [hq] at h
      by_cases hg : m.goal_ = some F
      · simp only [hg, if_true] at h
        cases hb : backtrack m.cellVector_ k (some F) sol with
        | none => simp only [hb] at h; cases h
        | some x =>
          simp only [hb, Option.some.injEq, Prod.mk.injEq] at h
          obtain ⟨rfl, -⟩ := h
          exact ⟨SameGraph.rfl' _, rfl, rfl, rfl, rfl⟩
      · simp only [hg, if_false] at h
        cases hd : drain F k m with
        | none => simp only [hd] at h; cases h
        | some m2 =>
          simp only [hd] at h
          obtain ⟨d1, d2, d3, d4, d5⟩ := drain_frame F k m m2 hd
          obtain ⟨e1, e2, e3, e4, e5⟩ := ih _ _ _ h
          exact ⟨d1.trans' e1, e2.trans d2, e3.trans d3, e4.trans d4, e5.trans d5⟩

theorem Solve_frame {fuel : Nat} {m m1 : Maze} {sol path : List Nat} {log : List Diag}
    (h : Solve fuel m sol = some (m1, path, log)) :
    SameGraph m.cellVector_ m1.cellVector_ ∧ m1.start_ = m.start_ ∧ m1.goal_ = m.goal_ ∧
    m1.numrows_ = m.numrows_ ∧ m1.numcols_ = m.numcols_ := by
  unfold Solve at h
  cases hs : m.start_ with
  | none =>
    simp only [hs, Option.some.injEq, Prod.mk.injEq] at h
    obtain ⟨rfl, -, -⟩ := h
    exact ⟨SameGraph.rfl' _, hs.symm ▸ rfl, rfl, rfl, rfl⟩
  | some s =>
    simp only [hs] at h
    generalize hm0 :
      ({ numrows_ := m.numrows_, numcols_ := m.numcols_, start_ := some s, goal_ := m.goal_,
          cellVector_ := updateCell (resetLoop (umul m.numrows_ m.numcols_) 0 m.cellVector_) s
            Cell.SetVisited,
          conQueue_ := [s] } : Maze) = m0 at h
    cases he : expand fuel fuel m0 (listClear sol) with
    | none => simp only [he] at h; cases h
    | some x =>
      obtain ⟨m2, p2⟩ := x
      simp only [he, Option.some.injEq, Prod.mk.injEq] at h
      obtain ⟨rfl, -, -⟩ := h
      obtain ⟨e1, e2, e3, e4, e5⟩ := expand_frame fuel _ fuel m0 m2 p2 he
      subst hm0
      refine ⟨?_, e2, e3, e4, e5⟩
      exact ((resetLoop_sameGraph _ _ _).trans'
        (SameGraph.update _ s (f := Cell.SetVisited) (fun _ => ⟨rfl, rfl⟩))).trans' e1

theorem isNeighbor_congr {G cells : List Cell} (h : SameGraph G cells) (a b : Nat) :
    (cellAt cells a).IsNeighbor cells (cellAt cells b) =
      (cellAt G a).IsNeighbor G (cellAt G b) := by
  unfold Cell.IsNeighbor Cell.GetID
  rw [h.nbrs a, h.ids b]
  congr 1
  funext I
  rw [h.ids I]

theorem consistentInner_congr {G cells : List Cell} (h : SameGraph G cells) (number : Nat) :
    ∀ (l : List Nat) (acc : Bool × List Diag),
      consistentInner cells number l acc = consistentInner G number l acc := by
  intro l
  induction l with
  | nil => intro acc; rfl
  | cons I rest ih =>
    intro acc
    obtain ⟨r, log⟩ := acc
    unfold consistentInner
    rw [isNeighbor_congr h I number, ih, ih]
    simp only [Cell.GetID, h.ids I]

theorem consistentOuter_congr {G cells : List Cell} (h : SameGraph G cells) :
    ∀ (todo number : Nat) (acc : Bool × List Diag),
      consistentOuter cells todo number acc = consistentOuter G todo number acc := by
  intro todo
  induction todo with
  | zero => intro number acc; rfl
  | succ todo ih =>
    intro number acc
    unfold consistentOuter
    rw [ih, consistentInner_congr h, h.nbrs number]

theorem Consistent_congr {m m1 : Maze} (h : SameGraph m.cellVector_ m1.cellVector_)
    (hr : m1.numrows_ = m.numrows_) (hc : m1.numcols_ = m.numcols_) :
    Consistent m1 = Consistent m := by
  unfold Consistent
  simp only [hr, hc]
  exact consistentOuter_congr h _ _ _

theorem find?_congr_mem {p q : Nat → Bool} :
    ∀ (l : List Nat), (∀ x, x ∈ l → p x = q x) → l.find? p = l.find? q := by
  intro l
  induction l with
  | nil => intro _; rfl
  | cons a as ih =>
    intro h
    simp only [List.find?_cons, h a (List.mem_cons_self _ _)]
    rw [ih (fun x hx => h x (List.mem_cons_of_mem _ hx))]

theorem drain_withDims (F r c : Nat) (st : Option Nat) :
    ∀ (fuel : Nat) (m : Maze),
      drain F fuel (withDims m r c st) = (drain F fuel m).map (fun x => withDims x r c st) := by
  intro fuel
  induction fuel with
  | zero =>
    intro m
    obtain ⟨nr, nc, st0, gl, cells, Q⟩ := m
    unfold drain
    simp only [withDims]
    cases hnext : (cellAt cells F).GetNextNeighbor cells <;> rfl
  | succ fuel ih =>
    intro m
    obtain ⟨nr, nc, st0, gl, cells, Q⟩ := m
    unfold drain
    simp only [withDims]
    cases hnext : (cellAt cells F).GetNextNeighbor cells with
    | none => rfl
    | some N =>
      simp only
      have := ih (Maze.mk nr nc st0 gl
        (updateCell (updateCell cells N Cell.SetVisited) N (fun c => c.SetParent (some F)))
        (Q ++ [N]))
      simp only [withDims] at this
      exact this

theorem expand_withDims (k r c : Nat) (st : Option Nat) (sol : List Nat) :
    ∀ (fuel : Nat) (m : Maze),
      expand k fuel (withDims m r c st) sol =
        (expand k fuel m sol).map (fun x => (withDims x.1 r c st, x.2)) := by
  intro fuel
  induction fuel with
  | zero =>
    intro m
    obtain ⟨nr, nc, st0, gl, cells, Q⟩ := m
    unfold expand
    simp only [withDims]
    cases Q with
    | nil => rfl
    | cons F rest =>
      simp only
      by_cases hg : gl = some F
      · simp only [hg, if_true]
        cases backtrack cells k (some F) sol <;> rfl
      · simp only [hg, if_false]; rfl
  | succ fuel ih =>
    intro m
    obtain ⟨nr, nc, st0, gl, cells, Q⟩ := m
    unfold expand
    simp only [withDims]
    cases Q with
    | nil => rfl
    | cons F rest =>
      simp only
      by_cases hg : gl = some F
      · simp only [hg, if_true]
        cases backtrack cells k (some F) sol <;> rfl
      · simp only [hg, if_false]
        have hd := drain_withDims F r c st k (Maze.mk nr nc st0 gl cells (F :: rest))
        simp only [withDims] at hd
        rw [hd]
        cases drain F k (Maze.mk nr nc st0 gl cells (F :: rest)) with
        | none => rfl
        | some m2 =>
          simp only [Option.map_some']
          have := ih { m2 with conQueue_ := m2.conQueue_.tail }
          simp only [withDims] at this
          exact this

theorem cells_ext {a b : List Cell} (hlen : a.length = b.length)
    (h : ∀ p, cellAt a p = cellAt b p) : a = b := by
  apply List.ext_getElem hlen
  intro p h1 h2
  have := h p
  simpa [cellAt, List.getElem?_eq_getElem h1, List.getElem?_eq_getElem h2] using this

theorem initial_cells_eq {G cells : List Cell} (h : SameGraph G cells) (s : Nat) :
    updateCell (resetLoop cells.length 0 cells) s Cell.SetVisited =
      updateCell (resetLoop G.length 0 G) s Cell.SetVisited := by
  have hreset : ∀ p, ((cellAt cells p).UnSetVisited).SetParent none
      = ((cellAt G p).UnSetVisited).SetParent none := by
    intro p
    simp only [Cell.UnSetVisited, Cell.SetParent, h.nbrs p, h.ids p]
  apply cells_ext
  · simp only [updateCell_length, resetLoop_length, h.length]
  · intro p
    simp only [cellAt_updateCell, resetLoop_length, cellAt_resetLoop, hreset]
    rw [h.length]

theorem Solve_some {m : Maze} {s : Nat} (hs : m.start_ = some s) (fuel : Nat) (sol : List Nat) :
    Solve fuel m sol =
      (expand fuel fuel
        { numrows_ := m.numrows_, numcols_ := m.numcols_, start_ := some s, goal_ := m.goal_,
          cellVector_ := updateCell (resetLoop (umul m.numrows_ m.numcols_) 0 m.cellVector_) s
            Cell.SetVisited,
          conQueue_ := [s] } []).map (fun x => (x.1, x.2, [])) := by
  simp only [Solve, hs, listClear]
  split <;> simp_all

theorem Solve_sameGraph {m m1 : Maze} (hwf : WellFormed m) (hwf1 : WellFormed m1)
    (hg : SameGraph m.cellVector_ m1.cellVector_) (hs : m1.start_ = m.start_)
    (hgoal : m1.goal_ = m.goal_) (fuel : Nat) (sol sol1 : List Nat) :
    (Solve fuel m1 sol1).map (fun r => r.2) = (Solve fuel m sol).map (fun r => r.2) := by
  cases hst : m.start_ with
  | none =>
    rw [hst] at hs
    simp only [Solve, hs, hst, listClear, Option.map_some']
  | some s =>
    rw [hst] at hs
    rw [Solve_some hs, Solve_some hst, ← hwf.size, ← hwf1.size, initial_cells_eq hg s, hgoal]
    have h := expand_withDims fuel m1.numrows_ m1.numcols_ (some s) [] fuel
      { numrows_ := m.numrows_, numcols_ := m.numcols_, start_ := some s, goal_ := m.goal_,
        cellVector_ := updateCell (resetLoop m.cellVector_.length 0 m.cellVector_) s
          Cell.SetVisited,
        conQueue_ := [s] }
    simp only [withDims] at h
    rw [h]
    cases expand fuel fuel
      { numrows_ := m.numrows_, numcols_ := m.numcols_, start_ := some s, goal_ := m.goal_,
        cellVector_ := updateCell (resetLoop m.cellVector_.length 0 m.cellVector_) s
          Cell.SetVisited,
        conQueue_ := [s] } [] <;> rfl

theorem WellFormed.of_sameGraph {m m1 : Maze} (hwf : WellFormed m)
    (hg : SameGraph m.cellVector_ m1.cellVector_) (hs : m1.start_ = m.start_)
    (hgoal : m1.goal_ = m.goal_) (hr : m1.numrows_ = m.numrows_)
    (hc : m1.numcols_ = m.numcols_) : WellFormed m1 := by
  refine ⟨?_, ?_, ?_, ?_⟩
  · rw [hg.length, hr, hc]; exact hwf.size
  · intro p q hq
    rw [hg.length]
    rw [hg.nbrs p] at hq
    exact hwf.links p q hq
  · intro s h; rw [hg.length]; exact hwf.start s (hs ▸ h)
  · intro g h; rw [hg.length]; exact hwf.goal g (hgoal ▸ h)

theorem drainLog_erase (F : Nat) :
    ∀ (fuel : Nat) (m : Maze) (t : Trace),
      (drainLog F fuel m t).map Prod.fst = drain F fuel m := by
  intro fuel
  induction fuel with
  | zero =>
    intro m t
    unfold drainLog drain
    cases (cellAt m.cellVector_ F).GetNextNeighbor m.cellVector_ <;> rfl
  | succ fuel ih =>
    intro m t
    unfold drainLog drain
    cases (cellAt m.cellVector_ F).GetNextNeighbor m.cellVector_ with
    | none => rfl
    | some N => exact ih _ _

theorem expandLog_erase (k : Nat) (sol : List Nat) :
    ∀ (fuel : Nat) (m : Maze) (t : Trace),
      (expandLog k fuel m sol t).map (fun x => (x.1, x.2.1)) = expand k fuel m sol := by
  intro fuel
  induction fuel with
  | zero =>
    intro m t
    unfold expandLog expand
    cases m.conQueue_ with
    | nil => rfl
    | cons F rest =>
      simp only
      by_cases hg : m.goal_ = some F
      · simp only [hg, if_true]
        cases backtrack m.cellVector_ k (some F) sol <;> rfl
      · simp only [hg, if_false]; rfl
  | succ fuel ih =>
    intro m t
    unfold expandLog expand
    cases m.conQueue_ with
    | nil => rfl
    | cons F rest =>
      simp only
      by_cases hg : m.goal_ = some F
      · simp only [hg, if_true]
        cases backtrack m.cellVector_ k (some F) sol <;> rfl
      · simp only [hg, if_false]
        have hd := drainLog_erase F k m { t with fronts := t.fronts ++ [F] }
        cases h1 : drainLog F k m { t with fronts := t.fronts ++ [F] } with
        | none =>
          rw [h1] at hd
          simp only [Option.map_none'] at hd
          rw [← hd]; rfl
        | some x =>
          obtain ⟨m2, t2⟩ := x
          rw [h1] at hd
          simp only [Option.map_some'] at hd
          rw [← hd]
          exact ih _ _

theorem SolveLog_erase (fuel : Nat) (m : Maze) (sol : List Nat) :
    (SolveLog fuel m sol).map (fun x => (x.1, x.2.1, x.2.2.1)) = Solve fuel m sol := by
  unfold SolveLog Solve
  cases hs : m.start_ with
  | none => rfl
  | some s =>
    simp only
    have he := expandLog_erase fuel (listClear sol) fuel
      (Maze.mk m.numrows_ m.numcols_ (some s) m.goal_
        (updateCell (resetLoop (umul m.numrows_ m.numcols_) 0 m.cellVector_) s Cell.SetVisited)
        [s])
      (Trace.mk [(s, (cellAt (resetLoop (umul m.numrows_ m.numcols_) 0 m.cellVector_) s).IsVisited)]
        [])
    rw [← he]
    cases expandLog fuel fuel
      (Maze.mk m.numrows_ m.numcols_ (some s) m.goal_
        (updateCell (resetLoop (umul m.numrows_ m.numcols_) 0 m.cellVector_) s Cell.SetVisited)
        [s])
      (listClear sol)
      (Trace.mk [(s, (cellAt (resetLoop (umul m.numrows_ m.numcols_) 0 m.cellVector_) s).IsVisited)]
        []) <;> rfl

theorem drainLog_pushes (F : Nat) :
    ∀ (fuel : Nat) (m m1 : Maze) (t t1 : Trace), drainLog F fuel m t = some (m1, t1) →
      t1.fronts = t.fronts ∧
      ∃ ps : List (Nat × Bool), t1.pushes = t.pushes ++ ps ∧
        m1.conQueue_ = m.conQueue_ ++ ps.map Prod.fst ∧ ∀ e, e ∈ ps → e.2 = false := by
  intro fuel
  induction fuel with
  | zero =>
    intro m m1 t t1 h
    unfold drainLog at h
    cases hnext : (cellAt m.cellVector_ F).GetNextNeighbor m.cellVector_ with
    | none =>
      simp only [hnext, Option.some.injEq, Prod.mk.injEq] at h
      obtain ⟨rfl, rfl⟩ := h
      exact ⟨rfl, [], by simp, by simp, fun e he => by cases he⟩
    | some N => simp only [hnext] at h; cases h
  | succ fuel ih =>
    intro m m1 t t1 h
    unfold drainLog at h
    cases hnext : (cellAt m.cellVector_ F).GetNextNeighbor m.cellVector_ with
    | none =>
      simp only [hnext, Option.some.injEq, Prod.mk.injEq] at h
      obtain ⟨rfl, rfl⟩ := h
      exact ⟨rfl, [], by simp, by simp, fun e he => by cases he⟩
    | some N =>
      simp only [hnext] at h
      have hv : (cellAt m.cellVector_ N).IsVisited = false := by
        have := List.find?_some hnext
        simpa using this
      obtain ⟨h1, ps, h2, h3, h4⟩ := ih _ _ _ _ h
      refine ⟨h1, (N, false) :: ps, ?_, ?_, ?_⟩
      · rw [h2, hv]; simp
      · rw [h3]; simp
      · intro e he
        rcases List.mem_cons.1 he with rfl | he
        · rfl
        · exact h4 e he

theorem expandLog_terminal {G : List Cell} {s : Nat} {goal : Option Nat} (k : Nat)
    (sol : List Nat) (hk : G.length ≤ k) (fuel : Nat) (m : Maze) (done : List Nat)
    (lev : Nat → Nat) (t : Trace)
    (h : Inv G s goal m.cellVector_ m.conQueue_ done lev)
    (ht1 : t.pushes.map Prod.fst = done ++ m.conQueue_) (ht2 : t.fronts = done)
    (ht3 : ∀ e, e ∈ t.pushes → e.2 = false)
    (hterm : m.conQueue_ = [] ∨ ∃ F rest, m.conQueue_ = F :: rest ∧ m.goal_ = some F) :
    ∃ m1 path t1 done1 lev1, expandLog k fuel m sol t = some (m1, path, t1) ∧
      Inv G s goal m1.cellVector_ m1.conQueue_ done1 lev1 ∧
      t1.pushes.map Prod.fst = done1 ++ m1.conQueue_ ∧
      (∀ e, e ∈ t1.pushes → e.2 = false) ∧
      t1.fronts <+: t1.pushes.map Prod.fst := by
  rcases hterm with hq | ⟨F, rest, hq, hgF⟩
  · refine ⟨m, sol, t, done, lev, ?_, h, ht1, ht3, ?_⟩
    · unfold expandLog; simp only [hq]
    · rw [ht1, ht2]; exact List.prefix_append _ _
  · have hFall : F ∈ done ++ m.conQueue_ := by rw [hq]; simp
    have hlt : lev F < k := by
      have := h.levlt F hFall; have := h.length_le; omega
    obtain ⟨chain, c1, -⟩ := backtrack_spec h k F sol hFall hlt
    refine ⟨m, chain.map (fun c => (cellAt G c).GetID) ++ sol,
      { t with fronts := t.fronts ++ [F] }, done, lev, ?_, h, ht1, ht3, ?_⟩
    · unfold expandLog; simp only [hq, hgF, if_true, c1]
    · simp only [ht1, ht2, hq]
      exact ⟨rest, by simp⟩

theorem expandLog_spec {G : List Cell} {s : Nat} {goal : Option Nat} (k : Nat)
    (sol : List Nat) (hk : G.length ≤ k) :
    ∀ (fuel : Nat) (m : Maze) (done : List Nat) (lev : Nat → Nat) (t : Trace),
      Inv G s goal m.cellVector_ m.conQueue_ done lev → m.goal_ = goal →
      G.length ≤ done.length + fuel →
      t.pushes.map Prod.fst = done ++ m.conQueue_ → t.fronts = done →
      (∀ e, e ∈ t.pushes → e.2 = false) →
      ∃ m1 path t1 done1 lev1, expandLog k fuel m sol t = some (m1, path, t1) ∧
        Inv G s goal m1.cellVector_ m1.conQueue_ done1 lev1 ∧
        t1.pushes.map Prod.fst = done1 ++ m1.conQueue_ ∧
        (∀ e, e ∈ t1.pushes → e.2 = false) ∧
        t1.fronts <+: t1.pushes.map Prod.fst := by
  intro fuel
  induction fuel with
  | zero =>
    intro m done lev t h hgoal hlen ht1 ht2 ht3
    cases hq : m.conQueue_ with
    | nil => exact expandLog_terminal k sol hk 0 m done lev t h ht1 ht2 ht3 (Or.inl hq)
    | cons F rest =>
      by_cases hgF : m.goal_ = some F
      · exact expandLog_terminal k sol hk 0 m done lev t h ht1 ht2 ht3
          (Or.inr ⟨F, rest, hq, hgF⟩)
      · exfalso
        have := h.length_le
        rw [hq] at this
        simp only [List.length_append, List.length_cons] at this
        omega
  | succ fuel ih =>
    intro m done lev t h hgoal hlen ht1 ht2 ht3
    cases hq : m.conQueue_ with
    | nil => exact expandLog_terminal k sol hk _ m done lev t h ht1 ht2 ht3 (Or.inl hq)
    | cons F rest =>
      by_cases hgF : m.goal_ = some F
      · exact expandLog_terminal k sol hk _ m done lev t h ht1 ht2 ht3
          (Or.inr ⟨F, rest, hq, hgF⟩)
      · have hF : m.conQueue_.head? = some F := by rw [hq]; rfl
        obtain ⟨m1, lev1, d1, d2, d3, d4, d5, d6, d7, d8⟩ :=
          drain_spec F k m done lev h hF (by have := h.length_le; omega)
        have her := drainLog_erase F k m { t with fronts := t.fronts ++ [F] }
        rw [d1] at her
        cases hdl : drainLog F k m { t with fronts := t.fronts ++ [F] } with
        | none => rw [hdl] at her; cases her
        | some x =>
          obtain ⟨m1', t2⟩ := x
          rw [hdl] at her
          simp only [Option.map_some', Option.some.injEq] at her
          subst her
          obtain ⟨p1, ps, p2, p3, p4⟩ := drainLog_pushes F k m m1' _ t2 hdl
          obtain ⟨rest1, hq1⟩ : ∃ rest1, m1'.conQueue_ = F :: rest1 := by
            cases hq1 : m1'.conQueue_ with
            | nil => rw [hq1] at d3; cases d3
            | cons x r =>
              rw [hq1] at d3
              simp only [List.head?_cons, Option.some.injEq] at d3
              subst d3; exact ⟨r, rfl⟩
          have d2' := d2
          rw [hq1] at d2'
          have hpop := d2'.pop d4 (by rw [← hgoal]; exact hgF)
          have hpush : t2.pushes.map Prod.fst = (done ++ [F]) ++ rest1 := by
            rw [p2, List.map_append, ht1, List.append_assoc, ← p3, hq1]
            simp
          obtain ⟨m2, path, t3, done2, lev2, e1, e2, e3, e4, e5⟩ :=
            ih { m1' with conQueue_ := m1'.conQueue_.tail } (done ++ [F]) lev1 t2
              (by simpa [hq1] using hpop) (by simp only; rw [d6]; exact hgoal)
              (by simp only [List.length_append, List.length_singleton]; omega)
              (by simpa [hq1] using hpush) (by rw [p1]; simp only [ht2])
              (by
                intro e he
                rw [p2] at he
                rcases List.mem_append.1 he with he | he
                · exact ht3 e he
                · exact p4 e he)
          refine ⟨m2, path, t3, done2, lev2, ?_, e2, e3, e4, e5⟩
          unfold expandLog
          simp only [hq, hgF, if_false, hdl]
          exact e1

theorem SolveLog_spec (m : Maze) (hwf : WellFormed m) {s : Nat} (hs : m.start_ = some s)
    (fuel : Nat) (hfuel : m.cellVector_.length ≤ fuel) (sol : List Nat) :
    ∃ m1 path t done lev, SolveLog fuel m sol = some (m1, path, [], t) ∧
      Inv m.cellVector_ s m.goal_ m1.cellVector_ m1.conQueue_ done lev ∧
      t.pushes.map Prod.fst = done ++ m1.conQueue_ ∧
      (∀ e, e ∈ t.pushes → e.2 = false) ∧
      t.fronts <+: t.pushes.map Prod.fst := by
  have hwas : (cellAt (resetLoop (umul m.numrows_ m.numcols_) 0 m.cellVector_) s).IsVisited
      = false := by
    rw [← hwf.size, cellAt_resetLoop]; rfl
  obtain ⟨m1, path, t, done, lev, e1, e2, e3, e4, e5⟩ :=
    @expandLog_spec m.cellVector_ s m.goal_ fuel [] hfuel fuel
      (Maze.mk m.numrows_ m.numcols_ (some s) m.goal_
        (updateCell (resetLoop (umul m.numrows_ m.numcols_) 0 m.cellVector_) s Cell.SetVisited)
        [s])
      [] (fun _ => 0) (Trace.mk [(s, false)] [])
      (Inv.init hwf hs) rfl (by simpa using hfuel) rfl rfl
      (by intro e he; simp only [List.mem_singleton] at he; subst he; rfl)
  refine ⟨m1, path, t, done, lev, ?_, e2, e3, e4, e5⟩
  simp only [SolveLog, hs, listClear, hwas]
  rw [e1]

theorem Inv.exhausted_le {G : List Cell} {s : Nat} {goal : Option Nat} {cells : List Cell}
    {done : List Nat} {lev : Nat → Nat} (h : Inv G s goal cells [] done lev) {n w : Nat}
    (hw : StepsTo G s n w) : w ∈ done ∧ lev w ≤ n := by
  induction hw with
  | here => exact ⟨by simpa using h.start.1, by rw [h.start.2.1]⟩
  | next hb hc ih =>
    obtain ⟨h1, h2⟩ := h.closed _ ih.1 _ hc
    exact ⟨by simpa using h1, by omega⟩

theorem Inv.dist_le {G : List Cell} {s : Nat} {goal : Option Nat} {cells : List Cell}
    {Q done : List Nat} {lev : Nat → Nat} (h : Inv G s goal cells Q done lev) {p : Nat}
    (hp : p ∈ done ++ Q) {n : Nat} (hn : StepsTo G s n p) : lev p ≤ n := by
  cases Q with
  | nil => exact (h.exhausted_le hn).2
  | cons F rest =>
    by_cases hle : n ≤ lev F
    · exact (h.lev_le (F := F) rfl hn hle).2
    · have := h.near F rfl p hp
      omega

theorem before_of_lt {lev : Nat → Nat} :
    ∀ (l : List Nat), l.Pairwise (fun a b => lev a ≤ lev b) → ∀ pp p, pp ∈ l → p ∈ l →
      lev pp < lev p → ∃ pre post, l = pre ++ pp :: post ∧ p ∈ post := by
  intro l hs pp p hpp hp hlt
  obtain ⟨pre, post, rfl⟩ := List.append_of_mem hpp
  refine ⟨pre, post, rfl, ?_⟩
  rw [List.pairwise_append] at hs
  rcases List.mem_append.1 hp with h1 | h1
  · have := hs.2.2 p h1 pp (List.mem_cons_self _ _)
    omega
  · rcases List.mem_cons.1 h1 with rfl | h2
    · omega
    · exact h2

theorem Inv.parent_chain {G : List Cell} {s : Nat} {goal : Option Nat} {cells : List Cell}
    {Q done : List Nat} {lev : Nat → Nat} (h : Inv G s goal cells Q done lev) :
    ∀ (n p : Nat), p ∈ done ++ Q → lev p = n →
      ∃ chain : List Nat, chain.head? = some s ∧ chain.getLast? = some p ∧
        List.Chain' (fun a b => (cellAt cells b).GetParent = some a) chain ∧
        chain.Nodup ∧ ∀ c, c ∈ chain → lev c ≤ n := by
  intro n
  induction n with
  | zero =>
    intro p hp hl
    have hps : p = s := by
      by_contra hne
      obtain ⟨pp, -, -, -, h4⟩ := h.parent p hp hne
      omega
    subst hps
    exact ⟨[p], rfl, rfl, List.chain'_singleton _, List.nodup_singleton _,
      fun c hc => by rw [List.mem_singleton] at hc; subst hc; omega⟩
  | succ n ih =>
    intro p hp hl
    have hps : p ≠ s := by
      rintro rfl
      rw [h.start.2.1] at hl; cases hl
    obtain ⟨pp, h1, h2, -, h4⟩ := h.parent p hp hps
    obtain ⟨chain, c1, c2, c3, c4, c5⟩ := ih pp h2 (by omega)
    refine ⟨chain ++ [p], ?_, by simp, ?_, ?_, ?_⟩
    · cases chain with
      | nil => cases c1
      | cons x xs => simpa using c1
    · refine List.Chain'.append c3 (List.chain'_singleton _) ?_
      intro x hx y hy
      rw [c2] at hx
      simp only [Option.mem_def, Option.some.injEq, List.head?_cons] at hx hy
      subst hx; subst hy
      exact h1
    · refine List.nodup_append.2 ⟨c4, List.nodup_singleton _, ?_⟩
      intro x hx hx'
      rw [List.mem_singleton] at hx'
      subst hx'
      have := c5 x hx
      omega
    · intro c hc
      rcases List.mem_append.1 hc with hc | hc
      · have := c5 c hc; omega
      · rw [List.mem_singleton] at hc; subst hc; omega

theorem SolveLog_none {m : Maze} (hs : m.start_ = none) (fuel : Nat) (sol : List Nat) :
    SolveLog fuel m sol =
      some ({ m with conQueue_ := [] }, [], [Diag.invalidStart], { pushes := [], fronts := [] }) := by
  simp only [SolveLog, hs, listClear]

theorem Solve_of_SolveLog {fuel : Nat} {m m1 : Maze} {sol path : List Nat} {diag : List Diag}
    {t : Trace} (h : SolveLog fuel m sol = some (m1, path, diag, t)) :
    Solve fuel m sol = some (m1, path, diag) := by
  rw [← SolveLog_erase, h]; rfl

theorem tangled_wellFormed : WellFormed tangled := by
  refine ⟨by decide, ?_, ?_, ?_⟩
  · intro p q h
    match p with
    | 0 =>
      simp [tangled, cellAt] at h
      rcases h with rfl | rfl | rfl <;> decide
    | 1 => simp [tangled, cellAt] at h; rcases h with rfl | rfl <;> decide
    | 2 => simp [tangled, cellAt] at h
    | p + 3 => simp [tangled, cellAt, Cell.new] at h
  · intro x hx; simp [tangled] at hx; subst hx; decide
  · intro x hx; simp [tangled] at hx; subst hx; decide

theorem tangled_trace :
    SolveLog 3 tangled [] =
      some (tangledSolved, [0, 2], [],
        { pushes := [(0, false), (1, false), (2, false)], fronts := [0, 1, 2] }) := rfl

theorem scenarioMaze_trace :
    SolveLog 4 scenarioMaze [] =
      some (scenarioSolved, [0, 1, 3], [],
        { pushes := [(0, false), (1, false), (2, false), (3, false)],
          fronts := [0, 1, 2, 3] }) := rfl

theorem pred_div_mod {a cols : Nat} (h : 0 < a % cols) :
    (a - 1) / cols = a / cols ∧ (a - 1) % cols = a % cols - 1 := by
  rcases Nat.eq_zero_or_pos cols with h0 | hpos
  · subst h0; simp
  · have hlt : a % cols < cols := Nat.mod_lt _ hpos
    have h1 : a - 1 = cols * (a / cols) + (a % cols - 1) := by
      have := Nat.div_add_mod a cols; omega
    have hlt' : a % cols - 1 < cols := by omega
    constructor
    · have h2 : (cols * (a / cols) + (a % cols - 1)) / cols = a / cols := by
        rw [Nat.mul_add_div hpos, Nat.div_eq_of_lt hlt', Nat.add_zero]
      rw [← h1] at h2
      exact h2
    · have h2 : (cols * (a / cols) + (a % cols - 1)) % cols = a % cols - 1 := by
        rw [Nat.mul_add_mod, Nat.mod_eq_of_lt hlt']
      rw [← h1] at h2
      exact h2

theorem decode_length_le (plus : Nat → Nat → Nat) (rows cols n w : Nat) :
    (decode plus rows cols n w).length ≤ 4 := by
  unfold decode
  simp only [List.length_append]
  have h : ∀ (p : Prop) [Decidable p] (x : Nat), (if p then [x] else []).length ≤ 1 := by
    intro p _ x; split <;> simp
  have h0 := h (0 < n / cols ∧ w.testBit 0 = false) (n - cols)
  have h1 := h (n % cols + 1 < cols ∧ w.testBit 1 = false) (n + 1)
  have h2 := h (n / cols + 1 < rows ∧ w.testBit 2 = false) (plus n cols)
  have h3 := h (0 < n % cols ∧ w.testBit 3 = false) (n - 1)
  omega

theorem decode_nodup (rows cols n w : Nat) (hpos : 0 < cols) :
    (decode (· + ·) rows cols n w).Nodup := by
  have f1 : 0 < n / cols → cols ≤ n := by
    intro h
    by_contra hcon
    rw [Nat.div_eq_of_lt (Nat.lt_of_not_le hcon)] at h
    exact absurd h (Nat.lt_irrefl 0)
  have f2 : n % cols < cols := Nat.mod_lt _ hpos
  have f3 : n % cols ≤ n := Nat.mod_le _ _
  unfold decode
  generalize n / cols = r at *
  generalize n % cols = c at *
  by_cases c0 : 0 < r ∧ w.testBit 0 = false <;>
  by_cases c1 : c + 1 < cols ∧ w.testBit 1 = false <;>
  by_cases c2 : r + 1 < rows ∧ w.testBit 2 = false <;>
  by_cases c3 : 0 < c ∧ w.testBit 3 = false <;>
  simp only [c0, c1, c2, c3, if_true, if_false, List.nil_append, List.append_nil,
    List.singleton_append, List.cons_append, List.nodup_cons, List.mem_cons,
    List.mem_singleton, List.not_mem_nil, List.nodup_nil, not_or, not_false_eq_true,
    and_true, and_self] <;>
  (try have g0 := f1 c0.1) <;> (try have g1 := c1.1) <;> (try have g3 := c3.1) <;>
  omega

theorem not_mem_decode_self {rows cols n w : Nat} (hn : n < 4294967296) (hpos : 0 < cols)
    (hc : cols < 4294967296) : n ∉ decode uadd rows cols n w := by
  intro h
  rcases mem_decode h with ⟨h1, h2⟩ | ⟨h1, -⟩ | ⟨h1, -⟩ | ⟨h1, h2⟩
  · have : cols ≤ n := by
      by_contra hcon
      rw [Nat.div_eq_of_lt (Nat.lt_of_not_le hcon)] at h2
      exact absurd h2 (Nat.lt_irrefl 0)
    omega
  · omega
  · unfold uadd at h1
    omega
  · have : 1 ≤ n := by
      rcases Nat.eq_zero_or_pos n with h0 | h0
      · subst h0; simp at h2
      · exact h0
    omega

theorem manhattan_decode {rows cols n w q : Nat} (hpos : 0 < cols)
    (h : q ∈ decode (· + ·) rows cols n w) : manhattan cols n q = 1 := by
  unfold manhattan gap
  rcases mem_decode h with ⟨h1, h2⟩ | ⟨h1, h2⟩ | ⟨h1, -⟩ | ⟨h1, h2⟩
  · have hle : cols ≤ n := by
      by_contra hcon
      rw [Nat.div_eq_of_lt (Nat.lt_of_not_le hcon)] at h2
      exact absurd h2 (Nat.lt_irrefl 0)
    have hq : q + cols = n := by omega
    have hd : n / cols = q / cols + 1 := by rw [← hq, Nat.add_div_right _ hpos]
    have hm : n % cols = q % cols := by rw [← hq, Nat.add_mod_right]
    rw [hd, hm]
    generalize q / cols = a
    generalize q % cols = b
    omega
  · obtain ⟨hd, hm⟩ := succ_div_mod h2
    rw [h1, hd, hm]
    generalize n / cols = a
    generalize n % cols = b
    omega
  · have hq : q = n + cols := h1
    have hd : q / cols = n / cols + 1 := by rw [hq, Nat.add_div_right _ hpos]
    have hm : q % cols = n % cols := by rw [hq, Nat.add_mod_right]
    rw [hd, hm]
    generalize n / cols = a
    generalize n % cols = b
    omega
  · obtain ⟨hd, hm⟩ := pred_div_mod h2
    rw [h1, hd, hm]
    generalize n / cols = a
    generalize hb : n % cols = b at h2
    omega

theorem Initialize_start_iff (file : Option (List (Option Nat))) (m : Maze) :
    (Initialize file m).2.1.start_ ≠ none ↔ 0 < (Initialize file m).2.1.cellVector_.length := by
  cases file with
  | none => simp [Initialize, Clear, vectorClear]
  | some ifs =>
    rcases Initialize_cases ifs m with ⟨r, c, s, g, log, hl, he⟩ | ⟨-, log, he⟩
    · rw [he]
      have hlt : s < umul r c := hl.2.2.2.2.2.1
      have hlen : (loaded ifs r c s g).cellVector_.length = umul r c := loaded_length _ _ _ _ _
      have hst : (loaded ifs r c s g).start_ = some s := rfl
      constructor
      · intro _
        show 0 < (loaded ifs r c s g).cellVector_.length
        rw [hlen]; omega
      · intro _
        show (loaded ifs r c s g).start_ ≠ none
        rw [hst]; simp
    · rw [he]; simp [Maze.new]

theorem Attainable.start_iff {m : Maze} (h : Attainable m) :
    m.start_ ≠ none ↔ 0 < m.cellVector_.length := by
  induction h with
  | new => simp [Maze.new]
  | clear _ _ => simp [Clear, vectorClear]
  | load file _ _ => exact Initialize_start_iff file _
  | solve _ hsolve ih =>
    obtain ⟨f1, f2, -⟩ := Solve_frame hsolve
    rw [f2, f1.length]
    exact ih

theorem SolveResetFirst_eq {m : Maze} (h : m.start_ ≠ none ↔ 0 < m.cellVector_.length)
    (fuel : Nat) (sol : List Nat) : SolveResetFirst fuel m sol = Solve fuel m sol := by
  cases hs : m.start_ with
  | none =>
    have hlen : m.cellVector_.length = 0 := by
      by_contra hne
      exact (h.2 (Nat.pos_of_ne_zero hne)) hs
    have hcells : m.cellVector_ = [] := List.length_eq_zero.1 hlen
    have hreset : resetLoop (umul m.numrows_ m.numcols_) 0 m.cellVector_ = m.cellVector_ := by
      have h0 : resetLoop (umul m.numrows_ m.numcols_) 0 m.cellVector_ = [] :=
        List.length_eq_zero.1 (by rw [resetLoop_length, hlen])
      rw [h0, hcells]
    simp only [SolveResetFirst, Solve, hs, hreset]
  | some s =>
    simp only [SolveResetFirst, Solve, hs]

/-! ## Further lemmas on `Maze::Initialize` -/

theorem wallsAt_allOpenInput (n : Nat) : wallsAt allOpenInput n = 0 := by
  unfold wallsAt tokenAt allOpenInput
  rw [show 2 + n = n + 1 + 1 by omega, List.drop_succ_cons, List.drop_succ_cons,
    List.drop_replicate]
  cases h : 4294967299 - n with
  | zero => rfl
  | succ k => rfl

theorem allOpenInput_agrees (cols count : Nat) : InteriorAgrees allOpenInput cols count := by
  constructor
  · intro n _ _
    rw [wallsAt_allOpenInput, wallsAt_allOpenInput]
    rfl
  · intro n _
    rw [wallsAt_allOpenInput, wallsAt_allOpenInput]
    rfl

theorem Initialize_false_iff (ifs : List (Option Nat)) (m : Maze) :
    ((Initialize (some ifs) m).1 = false ↔ FailureConditions umul ifs) ∧
    (¬ FailureConditions umul ifs →
      ∃ rows cols start goal, tokenAt ifs 0 = some rows ∧ tokenAt ifs 1 = some cols ∧
        tokenAt ifs (2 + umul rows cols) = some start ∧
        tokenAt ifs (3 + umul rows cols) = some goal ∧
        (Initialize (some ifs) m).1 = true ∧
        (Initialize (some ifs) m).2.1.start_ = some start ∧
        (Initialize (some ifs) m).2.1.goal_ = some goal ∧
        start < (Initialize (some ifs) m).2.1.cellVector_.length ∧
        goal < (Initialize (some ifs) m).2.1.cellVector_.length) := by
  rw [failureConditions_iff]
  rcases Initialize_cases ifs m with ⟨rows, cols, s, g, log, hl, he⟩ | ⟨hn, log, he⟩
  · rw [he]
    refine ⟨⟨fun h => (by cases h), fun h => absurd ⟨rows, cols, s, g, hl⟩ h⟩, fun _ => ?_⟩
    refine ⟨rows, cols, s, g, hl.1, hl.2.1, hl.2.2.2.1, hl.2.2.2.2.1, rfl, rfl, rfl, ?_, ?_⟩
    · rw [loaded_length]; exact hl.2.2.2.2.2.1
    · rw [loaded_length]; exact hl.2.2.2.2.2.2
  · rw [he]
    exact ⟨⟨fun _ => hn, fun _ => rfl⟩, fun h => absurd hn h⟩

theorem failureConditions_mul {ifs : List (Option Nat)}
    (hlt : ∀ rows cols, tokenAt ifs 0 = some rows → tokenAt ifs 1 = some cols →
      rows * cols < 4294967296) :
    FailureConditions (· * ·) ifs ↔ FailureConditions umul ifs := by
  unfold FailureConditions
  refine or_congr Iff.rfl (or_congr Iff.rfl (exists_congr fun r => exists_congr fun c => ?_))
  constructor
  · rintro ⟨h0, h1, h⟩
    have hu : umul r c = r * c := Nat.mod_eq_of_lt (hlt r c h0 h1)
    rw [hu]
    exact ⟨h0, h1, h⟩
  · rintro ⟨h0, h1, h⟩
    have hu : umul r c = r * c := Nat.mod_eq_of_lt (hlt r c h0 h1)
    rw [hu] at h
    exact ⟨h0, h1, h⟩

/-! ## Properties of the specification -/

/-- C1: on a well-formed maze whose goal is reachable from its start, `Solve`
returns (for every budget of at least the number of cells) a non-empty path
whose edge count is a number of neighbour-link steps that leads from start to
goal, and no smaller number of steps does; when start and goal coincide the path
is the single id of the start cell. -/
theorem C1_shortest_path (m : Maze) (hwf : WellFormed m) (s g : Nat)
    (hs : m.start_ = some s) (hg : m.goal_ = some g)
    (hreach : Reachable m.cellVector_ s g)
    (fuel : Nat) (hfuel : m.cellVector_.length ≤ fuel) (sol : List Nat) :
    ∃ m1 path, Solve fuel m sol = some (m1, path, []) ∧ path ≠ [] ∧
      StepsTo m.cellVector_ s (path.length - 1) g ∧
      (∀ n, StepsTo m.cellVector_ s n g → path.length - 1 ≤ n) ∧
      (s = g → path = [(cellAt m.cellVector_ s).GetID]) := by
  obtain ⟨m1, path, done, lev, e1, e2, -⟩ := Solve_spec m hwf hs fuel hfuel sol
  obtain ⟨chain, c1, c2, c3, c4, c5, c6⟩ := e2.1 g hg hreach
  have hlen : path.length = chain.length := by rw [c1]; simp
  have hne : chain ≠ [] := by rintro rfl; cases c2
  refine ⟨m1, path, e1, ?_, by rw [hlen]; exact c5, ?_, ?_⟩
  · intro hp
    rw [hp] at hlen
    exact hne (List.length_eq_zero.1 hlen.symm)
  · intro n hn
    have := c6 n hn
    rw [hlen]; omega
  · intro hsg
    subst hsg
    have h1 := c6 0 StepsTo.here
    match chain, c2, h1, c1 with
    | [x], c2, _, c1 =>
      simp only [List.head?_cons, Option.some.injEq] at c2
      subst c2
      simpa using c1
    | x :: y :: ys, _, h1, _ => simp at h1

/-- Witness for C1: the 2 x 2 scenario maze, start 0, goal 3. -/
theorem C1_shortest_path_witness :
    WellFormed scenarioMaze ∧ Reachable scenarioMaze.cellVector_ 0 3 ∧
    ∃ m1 path, Solve 4 scenarioMaze [] = some (m1, path, []) ∧ path ≠ [] ∧
      StepsTo scenarioMaze.cellVector_ 0 (path.length - 1) 3 ∧
      (∀ n, StepsTo scenarioMaze.cellVector_ 0 n 3 → path.length - 1 ≤ n) ∧
      (0 = 3 → path = [(cellAt scenarioMaze.cellVector_ 0).GetID]) :=
  ⟨scenarioMaze_wellFormed, scenarioMaze_reachable,
    C1_shortest_path scenarioMaze scenarioMaze_wellFormed 0 3 rfl rfl scenarioMaze_reachable 4
      (by decide) []⟩

/-- C2: whenever `Solve` returns a non-empty path on a well-formed maze, the path
lists the ids of a sequence of cells that begins with the start cell, ends with
the goal cell and in which every cell lists the next one in its neighbour list;
so the first id is the id of the start cell and the last the id of the goal
cell, and when ids are indices the path is that sequence itself. -/
theorem C2_path_validity (m : Maze) (hwf : WellFormed m) (fuel : Nat) (sol : List Nat)
    (m1 : Maze) (path : List Nat) (log : List Diag)
    (h : Solve fuel m sol = some (m1, path, log)) (hne : path ≠ []) :
    ∃ s g chain, m.start_ = some s ∧ m.goal_ = some g ∧
      path = chain.map (fun c => (cellAt m.cellVector_ c).GetID) ∧
      chain.head? = some s ∧ chain.getLast? = some g ∧ IsTrail m.cellVector_ chain ∧
      path.head? = some (cellAt m.cellVector_ s).GetID ∧
      path.getLast? = some (cellAt m.cellVector_ g).GetID ∧
      (IdsAreIndices m → path = chain) := by
  cases hs : m.start_ with
  | none =>
    simp only [Solve, hs, listClear, Option.some.injEq, Prod.mk.injEq] at h
    exact absurd h.2.1.symm hne
  | some s =>
    have hmono := Solve_mono (Nat.le_max_left fuel m.cellVector_.length) m sol h
    obtain ⟨m2, path2, done, lev, e1, e2, -⟩ :=
      Solve_spec m hwf hs (max fuel m.cellVector_.length) (Nat.le_max_right _ _) sol
    rw [hmono] at e1
    simp only [Option.some.injEq, Prod.mk.injEq] at e1
    obtain ⟨-, rfl, -⟩ := e1
    cases hg : m.goal_ with
    | none =>
      exact absurd (e2.2 (fun g hg1 => by rw [hg] at hg1; cases hg1)) hne
    | some g =>
      by_cases hreach : Reachable m.cellVector_ s g
      · obtain ⟨chain, c1, c2, c3, c4, -, -⟩ := e2.1 g hg hreach
        rw [List.append_nil] at c1
        refine ⟨s, g, chain, rfl, rfl, c1, c2, c3, c4, ?_, ?_, ?_⟩
        · rw [c1, List.head?_map, c2]; rfl
        · rw [c1, List.getLast?_map, c3]; rfl
        · intro hid
          rw [c1]
          have hlt := trail_lt hwf.links chain s c2 (hwf.start s hs) c4
          calc chain.map (fun c => (cellAt m.cellVector_ c).GetID)
              = chain.map id := List.map_congr_left (fun c hc => hid c (hlt c hc))
            _ = chain := List.map_id _
      · refine absurd (e2.2 (fun g1 hg1 => ?_)) hne
        rw [hg] at hg1
        obtain rfl := Option.some.inj hg1
        exact hreach

/-- Witness for C2: the path that `Solve` returns on the 2 x 2 scenario maze. -/
theorem C2_path_validity_witness :
    WellFormed scenarioMaze ∧
    Solve 4 scenarioMaze [] = some (scenarioSolved, [0, 1, 3], []) ∧
    ∃ s g chain, scenarioMaze.start_ = some s ∧ scenarioMaze.goal_ = some g ∧
      [0, 1, 3] = chain.map (fun c => (cellAt scenarioMaze.cellVector_ c).GetID) ∧
      chain.head? = some s ∧ chain.getLast? = some g ∧
      IsTrail scenarioMaze.cellVector_ chain ∧
      [0, 1, 3].head? = some (cellAt scenarioMaze.cellVector_ s).GetID ∧
      [0, 1, 3].getLast? = some (cellAt scenarioMaze.cellVector_ g).GetID ∧
      (IdsAreIndices scenarioMaze → [0, 1, 3] = chain) :=
  ⟨scenarioMaze_wellFormed, scenarioMaze_solve,
    C2_path_validity scenarioMaze scenarioMaze_wellFormed 4 [] scenarioSolved [0, 1, 3] []
      scenarioMaze_solve (by decide)⟩

/-- C3: on a well-formed maze with start and goal set, `Solve` returns (for every
budget of at least the number of cells) the empty path exactly when the goal
cell is not reachable from the start cell by following neighbour links. -/
theorem C3_unreachable_goal (m : Maze) (hwf : WellFormed m) (s g : Nat)
    (hs : m.start_ = some s) (hg : m.goal_ = some g)
    (fuel : Nat) (hfuel : m.cellVector_.length ≤ fuel) (sol : List Nat) :
    ∃ m1 path, Solve fuel m sol = some (m1, path, []) ∧
      (path = [] ↔ ¬ Reachable m.cellVector_ s g) := by
  obtain ⟨m1, path, done, lev, e1, e2, -⟩ := Solve_spec m hwf hs fuel hfuel sol
  refine ⟨m1, path, e1, ?_, ?_⟩
  · intro hp hreach
    obtain ⟨chain, c1, c2, -⟩ := e2.1 g hg hreach
    rw [hp] at c1
    cases chain with
    | nil => cases c2
    | cons x xs => simp at c1
  · intro hnot
    refine e2.2 (fun g1 hg1 => ?_)
    rw [hg] at hg1
    obtain rfl := Option.some.inj hg1
    exact hnot

/-- Witness for C3: in the maze `walledOff` the goal 2 is cut off from the start 0
and `Solve` returns the empty path. -/
theorem C3_unreachable_goal_witness :
    WellFormed walledOff ∧
    Solve 3 walledOff [7] = some (walledOffSolved, [], []) ∧
    ∃ m1 path, Solve 3 walledOff [7] = some (m1, path, []) ∧
      (path = [] ↔ ¬ Reachable walledOff.cellVector_ 0 2) :=
  ⟨walledOff_wellFormed, (Solve_clears 3 walledOff [7]).trans walledOff_solve,
    C3_unreachable_goal walledOff walledOff_wellFormed 0 2 rfl rfl 3 (by decide) [7]⟩

/-- C4 fails on the code: with the tokens 4294967294 4294967295 15 11 0 0 the load
succeeds with two cells (the product of the dimensions wraps to 2), and cell 1
(row 0, code 11, South open) receives the neighbour list `[0]`, while the
decoding rule names the cell one row below, `[4294967296]`, which is not among
the two cells.  When the product of the dimensions is below `2^32`, a loaded
maze has `rows * cols` cells and every cell `n` has id `n` and the neighbour
list of the decoding rule with the candidates `n - cols`, `n + 1`, `n + cols`,
`n - 1`. -/
theorem C4_adjacency_decoding :
    (Initialize (some wrapInput) Maze.new).1 = true ∧
    (Initialize (some wrapInput) Maze.new).2.1.cellVector_.length = 2 ∧
    (cellAt (Initialize (some wrapInput) Maze.new).2.1.cellVector_ 1).neighborList_ = [0] ∧
    decode (· + ·) 4294967294 4294967295 1 11 = [4294967296] ∧
    ¬ DecodedBy (· + ·) wrapInput (Initialize (some wrapInput) Maze.new).2.1 ∧
    (∀ (ifs : List (Option Nat)) (m : Maze) (rows cols : Nat),
      (Initialize (some ifs) m).1 = true →
      tokenAt ifs 0 = some rows → tokenAt ifs 1 = some cols → rows * cols < 4294967296 →
      (Initialize (some ifs) m).2.1.cellVector_.length = rows * cols ∧
      DecodedBy (· + ·) ifs (Initialize (some ifs) m).2.1) := by
  refine ⟨by decide, by decide, by decide, by decide, ?_, ?_⟩
  · rintro ⟨rows, cols, h0, h1, h⟩
    have e0 : tokenAt wrapInput 0 = some 4294967294 := by decide
    have e1 : tokenAt wrapInput 1 = some 4294967295 := by decide
    rw [e0] at h0; rw [e1] at h1
    obtain rfl := Option.some.inj h0
    obtain rfl := Option.some.inj h1
    obtain ⟨w, hw, -, hnb⟩ := h 1 (by decide)
    have e2 : tokenAt wrapInput (2 + 1) = some 11 := by decide
    rw [e2] at hw
    obtain rfl := Option.some.inj hw
    have e3 : (cellAt (Initialize (some wrapInput) Maze.new).2.1.cellVector_ 1).neighborList_
        = [0] := by decide
    have e4 : decode (· + ·) 4294967294 4294967295 1 11 = [4294967296] := by decide
    rw [e3, e4] at hnb
    exact absurd hnb (by decide)
  · intro ifs m rows cols hok h0 h1 hlt
    rcases Initialize_cases ifs m with ⟨r, c, s, g, log, hl, he⟩ | ⟨-, log, he⟩
    · rw [he]
      have e0 := h0.symm.trans hl.1
      have e1 := h1.symm.trans hl.2.1
      obtain rfl := Option.some.inj e0
      obtain rfl := Option.some.inj e1
      have hu : umul rows cols = rows * cols := Nat.mod_eq_of_lt hlt
      refine ⟨by show (loaded ifs rows cols s g).cellVector_.length = rows * cols
                 rw [loaded_length, hu], rows, cols, hl.1, hl.2.1, fun n hn => ?_⟩
      have hn1 : n < umul rows cols := by
        have := hn
        rwa [show (true, loaded ifs rows cols s g, log).2.1 = loaded ifs rows cols s g from rfl,
          loaded_length] at this
      obtain ⟨w, hw, -, hc⟩ := loaded_cell hl hn1
      refine ⟨w, hw, ?_, ?_⟩
      · show (cellAt (loaded ifs rows cols s g).cellVector_ n).GetID = n
        rw [hc]; rfl
      · show (cellAt (loaded ifs rows cols s g).cellVector_ n).neighborList_ = _
        rw [hc]
        exact (decode_plus w hlt (by rw [← hu]; exact hn1)).symm
    · rw [he] at hok; cases hok

/-- Witness for C4: the 2 x 2 scenario, whose product of dimensions is 4, loads with
4 cells and is decoded by the rule. -/
theorem C4_adjacency_decoding_witness :
    (Initialize (some scenario) Maze.new).2.1.cellVector_.length = 2 * 2 ∧
    DecodedBy (· + ·) scenario (Initialize (some scenario) Maze.new).2.1 :=
  C4_adjacency_decoding.2.2.2.2.2 scenario Maze.new 2 2
    (by decide) (by decide) (by decide) (by decide)

/-- C5 fails on the code: with the tokens 641 6700417 15 0 0 (product of the
dimensions `2^32 + 1`) the load succeeds, although the fourth of the first
`rows * cols` wall-code tokens is missing, which is a failure condition.  For
an input whose dimensions have a product below `2^32`, `Initialize` returns
false exactly under the failure conditions, and otherwise returns true with
start and goal referring to the cells at the indices read. -/
theorem C5_load_failure_conditions :
    (Initialize (some overflowInput) Maze.new).1 = true ∧
    FailureConditions (· * ·) overflowInput ∧
    (∀ (ifs : List (Option Nat)) (m : Maze),
      (∀ rows cols, tokenAt ifs 0 = some rows → tokenAt ifs 1 = some cols →
        rows * cols < 4294967296) →
      ((Initialize (some ifs) m).1 = false ↔ FailureConditions (· * ·) ifs) ∧
      (¬ FailureConditions (· * ·) ifs →
        ∃ rows cols start goal, tokenAt ifs 0 = some rows ∧ tokenAt ifs 1 = some cols ∧
          tokenAt ifs (2 + rows * cols) = some start ∧
          tokenAt ifs (3 + rows * cols) = some goal ∧
          (Initialize (some ifs) m).1 = true ∧
          (Initialize (some ifs) m).2.1.start_ = some start ∧
          (Initialize (some ifs) m).2.1.goal_ = some goal ∧
          start < (Initialize (some ifs) m).2.1.cellVector_.length ∧
          goal < (Initialize (some ifs) m).2.1.cellVector_.length)) := by
  refine ⟨by decide, ?_, ?_⟩
  · exact Or.inr (Or.inr ⟨641, 6700417, by decide, by decide,
      Or.inl ⟨3, by decide, Or.inl (by decide)⟩⟩)
  · intro ifs m hlt
    rw [failureConditions_mul hlt]
    refine ⟨(Initialize_false_iff ifs m).1, fun h => ?_⟩
    obtain ⟨rows, cols, s, g, h0, h1, h2, h3, h4⟩ := (Initialize_false_iff ifs m).2 h
    have hu : umul rows cols = rows * cols := Nat.mod_eq_of_lt (hlt rows cols h0 h1)
    rw [hu] at h2 h3
    exact ⟨rows, cols, s, g, h0, h1, h2, h3, h4⟩

/-- Witness for C5: the 2 x 2 scenario meets no failure condition and loads with
start 0 and goal 3. -/
theorem C5_load_failure_conditions_witness :
    ((Initialize (some scenario) Maze.new).1 = false ↔ FailureConditions (· * ·) scenario) ∧
    (Initialize (some scenario) Maze.new).1 = true ∧
    (Initialize (some scenario) Maze.new).2.1.start_ = some 0 ∧
    (Initialize (some scenario) Maze.new).2.1.goal_ = some 3 :=
  ⟨(C5_load_failure_conditions.2.2 scenario Maze.new (fun rows cols h0 h1 => by
      have e0 : tokenAt scenario 0 = some 2 := by decide
      have e1 : tokenAt scenario 1 = some 2 := by decide
      rw [e0] at h0; rw [e1] at h1
      obtain rfl := Option.some.inj h0
      obtain rfl := Option.some.inj h1
      decide)).1, by decide, by decide, by decide⟩

/-- C6: `Clear` leaves the state of a freshly constructed maze, and so does every
failing `Initialize`, whatever the input and the maze it is called on: no rows,
no columns, no cells, start and goal unset. -/
theorem C6_atomic_failure_and_clear :
    (∀ m : Maze, m.Clear = Maze.new) ∧
    (∀ (file : Option (List (Option Nat))) (m : Maze),
      (Initialize file m).1 = false → (Initialize file m).2.1 = Maze.new) ∧
    Maze.new.numrows_ = 0 ∧ Maze.new.numcols_ = 0 ∧ Maze.new.cellVector_ = [] ∧
    Maze.new.start_ = none ∧ Maze.new.goal_ = none := by
  refine ⟨fun _ => rfl, fun file m h => ?_, rfl, rfl, rfl, rfl, rfl⟩
  cases file with
  | none => rfl
  | some ifs =>
    rcases Initialize_cases ifs m with ⟨rows, cols, s, g, log, -, he⟩ | ⟨-, log, he⟩
    · rw [he] at h; cases h
    · rw [he]

/-- Witness for C6: a load that fails at cell 2, on a maze that was loaded before. -/
theorem C6_atomic_failure_and_clear_witness :
    (Initialize (some badCodeInput) (Initialize (some scenario) Maze.new).2.1).1 = false ∧
    (Initialize (some badCodeInput) (Initialize (some scenario) Maze.new).2.1).2.1 = Maze.new :=
  ⟨by decide, C6_atomic_failure_and_clear.2.1 (some badCodeInput)
    (Initialize (some scenario) Maze.new).2.1 (by decide)⟩

/-- C7 fails on the code: the stream with the dimensions 641 and 6700417 (product
`2^32 + 1`), all `2^32 + 1` wall codes 0 and start and goal 0 loads, and its
wall codes agree across every interior boundary of the 641 x 6700417 grid; yet
the load allocates one cell, whose neighbour list `[1, 6700417]` refers to
cells beyond the storage, so `Consistent` reads outside the storage, where the
source has no defined behaviour, instead of returning true.  When the product of
the dimensions is below `2^32`, `Consistent` returns true for every loaded maze
whose wall codes agree across every interior boundary, whatever the
boundary-facing bits are. -/
theorem C7_symmetry_of_loaded :
    (Initialize (some allOpenInput) Maze.new).1 = true ∧
    InteriorAgrees allOpenInput 6700417 (641 * 6700417) ∧
    (Initialize (some allOpenInput) Maze.new).2.1.cellVector_.length = 1 ∧
    (cellAt (Initialize (some allOpenInput) Maze.new).2.1.cellVector_ 0).neighborList_
      = [1, 6700417] ∧
    ¬ WellFormed (Initialize (some allOpenInput) Maze.new).2.1 ∧
    (∀ (ifs : List (Option Nat)) (m : Maze) (rows cols : Nat),
      (Initialize (some ifs) m).1 = true →
      tokenAt ifs 0 = some rows → tokenAt ifs 1 = some cols → rows * cols < 4294967296 →
      InteriorAgrees ifs cols (rows * cols) →
      (Consistent (Initialize (some ifs) m).2.1).1 = true) := by
  refine ⟨by decide, allOpenInput_agrees _ _, by decide, by decide, ?_, ?_⟩
  · intro hwf
    have h1 : (1 : Nat) ∈
        (cellAt (Initialize (some allOpenInput) Maze.new).2.1.cellVector_ 0).neighborList_ := by
      decide
    have h2 := hwf.links 0 1 h1
    have h3 : (Initialize (some allOpenInput) Maze.new).2.1.cellVector_.length = 1 := by decide
    rw [h3] at h2
    exact absurd h2 (by decide)
  intro ifs m rows cols hok h0 h1 hlt hag
  rcases Initialize_cases ifs m with ⟨r, c, s, g, log, hl, he⟩ | ⟨-, log, he⟩
  · rw [he]
    have e0 := h0.symm.trans hl.1
    have e1 := h1.symm.trans hl.2.1
    obtain rfl := Option.some.inj e0
    obtain rfl := Option.some.inj e1
    have hu : umul rows cols = rows * cols := Nat.mod_eq_of_lt hlt
    obtain ⟨hwf, hid⟩ := loaded_wellFormed hl hlt
    show (Consistent (loaded ifs rows cols s g)).1 = true
    rw [Consistent_wf hwf hid]
    simp only [List.all_eq_true, List.mem_range, listsBack, decide_eq_true_eq, loaded_length, hu]
    intro a ha b hb
    exact loaded_symmetric hl hlt hag ha hb
  · rw [he] at hok; cases hok

/-- Witness for C7: the 2 x 2 scenario, whose codes 9, 3, 12, 6 agree across the
four interior boundaries. -/
theorem C7_symmetry_of_loaded_witness :
    InteriorAgrees scenario 2 (2 * 2) ∧
    (Consistent (Initialize (some scenario) Maze.new).2.1).1 = true := by
  have hag : InteriorAgrees scenario 2 (2 * 2) := by
    constructor
    · intro n hn _
      have hn3 : n < 3 := by omega
      interval_cases n <;> decide
    · intro n hn
      have hn2 : n < 2 := by omega
      interval_cases n <;> decide
  exact ⟨hag, C7_symmetry_of_loaded.2.2.2.2.2 scenario Maze.new 2 2 (by decide) (by decide)
    (by decide) (by decide) hag⟩

/-- C8: for a well-formed maze whose cell ids are their indices, `Consistent`
returns true exactly when every entry `b` of every cell `a`'s neighbour list
lists `a` back, and it writes one report per (cell, entry) pair that fails this,
in scan order and naming the two ids; in particular the number of reports is the
number of such pairs. -/
theorem C8_validation_exact (m : Maze) (hwf : WellFormed m) (hid : IdsAreIndices m) :
    ((Consistent m).1 = true ↔
      ∀ a, a < m.cellVector_.length → ∀ b, b ∈ (cellAt m.cellVector_ a).neighborList_ →
        a ∈ (cellAt m.cellVector_ b).neighborList_) ∧
    (Consistent m).2 =
      (asymmetricPairs m.cellVector_ m.cellVector_.length).map
        (fun p => Diag.neighborAsymetry p.1 p.2) ∧
    (Consistent m).2.length = (asymmetricPairs m.cellVector_ m.cellVector_.length).length := by
  rw [Consistent_wf hwf hid]
  refine ⟨?_, rfl, by simp⟩
  simp [listsBack]

/-- Witness for C8: in the maze `lopsided` the one asymmetric pair (0, 1) is
reported once and `Consistent` returns false. -/
theorem C8_validation_exact_witness :
    (WellFormed lopsided ∧ IdsAreIndices lopsided) ∧
    Consistent lopsided = (false, [Diag.neighborAsymetry 0 1]) ∧
    (((Consistent lopsided).1 = true ↔
      ∀ a, a < lopsided.cellVector_.length →
        ∀ b, b ∈ (cellAt lopsided.cellVector_ a).neighborList_ →
          a ∈ (cellAt lopsided.cellVector_ b).neighborList_) ∧
    (Consistent lopsided).2 =
      (asymmetricPairs lopsided.cellVector_ lopsided.cellVector_.length).map
        (fun p => Diag.neighborAsymetry p.1 p.2) ∧
    (Consistent lopsided).2.length =
      (asymmetricPairs lopsided.cellVector_ lopsided.cellVector_.length).length) :=
  ⟨lopsided_wellFormed, by decide,
    C8_validation_exact lopsided lopsided_wellFormed.1 lopsided_wellFormed.2⟩

/-- C10: the 2 x 2 maze with codes 9, 3, 12, 6, start 0 and goal 3 loads, with the
neighbour lists `[1, 2]`, `[3, 0]`, `[0, 3]`, `[1, 2]`; `Consistent` returns
true without a report; both `[0, 1, 3]` and `[0, 2, 3]` are trails from start to
goal, and `Solve` returns `[0, 1, 3]` for every budget of at least 4 and every
previous content of `solution`. -/
theorem C10_concrete_scenario :
    Initialize (some scenario) Maze.new = (true, scenarioMaze, []) ∧
    scenarioMaze.cellVector_.map Cell.neighborList_ = [[1, 2], [3, 0], [0, 3], [1, 2]] ∧
    Consistent scenarioMaze = (true, []) ∧
    IsTrail scenarioMaze.cellVector_ [0, 1, 3] ∧ IsTrail scenarioMaze.cellVector_ [0, 2, 3] ∧
    ∀ (fuel : Nat) (sol : List Nat), 4 ≤ fuel →
      ∃ m1, Solve fuel scenarioMaze sol = some (m1, [0, 1, 3], []) := by
  refine ⟨by decide, by decide, by decide, by simp [IsTrail, scenarioMaze, cellAt],
    by simp [IsTrail, scenarioMaze, cellAt], fun fuel sol hfuel => ?_⟩
  have h4 : Solve 4 scenarioMaze sol = some (scenarioSolved, [0, 1, 3], []) := by
    rw [Solve_clears]; exact scenarioMaze_solve
  exact ⟨scenarioSolved, Solve_mono hfuel scenarioMaze sol h4⟩

/-- Witness for C10: the budget 7 and a non-empty previous `solution`. -/
theorem C10_concrete_scenario_witness :
    ∃ m1, Solve 7 scenarioMaze [5, 5] = some (m1, [0, 1, 3], []) :=
  C10_concrete_scenario.2.2.2.2.2 7 [5, 5] (by decide)

/-- C11: on well-formed mazes the path and the diagnostics of `Solve` depend only
on the neighbour lists, the ids, start and goal: two mazes that agree on these
give the same result for every budget, whatever their visited flags, parent
links, queues and output lists hold.  So a second `Solve` on the state left by a
first one, with any output list, returns the same path. -/
theorem C11_repeatable_solve :
    (∀ (m m1 : Maze) (fuel : Nat) (sol sol1 : List Nat), WellFormed m → WellFormed m1 →
      m1.cellVector_.length = m.cellVector_.length →
      (∀ p, (cellAt m1.cellVector_ p).neighborList_ = (cellAt m.cellVector_ p).neighborList_ ∧
        (cellAt m1.cellVector_ p).GetID = (cellAt m.cellVector_ p).GetID) →
      m1.start_ = m.start_ → m1.goal_ = m.goal_ →
      (Solve fuel m1 sol1).map (fun r => r.2) = (Solve fuel m sol).map (fun r => r.2)) ∧
    (∀ (m m1 : Maze) (fuel : Nat) (sol sol1 path : List Nat) (log : List Diag),
      WellFormed m → Solve fuel m sol = some (m1, path, log) →
      ∃ m2, Solve fuel m1 sol1 = some (m2, path, log)) := by
  constructor
  · intro m m1 fuel sol sol1 hwf hwf1 hlen hcells hs hgoal
    exact Solve_sameGraph hwf hwf1
      ⟨hlen, fun p => (hcells p).1, fun p => (hcells p).2⟩ hs hgoal fuel sol sol1
  · intro m m1 fuel sol sol1 path log hwf h
    obtain ⟨f1, f2, f3, f4, f5⟩ := Solve_frame h
    have hwf1 := hwf.of_sameGraph f1 f2 f3 f4 f5
    have := Solve_sameGraph hwf hwf1 f1 f2 f3 fuel sol sol1
    rw [h] at this
    cases h1 : Solve fuel m1 sol1 with
    | none => rw [h1] at this; cases this
    | some r =>
      rw [h1] at this
      simp only [Option.map_some', Option.some.injEq] at this
      obtain ⟨m2, r2⟩ := r
      simp only at this
      subst this
      exact ⟨m2, rfl⟩

/-- Witness for C11: the second solve of the 2 x 2 scenario maze starts from the
state the first one left, with cell 3 still queued and every cell visited, and
returns `[0, 1, 3]` again. -/
theorem C11_repeatable_solve_witness :
    Solve 4 scenarioMaze [] = some (scenarioSolved, [0, 1, 3], []) ∧
    scenarioSolved.conQueue_ = [3] ∧
    ∃ m2, Solve 4 scenarioSolved [0, 1, 3] = some (m2, [0, 1, 3], []) :=
  ⟨scenarioMaze_solve, rfl,
    C11_repeatable_solve.2 scenarioMaze scenarioSolved 4 [] [0, 1, 3] [0, 1, 3] []
      scenarioMaze_wellFormed scenarioMaze_solve⟩

/-- C12: with start unset `Solve` returns the empty path whatever the output list
held, and writes the invalid-start diagnostic; this holds for a freshly
constructed and for a cleared maze; whenever `Solve` returns, the diagnostic is
written exactly when start is unset; a solve with a valid start and an
unreachable goal returns the empty path and writes nothing. -/
theorem C12_invalid_start :
    (∀ (fuel : Nat) (m : Maze) (sol : List Nat), m.start_ = none →
      Solve fuel m sol = some ({ m with conQueue_ := [] }, [], [Diag.invalidStart])) ∧
    (∀ (fuel : Nat) (m : Maze) (sol : List Nat),
      Solve fuel Maze.new sol = some (Maze.new, [], [Diag.invalidStart]) ∧
      Solve fuel m.Clear sol = some (Maze.new, [], [Diag.invalidStart])) ∧
    (∀ (fuel : Nat) (m : Maze) (sol : List Nat) (r : Maze × List Nat × List Diag),
      Solve fuel m sol = some r → (Diag.invalidStart ∈ r.2.2 ↔ m.start_ = none)) ∧
    (∀ (fuel : Nat) (m : Maze) (sol : List Nat) (s g : Nat), WellFormed m →
      m.start_ = some s → m.goal_ = some g → ¬ Reachable m.cellVector_ s g →
      m.cellVector_.length ≤ fuel → ∃ m1, Solve fuel m sol = some (m1, [], [])) := by
  refine ⟨?_, ?_, ?_, ?_⟩
  · intro fuel m sol hs
    simp only [Solve, hs, listClear]
  · intro fuel m sol
    exact ⟨rfl, rfl⟩
  · intro fuel m sol r h
    cases hs : m.start_ with
    | none =>
      simp only [Solve, hs, listClear, Option.some.injEq] at h
      subst h
      simp
    | some s =>
      unfold Solve at h
      simp only [hs] at h
      split at h
      · cases h
      · simp only [Option.some.injEq] at h
        subst h
        simp
  · intro fuel m sol s g hwf hs hg hnot hfuel
    obtain ⟨m1, path, done, lev, e1, e2, -⟩ := Solve_spec m hwf hs fuel hfuel sol
    have : path = [] := e2.2 (fun g1 hg1 => by
      rw [hg] at hg1; obtain rfl := Option.some.inj hg1; exact hnot)
    subst this
    exact ⟨m1, e1⟩

/-- Witness for C12: a maze with start unset, a stale visited flag and a stale
queue entry, called with a non-empty output list. -/
theorem C12_invalid_start_witness :
    Solve 0 unsetStart [4, 2] =
      some ({ unsetStart with conQueue_ := [] }, [], [Diag.invalidStart]) :=
  C12_invalid_start.1 0 unsetStart [4, 2] rfl

/-- C13: `GetNextNeighbor` returns `N` exactly when `N` stands in the neighbour
list after entries that are all visited and is itself not visited; it returns
none exactly when every entry is visited, in particular for the empty list; an
entry added later never displaces the one returned; the result depends only on
the neighbour list and the visited flags of its entries, so a second call with
these unchanged returns the same cell. -/
theorem C13_getNextNeighbor (cells : List Cell) (c : Cell) :
    (∀ N, c.GetNextNeighbor cells = some N ↔
      ∃ pre post, c.neighborList_ = pre ++ N :: post ∧
        (∀ x, x ∈ pre → (cellAt cells x).IsVisited = true) ∧
        (cellAt cells N).IsVisited = false) ∧
    (c.GetNextNeighbor cells = none ↔
      ∀ x, x ∈ c.neighborList_ → (cellAt cells x).IsVisited = true) ∧
    (c.neighborList_ = [] → c.GetNextNeighbor cells = none) ∧
    (∀ x N, c.GetNextNeighbor cells = some N →
      (c.AddNeighbor x).GetNextNeighbor cells = some N) ∧
    (∀ cells1 : List Cell,
      (∀ x, x ∈ c.neighborList_ → (cellAt cells1 x).IsVisited = (cellAt cells x).IsVisited) →
      c.GetNextNeighbor cells1 = c.GetNextNeighbor cells) := by
  refine ⟨?_, ?_, ?_, ?_, ?_⟩
  · intro N
    unfold Cell.GetNextNeighbor
    rw [List.find?_eq_some]
    constructor
    · rintro ⟨h1, pre, post, h2, h3⟩
      refine ⟨pre, post, h2, fun x hx => ?_, by simpa using h1⟩
      simpa using h3 x hx
    · rintro ⟨pre, post, h2, h3, h1⟩
      refine ⟨by simpa using h1, pre, post, h2, fun x hx => ?_⟩
      simpa using h3 x hx
  · unfold Cell.GetNextNeighbor
    rw [List.find?_eq_none]
    constructor
    · intro h x hx; simpa using h x hx
    · intro h x hx; simpa using h x hx
  · intro h
    unfold Cell.GetNextNeighbor
    rw [h]; rfl
  · intro x N h
    unfold Cell.GetNextNeighbor Cell.AddNeighbor at *
    simp only [List.find?_append, h]
    rfl
  · intro cells1 h
    unfold Cell.GetNextNeighbor
    apply find?_congr_mem
    intro x hx
    rw [h x hx]

/-- Witness for C13: with cells 0 and 1 visited and cell 2 not, the neighbour list
`[0, 2, 1]` yields cell 2. -/
theorem C13_getNextNeighbor_witness :
    ({ id_ := 7, neighborList_ := [0, 2, 1], visited_ := false, searchParent_ := none } :
      Cell).GetNextNeighbor walledOffSolved.cellVector_ = some 2 :=
  ((C13_getNextNeighbor walledOffSolved.cellVector_
    { id_ := 7, neighborList_ := [0, 2, 1], visited_ := false, searchParent_ := none }).1 2).2
    ⟨[0], [1], rfl, by decide, by decide⟩

/-- C14: on a well-formed maze and with a budget of at least the number of cells,
`Solve` returns, so both of its loops end; in its run no cell is pushed twice,
every pushed cell had its visited flag false right before the `SetVisited` that
precedes its push and has it true afterwards, the number of pushes is at most
the number of cells, and with a valid start every cell visited at the end was
pushed. -/
theorem C14_enqueue_once (m : Maze) (hwf : WellFormed m) (fuel : Nat)
    (hfuel : m.cellVector_.length ≤ fuel) (sol : List Nat) :
    ∃ m1 path diag t, SolveLog fuel m sol = some (m1, path, diag, t) ∧
      Solve fuel m sol = some (m1, path, diag) ∧
      (t.pushes.map Prod.fst).Nodup ∧
      (∀ e, e ∈ t.pushes → e.2 = false ∧ (cellAt m1.cellVector_ e.1).IsVisited = true) ∧
      t.pushes.length ≤ m.cellVector_.length ∧
      (m.start_ ≠ none →
        ∀ p, (cellAt m1.cellVector_ p).IsVisited = true → p ∈ t.pushes.map Prod.fst) := by
  cases hs : m.start_ with
  | none =>
    refine ⟨_, _, _, _, SolveLog_none hs fuel sol, Solve_of_SolveLog (SolveLog_none hs fuel sol),
      List.nodup_nil, fun e he => (by cases he), Nat.zero_le _, fun h => absurd rfl h⟩
  | some s =>
    obtain ⟨m1, path, t, done, lev, e1, e2, e3, e4, -⟩ := SolveLog_spec m hwf hs fuel hfuel sol
    refine ⟨m1, path, [], t, e1, Solve_of_SolveLog e1, ?_, ?_, ?_, ?_⟩
    · rw [e3]; exact e2.nodup
    · intro e he
      refine ⟨e4 e he, (e2.vis e.1).2 ?_⟩
      rw [← e3]
      exact List.mem_map_of_mem _ he
    · have := e2.length_le
      rw [← e3, List.length_map] at this
      exact this
    · intro _ p hp
      rw [e3]
      exact (e2.vis p).1 hp

/-- Witness for C14: the run on the maze `tangled`, whose cell 0 lists itself, lists
cell 1 twice and is listed back by cell 1 only, pushes the cells 0, 1, 2, each
once. -/
theorem C14_enqueue_once_witness :
    WellFormed tangled ∧
    SolveLog 3 tangled [] =
      some (tangledSolved, [0, 2], [],
        { pushes := [(0, false), (1, false), (2, false)], fronts := [0, 1, 2] }) ∧
    ∃ m1 path diag t, SolveLog 3 tangled [] = some (m1, path, diag, t) ∧
      Solve 3 tangled [] = some (m1, path, diag) ∧
      (t.pushes.map Prod.fst).Nodup ∧
      (∀ e, e ∈ t.pushes → e.2 = false ∧ (cellAt m1.cellVector_ e.1).IsVisited = true) ∧
      t.pushes.length ≤ tangled.cellVector_.length ∧
      (tangled.start_ ≠ none →
        ∀ p, (cellAt m1.cellVector_ p).IsVisited = true → p ∈ t.pushes.map Prod.fst) :=
  ⟨tangled_wellFormed, tangled_trace,
    C14_enqueue_once tangled tangled_wellFormed 3 (by decide) []⟩

/-- C15: in a run of `Solve` with a valid start on a well-formed maze there is a
distance `dist` such that for every pushed cell `dist` is its least number of
neighbour-link steps from start; the cells in the order they are pushed have
non-decreasing `dist`; the cells in the order they are read by `Front` are a
prefix of that order, so have non-decreasing `dist` too; and a pushed cell with
a parent has `dist` one more than its parent. -/
theorem C15_distance_order (m : Maze) (hwf : WellFormed m) (s : Nat)
    (hs : m.start_ = some s) (fuel : Nat) (hfuel : m.cellVector_.length ≤ fuel)
    (sol : List Nat) :
    ∃ m1 path t, ∃ dist : Nat → Nat, SolveLog fuel m sol = some (m1, path, [], t) ∧
      (∀ p, p ∈ t.pushes.map Prod.fst →
        StepsTo m.cellVector_ s (dist p) p ∧ ∀ n, StepsTo m.cellVector_ s n p → dist p ≤ n) ∧
      (t.pushes.map Prod.fst).Pairwise (fun a b => dist a ≤ dist b) ∧
      t.fronts <+: t.pushes.map Prod.fst ∧
      t.fronts.Pairwise (fun a b => dist a ≤ dist b) ∧
      (∀ p, p ∈ t.pushes.map Prod.fst → ∀ pp, (cellAt m1.cellVector_ p).GetParent = some pp →
        pp ∈ t.pushes.map Prod.fst ∧ dist p = dist pp + 1) := by
  obtain ⟨m1, path, t, done, lev, e1, e2, e3, e4, e5⟩ := SolveLog_spec m hwf hs fuel hfuel sol
  have hsorted : (t.pushes.map Prod.fst).Pairwise (fun a b => lev a ≤ lev b) := by
    rw [e3]; exact e2.sorted
  refine ⟨m1, path, t, lev, e1, ?_, hsorted, e5, hsorted.sublist e5.sublist, ?_⟩
  · intro p hp
    rw [e3] at hp
    exact ⟨e2.steps p hp, fun n hn => e2.dist_le hp hn⟩
  · intro p hp pp hpar
    rw [e3] at hp ⊢
    have hps : p ≠ s := by
      rintro rfl
      rw [Cell.GetParent, e2.start.2.2] at hpar; cases hpar
    obtain ⟨pp1, h1, h2, -, h4⟩ := e2.parent p hp hps
    rw [Cell.GetParent, h1] at hpar
    obtain rfl := Option.some.inj hpar
    exact ⟨h2, h4⟩

/-- Witness for C15: the run on the 2 x 2 scenario maze. -/
theorem C15_distance_order_witness :
    WellFormed scenarioMaze ∧
    ∃ m1 path t, ∃ dist : Nat → Nat, SolveLog 4 scenarioMaze [] = some (m1, path, [], t) ∧
      (∀ p, p ∈ t.pushes.map Prod.fst →
        StepsTo scenarioMaze.cellVector_ 0 (dist p) p ∧
          ∀ n, StepsTo scenarioMaze.cellVector_ 0 n p → dist p ≤ n) ∧
      (t.pushes.map Prod.fst).Pairwise (fun a b => dist a ≤ dist b) ∧
      t.fronts <+: t.pushes.map Prod.fst ∧
      t.fronts.Pairwise (fun a b => dist a ≤ dist b) ∧
      (∀ p, p ∈ t.pushes.map Prod.fst → ∀ pp, (cellAt m1.cellVector_ p).GetParent = some pp →
        pp ∈ t.pushes.map Prod.fst ∧ dist p = dist pp + 1) :=
  ⟨scenarioMaze_wellFormed,
    C15_distance_order scenarioMaze scenarioMaze_wellFormed 0 rfl 4 (by decide) []⟩

/-- C16: after `Solve` with a valid start on a well-formed maze the start cell is
visited and has no parent; every cell that is not visited has no parent; every
visited cell other than start has a parent that is visited, lists that cell in
its neighbour list and was pushed before it; and from start to every visited
cell there is a sequence of cells without repetition in which each cell is the
parent of the next. -/
theorem C16_backtrack_chain (m : Maze) (hwf : WellFormed m) (s : Nat)
    (hs : m.start_ = some s) (fuel : Nat) (hfuel : m.cellVector_.length ≤ fuel)
    (sol : List Nat) :
    ∃ m1 path t, SolveLog fuel m sol = some (m1, path, [], t) ∧
      Solve fuel m sol = some (m1, path, []) ∧
      (cellAt m1.cellVector_ s).IsVisited = true ∧
      (cellAt m1.cellVector_ s).GetParent = none ∧
      (∀ p, (cellAt m1.cellVector_ p).IsVisited = false →
        (cellAt m1.cellVector_ p).GetParent = none) ∧
      (∀ p, (cellAt m1.cellVector_ p).IsVisited = true → p ≠ s →
        ∃ pp, (cellAt m1.cellVector_ p).GetParent = some pp ∧
          (cellAt m1.cellVector_ pp).IsVisited = true ∧
          p ∈ (cellAt m1.cellVector_ pp).neighborList_ ∧
          ∃ pre post, t.pushes.map Prod.fst = pre ++ pp :: post ∧ p ∈ post) ∧
      (∀ p, (cellAt m1.cellVector_ p).IsVisited = true →
        ∃ chain : List Nat, chain.head? = some s ∧ chain.getLast? = some p ∧
          List.Chain' (fun a b => (cellAt m1.cellVector_ b).GetParent = some a) chain ∧
          chain.Nodup) := by
  obtain ⟨m1, path, t, done, lev, e1, e2, e3, e4, e5⟩ := SolveLog_spec m hwf hs fuel hfuel sol
  refine ⟨m1, path, t, e1, Solve_of_SolveLog e1, (e2.vis s).2 e2.start.1, e2.start.2.2,
    e2.fresh, ?_, ?_⟩
  · intro p hp hps
    have hp' := (e2.vis p).1 hp
    obtain ⟨pp, h1, h2, h3, h4⟩ := e2.parent p hp' hps
    refine ⟨pp, h1, (e2.vis pp).2 h2, by rw [e2.same.nbrs]; exact h3, ?_⟩
    rw [e3]
    exact before_of_lt _ e2.sorted pp p h2 hp' (by omega)
  · intro p hp
    obtain ⟨chain, c1, c2, c3, c4, -⟩ := e2.parent_chain (lev p) p ((e2.vis p).1 hp) rfl
    exact ⟨chain, c1, c2, c3, c4⟩

/-- Witness for C16: the run on the 2 x 2 scenario maze. -/
theorem C16_backtrack_chain_witness :
    WellFormed scenarioMaze ∧
    ∃ m1 path t, SolveLog 4 scenarioMaze [] = some (m1, path, [], t) ∧
      Solve 4 scenarioMaze [] = some (m1, path, []) ∧
      (cellAt m1.cellVector_ 0).IsVisited = true ∧
      (cellAt m1.cellVector_ 0).GetParent = none ∧
      (∀ p, (cellAt m1.cellVector_ p).IsVisited = false →
        (cellAt m1.cellVector_ p).GetParent = none) ∧
      (∀ p, (cellAt m1.cellVector_ p).IsVisited = true → p ≠ 0 →
        ∃ pp, (cellAt m1.cellVector_ p).GetParent = some pp ∧
          (cellAt m1.cellVector_ pp).IsVisited = true ∧
          p ∈ (cellAt m1.cellVector_ pp).neighborList_ ∧
          ∃ pre post, t.pushes.map Prod.fst = pre ++ pp :: post ∧ p ∈ post) ∧
      (∀ p, (cellAt m1.cellVector_ p).IsVisited = true →
        ∃ chain : List Nat, chain.head? = some 0 ∧ chain.getLast? = some p ∧
          List.Chain' (fun a b => (cellAt m1.cellVector_ b).GetParent = some a) chain ∧
          chain.Nodup) :=
  ⟨scenarioMaze_wellFormed,
    C16_backtrack_chain scenarioMaze scenarioMaze_wellFormed 0 rfl 4 (by decide) []⟩

/-- C17: a returning `Solve` leaves the number of cells, every cell's id and
neighbour list, `numrows_`, `numcols_`, `start_` and `goal_` as they were, and
`Consistent` returns the same flag and writes the same reports afterwards. -/
theorem C17_solve_frame (fuel : Nat) (m m1 : Maze) (sol path : List Nat) (log : List Diag)
    (h : Solve fuel m sol = some (m1, path, log)) :
    m1.cellVector_.length = m.cellVector_.length ∧
    (∀ p, (cellAt m1.cellVector_ p).GetID = (cellAt m.cellVector_ p).GetID ∧
      (cellAt m1.cellVector_ p).neighborList_ = (cellAt m.cellVector_ p).neighborList_) ∧
    m1.numrows_ = m.numrows_ ∧ m1.numcols_ = m.numcols_ ∧
    m1.start_ = m.start_ ∧ m1.goal_ = m.goal_ ∧
    Consistent m1 = Consistent m := by
  obtain ⟨h1, h2, h3, h4, h5⟩ := Solve_frame h
  exact ⟨h1.length, fun p => ⟨h1.ids p, h1.nbrs p⟩, h4, h5, h2, h3, Consistent_congr h1 h4 h5⟩

/-- Witness for C17: the solve of the 2 x 2 scenario maze. -/
theorem C17_solve_frame_witness :
    Solve 4 scenarioMaze [] = some (scenarioSolved, [0, 1, 3], []) ∧
    (scenarioSolved.cellVector_.length = scenarioMaze.cellVector_.length ∧
    (∀ p, (cellAt scenarioSolved.cellVector_ p).GetID
        = (cellAt scenarioMaze.cellVector_ p).GetID ∧
      (cellAt scenarioSolved.cellVector_ p).neighborList_
        = (cellAt scenarioMaze.cellVector_ p).neighborList_) ∧
    scenarioSolved.numrows_ = scenarioMaze.numrows_ ∧
    scenarioSolved.numcols_ = scenarioMaze.numcols_ ∧
    scenarioSolved.start_ = scenarioMaze.start_ ∧ scenarioSolved.goal_ = scenarioMaze.goal_ ∧
    Consistent scenarioSolved = Consistent scenarioMaze) :=
  ⟨scenarioMaze_solve,
    C17_solve_frame 4 scenarioMaze scenarioSolved [] [0, 1, 3] [] scenarioMaze_solve⟩

/-- C18 fails on the code: with the tokens 641 6700417 13 0 0 the load succeeds and
allocates one cell (the product `2^32 + 1` wraps to 1), yet cell 0 receives the
East neighbour index 1, which is not below the number of cells, and the cell
count is not the true product.  When the product of the dimensions is below
`2^32`, every neighbour reference, start and goal of a loaded maze is below the
cell count and the cell count is the product. -/
theorem C18_neighbour_out_of_range :
    (Initialize (some eastOpenInput) Maze.new).1 = true ∧
    (Initialize (some eastOpenInput) Maze.new).2.1.cellVector_.length = 1 ∧
    (cellAt (Initialize (some eastOpenInput) Maze.new).2.1.cellVector_ 0).neighborList_ = [1] ∧
    ¬ WellFormed (Initialize (some eastOpenInput) Maze.new).2.1 ∧
    641 * 6700417 ≠ (Initialize (some eastOpenInput) Maze.new).2.1.cellVector_.length ∧
    (∀ (ifs : List (Option Nat)) (m : Maze) (rows cols : Nat),
      (Initialize (some ifs) m).1 = true →
      tokenAt ifs 0 = some rows → tokenAt ifs 1 = some cols → rows * cols < 4294967296 →
      WellFormed (Initialize (some ifs) m).2.1 ∧
      (Initialize (some ifs) m).2.1.cellVector_.length = rows * cols) := by
  refine ⟨by decide, by decide, by decide, ?_, by decide, ?_⟩
  · intro hwf
    have h1 : (1 : Nat) ∈
        (cellAt (Initialize (some eastOpenInput) Maze.new).2.1.cellVector_ 0).neighborList_ := by
      decide
    have h2 := hwf.links 0 1 h1
    have h3 : (Initialize (some eastOpenInput) Maze.new).2.1.cellVector_.length = 1 := by decide
    rw [h3] at h2
    exact absurd h2 (by decide)
  · intro ifs m rows cols hok h0 h1 hlt
    rcases Initialize_cases ifs m with ⟨r, c, s, g, log, hl, he⟩ | ⟨-, log, he⟩
    · rw [he]
      have e0 := h0.symm.trans hl.1
      have e1 := h1.symm.trans hl.2.1
      obtain rfl := Option.some.inj e0
      obtain rfl := Option.some.inj e1
      refine ⟨(loaded_wellFormed hl hlt).1, ?_⟩
      show (loaded ifs rows cols s g).cellVector_.length = rows * cols
      rw [loaded_length, umul, Nat.mod_eq_of_lt hlt]
    · rw [he] at hok; cases hok

/-- Witness for C18: on the 2 x 2 scenario, whose product of dimensions is 4, the
loaded maze has every reference below its cell count and has 4 cells. -/
theorem C18_neighbour_out_of_range_witness :
    WellFormed (Initialize (some scenario) Maze.new).2.1 ∧
    (Initialize (some scenario) Maze.new).2.1.cellVector_.length = 2 * 2 :=
  C18_neighbour_out_of_range.2.2.2.2.2 scenario Maze.new 2 2
    (by decide) (by decide) (by decide) (by decide)

/-- C19 fails on the code: with the tokens 4294967294 4294967295 15 3 0 0 the load
succeeds with two cells (the product of the dimensions wraps to 2), and cell 1
(code 3, South and West open) has the neighbour list `[0, 0]`: its South
candidate wraps to 0, the same cell as its West neighbour, a duplicate entry.
On every successful load every neighbour list has at most four entries and
never holds the cell itself; when the product of the dimensions is below `2^32`
it also has no duplicate entry and every entry is a cell of the maze at
Manhattan distance 1 in (row, col) coordinates. -/
theorem C19_grid_shape :
    (Initialize (some twiceInput) Maze.new).1 = true ∧
    (Initialize (some twiceInput) Maze.new).2.1.cellVector_.length = 2 ∧
    (cellAt (Initialize (some twiceInput) Maze.new).2.1.cellVector_ 1).neighborList_ = [0, 0] ∧
    ¬ GridShaped (Initialize (some twiceInput) Maze.new).2.1.cellVector_ 4294967295 1 ∧
    (∀ (ifs : List (Option Nat)) (m : Maze), (Initialize (some ifs) m).1 = true →
      ∀ n, n < (Initialize (some ifs) m).2.1.cellVector_.length →
        (cellAt (Initialize (some ifs) m).2.1.cellVector_ n).neighborList_.length ≤ 4 ∧
        n ∉ (cellAt (Initialize (some ifs) m).2.1.cellVector_ n).neighborList_) ∧
    (∀ (ifs : List (Option Nat)) (m : Maze) (rows cols : Nat),
      (Initialize (some ifs) m).1 = true →
      tokenAt ifs 0 = some rows → tokenAt ifs 1 = some cols → rows * cols < 4294967296 →
      ∀ n, n < (Initialize (some ifs) m).2.1.cellVector_.length →
        GridShaped (Initialize (some ifs) m).2.1.cellVector_ cols n) := by
  have key : ∀ {ifs : List (Option Nat)} {rows cols s g : Nat}, Loads ifs rows cols s g →
      ∀ n, n < (loaded ifs rows cols s g).cellVector_.length →
        ∃ w, (cellAt (loaded ifs rows cols s g).cellVector_ n).neighborList_
            = decode uadd rows cols n w ∧ n < umul rows cols ∧ 0 < cols := by
    intro ifs rows cols s g hl n hn
    rw [loaded_length] at hn
    obtain ⟨w, -, -, hcell⟩ := loaded_cell hl hn
    exact ⟨w, by rw [hcell], hn, umul_pos_cols hn⟩
  refine ⟨by decide, by decide, by decide, ?_, ?_, ?_⟩
  · rintro ⟨-, hnodup, -⟩
    have h : (cellAt (Initialize (some twiceInput) Maze.new).2.1.cellVector_ 1).neighborList_
        = [0, 0] := by decide
    rw [h] at hnodup
    exact absurd hnodup (by decide)
  · intro ifs m hok
    rcases Initialize_cases ifs m with ⟨rows, cols, s, g, log, hl, he⟩ | ⟨-, log, he⟩
    · rw [he]
      intro n hn
      have hc : cols < 4294967296 := (tokenAt_lt hl.2.1).1
      obtain ⟨w, hw, hlt, hpos⟩ := key hl n hn
      show (cellAt (loaded ifs rows cols s g).cellVector_ n).neighborList_.length ≤ 4 ∧
        n ∉ (cellAt (loaded ifs rows cols s g).cellVector_ n).neighborList_
      rw [hw]
      exact ⟨decode_length_le _ _ _ _ _,
        not_mem_decode_self (by have := umul_lt rows cols; omega) hpos hc⟩
    · rw [he] at hok; cases hok
  · intro ifs m rows cols hok h0 h1 hprod
    rcases Initialize_cases ifs m with ⟨r, c, s, g, log, hl, he⟩ | ⟨-, log, he⟩
    · rw [he]
      have e0 := h0.symm.trans hl.1
      have e1 := h1.symm.trans hl.2.1
      obtain rfl := Option.some.inj e0
      obtain rfl := Option.some.inj e1
      have hc : cols < 4294967296 := (tokenAt_lt hl.2.1).1
      intro n hn
      obtain ⟨w, hw, hlt, hpos⟩ := key hl n hn
      have hu : umul rows cols = rows * cols := Nat.mod_eq_of_lt hprod
      have hplus : decode uadd rows cols n w = decode (· + ·) rows cols n w :=
        (decode_plus w hprod (by rw [← hu]; exact hlt)).symm
      show GridShaped (loaded ifs rows cols s g).cellVector_ cols n
      unfold GridShaped
      rw [hw]
      refine ⟨decode_length_le _ _ _ _ _, ?_,
        not_mem_decode_self (by have := umul_lt rows cols; omega) hpos hc, ?_⟩
      · rw [hplus]; exact decode_nodup rows cols n w hpos
      · intro q hq
        refine ⟨?_, ?_⟩
        · rw [loaded_length, hu]
          exact loaded_links hl hprod (p := n) (by rw [hw]; exact hq)
        · rw [hplus] at hq
          exact manhattan_decode hpos hq
    · rw [he] at hok; cases hok

/-- Witness for C19: every cell of the 2 x 2 scenario has a grid-shaped neighbour
list. -/
theorem C19_grid_shape_witness :
    (Initialize (some scenario) Maze.new).2.1.cellVector_.length = 4 ∧
    ∀ n, n < (Initialize (some scenario) Maze.new).2.1.cellVector_.length →
      GridShaped (Initialize (some scenario) Maze.new).2.1.cellVector_ 2 n :=
  ⟨by decide, C19_grid_shape.2.2.2.2.2 scenario Maze.new 2 2 (by decide) (by decide)
    (by decide) (by decide)⟩

/-- C20: when a dimension is 0 `Initialize` returns false whatever follows in the
input; the loop body runs only for cell numbers below the cell count, and then
neither dimension is 0, while with a dimension 0 the loop returns at once; in
every state reached through the constructor, `Clear`, `Initialize` and `Solve`
start is set exactly when the maze has a cell; and in every such state the
solver that resets before it checks start returns what `Solve` returns. -/
theorem C20_no_empty_maze :
    (∀ (ifs : List (Option Nat)) (m : Maze) (rows cols : Nat),
      tokenAt ifs 0 = some rows → tokenAt ifs 1 = some cols → rows = 0 ∨ cols = 0 →
      (Initialize (some ifs) m).1 = false) ∧
    (∀ rows cols number : Nat, number < umul rows cols → 0 < rows ∧ 0 < cols) ∧
    (∀ (rows cols : Nat) (ifs : List (Option Nat)) (cells : List Cell) (log : List Diag),
      rows = 0 ∨ cols = 0 →
      initLoop rows cols (umul rows cols) 0 ifs cells log = Except.ok (cells, log, ifs)) ∧
    (∀ m : Maze, Attainable m → (m.start_ ≠ none ↔ 0 < m.cellVector_.length)) ∧
    (∀ (m : Maze) (fuel : Nat) (sol : List Nat), Attainable m →
      SolveResetFirst fuel m sol = Solve fuel m sol) := by
  have hzero : ∀ rows cols : Nat, rows = 0 ∨ cols = 0 → umul rows cols = 0 := by
    intro rows cols h
    rcases h with rfl | rfl <;> simp [umul]
  refine ⟨?_, ?_, ?_, fun m h => h.start_iff, fun m fuel sol h =>
    SolveResetFirst_eq h.start_iff fuel sol⟩
  · intro ifs m rows cols h0 h1 hz
    rcases Initialize_cases ifs m with ⟨r, c, s, g, log, hl, he⟩ | ⟨-, log, he⟩
    · exfalso
      have e0 := h0.symm.trans hl.1
      have e1 := h1.symm.trans hl.2.1
      obtain rfl := Option.some.inj e0
      obtain rfl := Option.some.inj e1
      have := hl.2.2.2.2.2.1
      rw [hzero rows cols hz] at this
      exact absurd this (Nat.not_lt_zero _)
    · rw [he]
  · intro rows cols number h
    constructor
    · rcases Nat.eq_zero_or_pos rows with h0 | h0
      · rw [hzero rows cols (Or.inl h0)] at h
        exact absurd h (Nat.not_lt_zero _)
      · exact h0
    · exact umul_pos_cols h
  · intro rows cols ifs cells log hz
    rw [hzero rows cols hz]
    rfl

/-- Witness for C20: the dimensions 0 x 5 followed by codes, start and goal. -/
theorem C20_no_empty_maze_witness :
    (Initialize (some [some 0, some 5, some 15, some 0, some 0]) scenarioMaze).1 = false ∧
    Attainable scenarioSolved ∧
    SolveResetFirst 4 scenarioSolved [] = Solve 4 scenarioSolved [] :=
  ⟨C20_no_empty_maze.1 [some 0, some 5, some 15, some 0, some 0] scenarioMaze 0 5
      (by decide) (by decide) (Or.inl rfl),
    Attainable.solve
      (by
        have h : Attainable (Initialize (some scenario) Maze.new).2.1 :=
          Attainable.load (some scenario) Attainable.new
        have e : (Initialize (some scenario) Maze.new).2.1 = scenarioMaze := by decide
        rw [e] at h
        exact h)
      scenarioMaze_solve,
    C20_no_empty_maze.2.2.2.2 scenarioSolved 4 []
      (Attainable.solve
        (by
          have h : Attainable (Initialize (some scenario) Maze.new).2.1 :=
            Attainable.load (some scenario) Attainable.new
          have e : (Initialize (some scenario) Maze.new).2.1 = scenarioMaze := by decide
          rw [e] at h
          exact h)
        scenarioMaze_solve)⟩

end Maze

end maze
